import Mathlib

/-!
# ControlCenter: directory importer (`logeater/dirwatcher/dir_importer.go`)

A shallow embedding of the log directory importer: the high-water publisher
(`ignoringPublisher`), the historical merge (`importExistingLogs`) and the
file-set planner (`buildFilesToImport`), followed by the properties proved
about them.

Conventions of the embedding.

* A Go `time.Time` is the integer count of clock ticks since Go's zero instant
  (`time.Time{}`, January 1 of year 1, UTC).  `IsZero`, `Before`, `After` and
  `Equal` compare instants, so they are `= 0`, `<`, `>` and `=` on that integer.
  Instants before the zero instant are negative.
* A `postfix.Sum` is a natural number; a `*postfix.Sum` is an `Option`.
* A Go panic (nil dereference, `MustSucceed`, explicit `panic`) is `none`.
-/

namespace ControlCenter

/-! ## Time and checksums -/

/-- A Go `time.Time`, as ticks since the zero instant `time.Time{}`. -/
abbrev Time := Int

/-- Go `Time.IsZero`. -/
def Time.IsZero (t : Time) : Bool := decide (t = 0)

/-- Go `Time.Before`. -/
def Time.Before (t u : Time) : Bool := decide (t < u)

/-- Go `Time.After`. -/
def Time.After (t u : Time) : Bool := decide (u < t)

/-- Go `Time.Equal`. -/
def Time.Equal (t u : Time) : Bool := decide (t = u)

/-- A `postfix.Sum`: the checksum of a raw log line. -/
abbrev Sum := Nat

/-- The `postfix.SumPair` high-water mark: a time and an optional checksum
(`Sum *postfix.Sum`, `none` for the nil pointer). -/
structure SumPair where
  Time : Time
  Sum : Option Sum
deriving DecidableEq, Repr

/-- The fields of `postfix.Record` that the importer reads or writes: the
absolute time, the raw line and its checksum. -/
structure Record where
  Time : Time
  Line : String
  Sum : Sum
deriving DecidableEq, Repr

/-! ## `ignoringPublisher` -/

/-- The `ignoringPublisher`: the wrapped publisher is represented by the list
of records it has received so far (oldest first), as the test publisher of the
repository does. -/
structure IgnoringPublisher where
  pub : List Record
  lastPublishedSumPair : SumPair
deriving DecidableEq, Repr

/-- The `shouldIgnore` expression of `ignoringPublisher.Publish`, with Go's
short-circuit evaluation: `*pub.lastPublishedSumPair.Sum` is evaluated only
when the high-water time is not zero, the record is not before it and the
record's time equals it; dereferencing a nil checksum there is a panic. -/
def shouldIgnore (hw : SumPair) (r : Record) : Option Bool :=
  if hw.Time.IsZero then some false
  else if r.Time.Before hw.Time then some true
  else if r.Time.Equal hw.Time then
    match hw.Sum with
    | none => none
    | some s => some (decide (r.Sum = s))
  else some false

/-- The method `ignoringPublisher.Publish`: forward the record and move the
high-water to it unless it is to be ignored.  On the ignore path the code only
chooses between staying silent and logging, so the state is returned as is. -/
def IgnoringPublisher.Publish (p : IgnoringPublisher) (r : Record) : Option IgnoringPublisher :=
  match shouldIgnore p.lastPublishedSumPair r with
  | none => none
  | some false =>
      some { pub := p.pub ++ [r], lastPublishedSumPair := { Time := r.Time, Sum := some r.Sum } }
  | some true => some p

/-- A sequence of `Publish` calls, as made by the loops of `run`; a panic in one
call aborts the sequence. -/
def IgnoringPublisher.publishAll (p : IgnoringPublisher) : List Record → Option IgnoringPublisher
  | [] => some p
  | r :: rs =>
      match p.Publish r with
      | none => none
      | some q => q.publishAll rs

/-- The state in which a sequence of `Publish` calls leaves the publisher,
whether all calls complete or one of them panics: in the latter case this is
the state before the panicking call. -/
def IgnoringPublisher.publishTrace (p : IgnoringPublisher) : List Record → IgnoringPublisher
  | [] => p
  | r :: rs =>
      match p.Publish r with
      | none => p
      | some q => q.publishTrace rs

/-! ## Files and paths -/

/-- Go `path.Base`: the last element of a slash-separated path, after removing
trailing slashes; `"."` for the empty path and `"/"` for a path of slashes. -/
def pathBase (path : String) : String :=
  if path = "" then "."
  else
    let stripped := (path.data.reverse.dropWhile (fun c => c == '/')).reverse
    let last := (stripped.reverse.takeWhile (fun c => c != '/')).reverse
    if last = [] then "/" else String.mk last

/-- The struct `fileEntry`. -/
structure fileEntry where
  filename : String
  modificationTime : Time
deriving DecidableEq, Repr

/-- The type `fileEntryList`. -/
abbrev fileEntryList := List fileEntry

/-! ## Historical import: queue processors

The header parser and the time converter live in `pkg/postfix`, outside these
sources.  A line of a log file is therefore given together with the outcome of
parsing its header and converting its time: `none` when the header does not
parse (the importer warns and skips the line), `some t` when the converter
dates the line at `t`.  Files are taken to be readable, so the I/O error
returns of the importer do not occur; the error it does return is that of
`guessInitialDateForFile`, when the converter of a queue is created. -/

/-- One line of a log file, with the absolute time its header converts to. -/
structure LogLine where
  text : String
  time : Option Time
deriving DecidableEq, Repr

/-- A `postfix.RecordLocation`. -/
structure RecordLocation where
  Filename : String
  Line : Nat
deriving DecidableEq, Repr

/-- The struct `parsedHeaderRecord` (the parsed header and payload offset are
not needed to follow the import). -/
structure parsedHeaderRecord where
  time : Time
  location : RecordLocation
  line : String
deriving DecidableEq, Repr

/-- Where a queue's time converter comes from: created for the first parsed
line of the file with the given index in the queue
(`createConverterForQueueProcessor`), or synthesised from the modification time
of the queue's last file. -/
inductive TimeConverter where
  | forFile (index : Nat) : TimeConverter
  | fromModificationTime (t : Time) : TimeConverter
deriving DecidableEq, Repr

/-- The errors of `guessInitialDateForFile`: the header of the first line, or
of the last line, does not parse. -/
inductive GuessError where
  | firstLine : GuessError
  | lastLine : GuessError
deriving DecidableEq, Repr

/-- The struct `queueProcessor`.  `scanners` holds what is still unread of the
files from `currentIndex` on (the head is the file being read), so that reading
a line or moving to the next file shortens it.  `content` holds the lines of
every file of the queue, one list per entry, as a reader opened anew with
`content.readerForEntry` gives them. -/
structure queueProcessor where
  content : List (List LogLine)
  scanners : List (List LogLine)
  entries : fileEntryList
  record : parsedHeaderRecord
  currentIndex : Nat
  converter : Option TimeConverter
  pattern : String
  filename : String
  line : Nat
deriving DecidableEq, Repr

/-- The function `setFileLocationOnQueueProcessorIfNeeded`; there are as many
readers as entries, so `currentIndex < len(p.readers)` is an entry lookup. -/
def setFileLocationOnQueueProcessorIfNeeded (p : queueProcessor) : queueProcessor :=
  match p.entries.get? p.currentIndex with
  | none => p
  | some e => if p.line > 0 then p else { p with filename := pathBase e.filename }

/-- Reading the current file inside the loop of `updateQueueProcessor`: scan
lines, counting them, until one parses; `none` when the file ends first. -/
def scanUntilParsed : List LogLine → Nat → Option (Time × String × Nat × List LogLine)
  | [], _ => none
  | l :: ls, n =>
      match l.time with
      | none => scanUntilParsed ls (n + 1)
      | some t => some (t, l.text, n + 1, ls)

/-- The error, if any, that `guessInitialDateForFile` returns on a file: the
header of the first line does not parse, or the file has more lines and the
header of the last one does not parse (`guessInitialDateForFile_error` relates
it to the function itself). -/
def guessError (file : List LogLine) : Option GuessError :=
  match file with
  | [] => none
  | first :: rest =>
      match first.time with
      | none => some GuessError.firstLine
      | some _ =>
          match rest.getLast? with
          | none => none
          | some last =>
              match last.time with
              | none => some GuessError.lastLine
              | some _ => none

/-- The function `createConverterForQueueProcessor`: it opens the file at
`currentIndex` again and guesses its initial date, failing when the guess
fails; the converter it builds is known by the file it was created for.  There
are as many files as entries, so the lookup is inside the slice. -/
def createConverterForQueueProcessor (p : queueProcessor) : Except GuessError TimeConverter :=
  match guessError (p.content.getD p.currentIndex []) with
  | some e => Except.error e
  | none => Except.ok (TimeConverter.forFile p.currentIndex)

/-- The loop of `updateQueueProcessor`, by recursion on the files left: returns
`true` with the next parsed line stored in `record`, or `false` once every file
of the queue is exhausted, or the error of creating the converter at the first
parsed line of the queue. -/
def updateQueueProcessorLoop :
    List (List LogLine) → queueProcessor → Except GuessError (Bool × queueProcessor)
  | [], p => Except.ok (false, { p with scanners := [] })
  | f :: rest, p =>
      match scanUntilParsed f p.line with
      | some (t, text, n, f') =>
          match (match p.converter with
              | none => createConverterForQueueProcessor p
              | some c => Except.ok c) with
          | Except.error e => Except.error e
          | Except.ok c =>
              Except.ok (true,
                { p with
                  scanners := f' :: rest
                  line := n
                  converter := some c
                  record :=
                    { time := t, location := { Filename := p.filename, Line := n }, line := text } })
      | none =>
          updateQueueProcessorLoop rest
            (setFileLocationOnQueueProcessorIfNeeded
              { p with scanners := rest, currentIndex := p.currentIndex + 1, line := 0 })

/-- The function `updateQueueProcessor`. -/
def updateQueueProcessor (p : queueProcessor) : Except GuessError (Bool × queueProcessor) :=
  let q := setFileLocationOnQueueProcessorIfNeeded p
  updateQueueProcessorLoop q.scanners q

/-! ## Historical import: the merge loop -/

/-- What `importExistingLogs` does that is visible from outside, in order: a
converter handed over on a queue's channel (`p.converterChan <- p.converter`),
and, for every iteration of the merge loop, the record chosen and whether the
iteration reached `pub.Publish` (`true`) or left through a `continue`. -/
inductive ImportEvent where
  | handed (pattern : String) (c : TimeConverter) : ImportEvent
  | chosen (r : parsedHeaderRecord) (published : Bool) : ImportEvent
deriving DecidableEq, Repr

/-- The function `updateQueueProcessors`, over the processors from index `i`
on: returns the processors appended to `updatedProcessors`, the converters
handed over, and the error it returns, if any; after an error of
`updateQueueProcessor` the processors that follow are not looked at.  The flag
the code calls `isFirstExecution` is `toBeUpdated != -1`. -/
def updateQueueProcessors (toBeUpdated : Int) :
    List queueProcessor → Nat → List queueProcessor × List ImportEvent × Option GuessError
  | [], _ => ([], [], none)
  | p :: ps, i =>
      let rest := updateQueueProcessors toBeUpdated ps (i + 1)
      if toBeUpdated ≠ -1 ∧ (i : Int) ≠ toBeUpdated then (p :: rest.1, rest.2.1, rest.2.2)
      else
        match updateQueueProcessor p with
        | Except.error e => ([], [], some e)
        | Except.ok (true, q) => (q :: rest.1, rest.2.1, rest.2.2)
        | Except.ok (false, q) =>
            match q.converter with
            | some c => (rest.1, ImportEvent.handed q.pattern c :: rest.2.1, rest.2.2)
            | none =>
                match q.entries.getLast? with
                | none => (rest.1, rest.2.1, rest.2.2)
                | some entry =>
                    (rest.1,
                      ImportEvent.handed q.pattern
                        (TimeConverter.fromModificationTime entry.modificationTime) :: rest.2.1,
                      rest.2.2)

/-- The loop of `chooseIndexForOldestElement` over the processors from index
`i` on; `chosen = none` is `chosenIndex == -1`. -/
def chooseIndexLoop (queueProcessors : List queueProcessor) :
    List queueProcessor → Nat → Option Nat → Option Nat
  | [], _, chosen => chosen
  | _ :: rest, i, none => chooseIndexLoop queueProcessors rest (i + 1) (some i)
  | p :: rest, i, some c =>
      match queueProcessors.get? c with
      | none => none
      | some pc =>
          chooseIndexLoop queueProcessors rest (i + 1)
            (if pc.record.time.After p.record.time then some i else some c)

/-- The function `chooseIndexForOldestElement`; `none` is its panic. -/
def chooseIndexForOldestElement (queueProcessors : List queueProcessor) : Option Nat :=
  chooseIndexLoop queueProcessors queueProcessors 0 none

/-- The high-water test in the body of the merge loop of `importExistingLogs`,
for the chosen record `t`: whether the iteration reaches `pub.Publish`, and the
new value of `checkSumHasAlreadyMatched`.  `computeChecksum` stands for
`postfix.ComputeChecksum(hasher, ·)`. -/
def highWaterTest (computeChecksum : String → Sum) (sum : SumPair)
    (checkSumHasAlreadyMatched : Bool) (t : parsedHeaderRecord) : Bool × Bool :=
  if t.time.Before sum.Time then (false, checkSumHasAlreadyMatched)
  else if t.time.Equal sum.Time then
    match sum.Sum with
    | none => (false, checkSumHasAlreadyMatched)
    | some s =>
        if !checkSumHasAlreadyMatched then
          (false, decide (computeChecksum t.line = s))
        else (true, checkSumHasAlreadyMatched)
  else (true, checkSumHasAlreadyMatched)

/-- The merge loop of `importExistingLogs`, one iteration per unit of fuel:
the events up to its return, and the error it returns, if any (the error of
`updateQueueProcessors`); `none` when the fuel runs out or
`chooseIndexForOldestElement` panics. -/
def importLoop (computeChecksum : String → Sum) (sum : SumPair) :
    Nat → List queueProcessor → Int → Bool → Option (List ImportEvent × Option GuessError)
  | 0, _, _, _ => none
  | fuel + 1, queueProcessors, toBeUpdated, checkSumHasAlreadyMatched =>
      let updated := updateQueueProcessors toBeUpdated queueProcessors 0
      match updated.2.2 with
      | some e => some (updated.2.1, some e)
      | none =>
          if updated.1.length = 0 then some (updated.2.1, none)
          else
            match chooseIndexForOldestElement updated.1 with
            | none => none
            | some k =>
                match updated.1.get? k with
                | none => none
                | some pk =>
                    let test :=
                      highWaterTest computeChecksum sum checkSumHasAlreadyMatched pk.record
                    (importLoop computeChecksum sum fuel updated.1 (k : Int) test.2).map
                      (fun result =>
                        (updated.2.1 ++ ImportEvent.chosen pk.record test.1 :: result.1, result.2))

/-- The lines and files left to a processor: one unit per line and per file. -/
def scannersWeight (fs : List (List LogLine)) : Nat := (fs.map (fun f => f.length + 1)).sum

/-- The number of loop iterations a processor can still cause: one per line and
per file left, and one for being dropped. -/
def queueProcessor.weight (p : queueProcessor) : Nat :=
  scannersWeight p.scanners + 1

/-- The total weight of a list of processors. -/
def totalWeight (ps : List queueProcessor) : Nat := (ps.map queueProcessor.weight).sum

/-- Fuel that lets the merge loop run until it returns. -/
def importFuel (queueProcessors : List queueProcessor) : Nat :=
  totalWeight queueProcessors + 1

/-- The function `importExistingLogs`, from the queue processors built by
`buildQueueProcessors` on: the events up to its return and the error it
returns, if any. -/
def importExistingLogs (computeChecksum : String → Sum) (queueProcessors : List queueProcessor)
    (sum : SumPair) : Option (List ImportEvent × Option GuessError) :=
  importLoop computeChecksum sum (importFuel queueProcessors) queueProcessors (-1) false

/-- The records chosen by the merge loop, in merge order. -/
def chosenRecords : List ImportEvent → List parsedHeaderRecord
  | [] => []
  | ImportEvent.chosen r _ :: es => r :: chosenRecords es
  | ImportEvent.handed _ _ :: es => chosenRecords es

/-- The chosen records together with the loop's decision to publish them. -/
def chosenDecisions : List ImportEvent → List (parsedHeaderRecord × Bool)
  | [] => []
  | ImportEvent.chosen r b :: es => (r, b) :: chosenDecisions es
  | ImportEvent.handed _ _ :: es => chosenDecisions es

/-- The `postfix.Record` that `importExistingLogs` builds from a chosen record. -/
def toRecord (computeChecksum : String → Sum) (t : parsedHeaderRecord) : Record :=
  { Time := t.time, Line := t.line, Sum := computeChecksum t.line }

/-- The records `importExistingLogs` passes to `pub.Publish`, in order. -/
def publishedRecords (computeChecksum : String → Sum) : List ImportEvent → List Record
  | [] => []
  | ImportEvent.chosen r true :: es => toRecord computeChecksum r :: publishedRecords computeChecksum es
  | ImportEvent.chosen _ false :: es => publishedRecords computeChecksum es
  | ImportEvent.handed _ _ :: es => publishedRecords computeChecksum es

/-- The historical phase of `DirectoryImporter.run`: `importExistingLogs`
publishing into an `ignoringPublisher` that starts at the importer's high-water
and wraps a publisher that has received `downstream` so far.  The result is the
publisher as `importExistingLogs` leaves it when it returns, with an error or
without. -/
def runImport (computeChecksum : String → Sum) (queueProcessors : List queueProcessor)
    (sum : SumPair) (downstream : List Record) : Option IgnoringPublisher :=
  match importExistingLogs computeChecksum queueProcessors sum with
  | none => none
  | some result =>
      (IgnoringPublisher.mk downstream sum).publishAll (publishedRecords computeChecksum result.1)

/-- A queue processor as `processorForQueue` builds it for a queue, given the
lines of each of its files. -/
def processorForQueue (pattern : String) (files : List (fileEntry × List LogLine)) :
    queueProcessor :=
  { content := files.map Prod.snd
    scanners := files.map Prod.snd
    entries := files.map Prod.fst
    record := { time := 0, location := { Filename := "", Line := 0 }, line := "" }
    currentIndex := 0
    converter := none
    pattern := pattern
    filename := ""
    line := 0 }

/-- The high-water test of the merge loop applied along a sequence of chosen
records, starting with `checkSumHasAlreadyMatched = matched`: each record with
the decision taken for it. -/
def highWaterDecisions (computeChecksum : String → Sum) (sum : SumPair) :
    Bool → List parsedHeaderRecord → List (parsedHeaderRecord × Bool)
  | _, [] => []
  | matched, t :: ts =>
      (t, (highWaterTest computeChecksum sum matched t).1) ::
        highWaterDecisions computeChecksum sum (highWaterTest computeChecksum sum matched t).2 ts

/-- The merge order of a list of queue processors: the records the merge loop
chooses, one per iteration, until it returns.  Neither the choice nor the
error of the loop looks at the high-water, so the loop is run here with the
zero high-water. -/
def mergedRecords (queueProcessors : List queueProcessor) : List parsedHeaderRecord :=
  match importExistingLogs (fun _ => 0) queueProcessors { Time := 0, Sum := none } with
  | some result => chosenRecords result.1
  | none => []

/-- A small directory for examples: a rotated `mail.log` family with one
unparsable line, an empty `mail.err` family and a `mail.warn` family. -/
def sampleQueueProcessors : List queueProcessor :=
  [ processorForQueue "mail.log"
      [ (⟨"mail.log.1", 10⟩, [⟨"a", some 5⟩, ⟨"junk", none⟩, ⟨"b", some 7⟩]),
        (⟨"mail.log", 20⟩, [⟨"c", some 7⟩, ⟨"d", some 9⟩]) ],
    processorForQueue "mail.err" [],
    processorForQueue "mail.warn" [ (⟨"mail.warn", 20⟩, [⟨"w", some 7⟩, ⟨"x", some 8⟩]) ] ]

/-- Two families that log the same warning in the same second, as `mail.log`
and `mail.warn` do: the merge order is warning, connect, warning. -/
def duplicateLineProcessors : List queueProcessor :=
  [ processorForQueue "mail.log"
      [ (⟨"mail.log", 20⟩, [⟨"warning: x", some 7⟩, ⟨"connect", some 7⟩]) ],
    processorForQueue "mail.warn" [ (⟨"mail.warn", 20⟩, [⟨"warning: x", some 7⟩]) ] ]

/-- One family whose single file holds a line at the zero instant followed by
an older line. -/
def zeroInstantProcessors : List queueProcessor :=
  [ processorForQueue "mail.log"
      [ (⟨"mail.log", 20⟩, [⟨"connect", some 0⟩, ⟨"disconnect", some (-1)⟩]) ] ]

/-! ## File-set planner

`regexp` and `sort` are Go standard library.  A compiled recogniser is given by
what `FindSubmatch` returns on a basename: `none` for no match, otherwise the
submatches 3 (the digits of the suffix) and 5 (the compression extension), an
unmatched group being empty.  `sort.Slice` is the insertion sort that Go's
`sort` package runs on short slices (at most 12 elements), comparing the moving
element with its left neighbour. -/

/-- The value of a string of decimal digits, continuing from `acc`; `none` when
a character is not a digit. -/
def digitsValue : List Char → Nat → Option Nat
  | [], acc => some acc
  | c :: cs, acc =>
      if c.isDigit then digitsValue cs (acc * 10 + (c.toNat - '0'.toNat)) else none

/-- Go `strconv.Atoi` for a 64-bit `int`: an optional sign, at least one digit,
only digits, and a value in the range of `int`; `none` is its error. -/
def atoi (s : List Char) : Option Int :=
  match s with
  | [] => none
  | '-' :: ds =>
      if ds = [] then none
      else match digitsValue ds 0 with
        | none => none
        | some n => if n ≤ 2 ^ 63 then some (-(n : Int)) else none
  | '+' :: ds =>
      if ds = [] then none
      else match digitsValue ds 0 with
        | none => none
        | some n => if n < 2 ^ 63 then some (n : Int) else none
  | ds =>
      match digitsValue ds 0 with
      | none => none
      | some n => if n < 2 ^ 63 then some (n : Int) else none

/-- Two's complement wrap-around of a 64-bit `int` result. -/
def wrapInt64 (x : Int) : Int := (x + 2 ^ 63) % 2 ^ 64 - 2 ^ 63

/-- The type `filenameSortOrder` with its two constants. -/
inductive filenameSortOrder where
  | filenameReverseOrder : filenameSortOrder
  | filenameNormalOrder : filenameSortOrder
deriving DecidableEq, Repr

/-- The integer value of a `filenameSortOrder` constant (`int(r.order)`). -/
def filenameSortOrder.toInt : filenameSortOrder → Int
  | filenameReverseOrder => -1
  | filenameNormalOrder => 1

/-- The struct `filenameRecognizer`; `reg` is `r.reg.FindSubmatch` reduced to
the submatches 3 and 5. -/
structure filenameRecognizer where
  reg : String → Option (List Char × List Char)
  pattern : String
  order : filenameSortOrder

/-- The local struct `rec` of the planner. -/
structure rec where
  entry : fileEntry
  index : Int
  compressed : Bool
deriving DecidableEq, Repr

/-- The first loop of `sortedEntriesFilteredByPatternAndMoreRecentThanTime`:
the records of the entries that match the recogniser and pass the time filter.
`none` is the panic of `errorutil.MustSucceed` on an `Atoi` error. -/
def collectRecs (r : filenameRecognizer) (initialTime : Time) : fileEntryList → Option (List rec)
  | [] => some []
  | entry :: rest =>
      match r.reg (pathBase entry.filename) with
      | none => collectRecs r initialTime rest
      | some (digits, extension) =>
          if pathBase entry.filename ≠ r.pattern ∧ entry.modificationTime.Before initialTime then
            collectRecs r initialTime rest
          else
            match (if digits = [] then some 0 else atoi digits) with
            | none => none
            | some index =>
                match collectRecs r initialTime rest with
                | none => none
                | some recs =>
                    some ({ entry := entry, index := index, compressed := decide (extension ≠ []) } :: recs)

/-- The index the planner computes for an entry: `0` when submatch 3 is empty
(or the entry does not match), otherwise the number `Atoi` reads in it. -/
def entryIndex (r : filenameRecognizer) (e : fileEntry) : Int :=
  match r.reg (pathBase e.filename) with
  | none => 0
  | some (digits, _) => if digits = [] then 0 else (atoi digits).getD 0

/-- Whether the planner takes an entry as compressed: submatch 5 is not empty. -/
def entryCompressed (r : filenameRecognizer) (e : fileEntry) : Bool :=
  match r.reg (pathBase e.filename) with
  | none => false
  | some (_, extension) => decide (extension ≠ [])

/-- The current base file of a family: its basename is the pattern. -/
def isBaseFile (r : filenameRecognizer) (e : fileEntry) : Prop :=
  pathBase e.filename = r.pattern

/-- The sort key of a record: `index*int(r.order)`. -/
def recKey (r : filenameRecognizer) (a : rec) : Int :=
  wrapInt64 (a.index * r.order.toInt)

/-- The comparator given to `sort.Slice`, as a function of `recs[i]` and
`recs[j]`. -/
def recLess (r : filenameRecognizer) (a b : rec) : Bool :=
  if pathBase b.entry.filename = r.pattern then true
  else if pathBase a.entry.filename = r.pattern then false
  else if a.index = b.index then a.compressed
  else decide (wrapInt64 (a.index * r.order.toInt) < wrapInt64 (b.index * r.order.toInt))

/-- The inner loop of Go's `insertionSortLessFunc`: the element `x` moves left
past its neighbours as long as `less x neighbour`.  The sorted prefix is given
reversed (nearest neighbour first) and returned reversed. -/
def sinkInto {α : Type} (less : α → α → Bool) (x : α) : List α → List α
  | [] => [x]
  | y :: ys => if less x y then y :: sinkInto less x ys else x :: y :: ys

/-- Go `sort.Slice` on a short slice: insertion sort. -/
def sortSlice {α : Type} (less : α → α → Bool) (l : List α) : List α :=
  (l.foldl (fun sortedReversed x => sinkInto less x sortedReversed) []).reverse

/-- The last loop of `sortedEntriesFilteredByPatternAndMoreRecentThanTime`: an
entry is appended when its index differs from the index of the last one added. -/
def dedupLoop : rec → List rec → fileEntryList
  | _, [] => []
  | lastAddedRec, r :: rs =>
      if r.index ≠ lastAddedRec.index then r.entry :: dedupLoop r rs
      else dedupLoop lastAddedRec rs

/-- The list of entries built from the sorted records: the first one, then the
result of the deduplication loop. -/
def entriesOfSorted : List rec → fileEntryList
  | [] => []
  | first :: rest => first.entry :: dedupLoop first rest

/-- The function `sortedEntriesFilteredByPatternAndMoreRecentThanTime`. -/
def sortedEntriesFilteredByPatternAndMoreRecentThanTime (list : fileEntryList)
    (r : filenameRecognizer) (initialTime : Time) : Option fileEntryList :=
  match collectRecs r initialTime list with
  | none => none
  | some [] => some []
  | some [x] => some [x.entry]
  | some recs =>
      match sortSlice (recLess r) recs with
      | [] => some []
      | first :: rest => some (first.entry :: dedupLoop first rest)

/-- Matching the pattern part `^(<pattern>)` of a recogniser against the start
of a basename, for a pattern made of literal characters and `.` (as the default
patterns are): `.` matches any character but a newline.  Returns the rest of
the basename.  Other regexp operators inside a pattern are not modelled. -/
def matchPattern : List Char → List Char → Option (List Char)
  | [], text => some text
  | _ :: _, [] => none
  | p :: ps, c :: cs =>
      if (p = '.' ∧ c ≠ '\n') ∨ (p ≠ '.' ∧ p = c) then matchPattern ps cs else none

/-- The end `(\.(gz|bz2))?$` of both recognisers: the extension matched. -/
def matchCompression (text : List Char) : Option (List Char) :=
  if text = [] then some []
  else if text = ['.', 'g', 'z'] then some ['g', 'z']
  else if text = ['.', 'b', 'z', '2'] then some ['b', 'z', '2']
  else none

/-- The suffix `(-(\d{8})(\.(gz|bz2))?)?$` of the dated recogniser, on what
follows the pattern: submatches 3 and 5. -/
def matchDatedSuffix (text : List Char) : Option (List Char × List Char) :=
  match text with
  | [] => some ([], [])
  | '-' :: rest =>
      if 8 ≤ rest.length ∧ (rest.take 8).all Char.isDigit then
        match matchCompression (rest.drop 8) with
        | none => none
        | some extension => some (rest.take 8, extension)
      else none
  | _ => none

/-- The suffix `(\.(\d+)(\.(gz|bz2))?)?$` of the numeric recogniser, on what
follows the pattern: submatches 3 and 5. -/
def matchNumericSuffix (text : List Char) : Option (List Char × List Char) :=
  match text with
  | [] => some ([], [])
  | '.' :: rest =>
      if rest.takeWhile Char.isDigit ≠ [] then
        match matchCompression (rest.dropWhile Char.isDigit) with
        | none => none
        | some extension => some (rest.takeWhile Char.isDigit, extension)
      else none
  | _ => none

/-- The struct `filenameRecognizerBuilder`: `builder` yields the compiled
regular expression of a pattern, as its submatch function. -/
structure filenameRecognizerBuilder where
  builder : String → String → Option (List Char × List Char)
  order : filenameSortOrder

/-- The method `filenameRecognizerBuilder.build`. -/
def filenameRecognizerBuilder.build (f : filenameRecognizerBuilder) (pattern : String) :
    filenameRecognizer :=
  { reg := f.builder pattern, pattern := pattern, order := f.order }

/-- The first entry of `filenameRecognizers`: `mail.log-20201008.(gz|bz2)`,
normal order. -/
def datedRecognizerBuilder : filenameRecognizerBuilder :=
  { builder := fun pattern basename =>
      match matchPattern pattern.data basename.data with
      | none => none
      | some rest => matchDatedSuffix rest
    order := filenameSortOrder.filenameNormalOrder }

/-- The second entry of `filenameRecognizers`: `mail.log.3.(gz|bz2)`, reverse
order. -/
def numericRecognizerBuilder : filenameRecognizerBuilder :=
  { builder := fun pattern basename =>
      match matchPattern pattern.data basename.data with
      | none => none
      | some rest => matchNumericSuffix rest
    order := filenameSortOrder.filenameReverseOrder }

/-- The variable `filenameRecognizers`. -/
def filenameRecognizers : List filenameRecognizerBuilder :=
  [datedRecognizerBuilder, numericRecognizerBuilder]

/-- The type `fileQueues`, a Go map from pattern to file list, as an
association list with one pair per key. -/
abbrev fileQueues := List (String × fileEntryList)

/-- The struct `LogPatterns`; its `indexes` map sends a pattern to its position
in `patterns`. -/
structure LogPatterns where
  patterns : List String
deriving DecidableEq, Repr

/-- The function `buildFilesToImportByPatternKind`, over the keys of the map
being filled. -/
def planQueues (list : fileEntryList) (r : filenameRecognizerBuilder) (initialTime : Time) :
    List String → Option fileQueues
  | [] => some []
  | pattern :: rest =>
      match sortedEntriesFilteredByPatternAndMoreRecentThanTime list (r.build pattern) initialTime with
      | none => none
      | some entries =>
          match planQueues list r initialTime rest with
          | none => none
          | some queues => some ((pattern, entries) :: queues)

/-- The function `buildFilesToImportByPatternKind`: one queue per pattern (a
pattern listed twice is one key of the map). -/
def buildFilesToImportByPatternKind (list : fileEntryList) (patterns : LogPatterns)
    (r : filenameRecognizerBuilder) (initialTime : Time) : Option fileQueues :=
  if patterns.patterns.length = 0 then some []
  else planQueues list r initialTime patterns.patterns.dedup

/-- The closure `queuesMatchAFileSuffixConvention` of `buildFilesToImport`. -/
def queuesMatchAFileSuffixConvention (queues : fileQueues) : Bool :=
  queues.any (fun queue => decide (queue.2.length > 1))

/-- The loop of `buildFilesToImport` over the recognisers left; `queues` is the
value of the variable of that name so far. -/
def buildFilesToImportLoop (list : fileEntryList) (patterns : LogPatterns) (initialTime : Time) :
    List filenameRecognizerBuilder → fileQueues → Option fileQueues
  | [], queues => some queues
  | f :: fs, _ =>
      match buildFilesToImportByPatternKind list patterns f initialTime with
      | none => none
      | some queues =>
          if queuesMatchAFileSuffixConvention queues then some queues
          else buildFilesToImportLoop list patterns initialTime fs queues

/-- The function `buildFilesToImport`. -/
def buildFilesToImport (list : fileEntryList) (patterns : LogPatterns) (initialTime : Time) :
    Option fileQueues :=
  buildFilesToImportLoop list patterns initialTime filenameRecognizers []

/-- The directory listing of `TestDuplicatedFiles` (modification times in
seconds, relative to an arbitrary origin, in the order of the test's dates). -/
def duplicatedFilesListing : fileEntryList :=
  [ ⟨"mail.log", 800⟩,
    ⟨"mail.log-20220722", 100⟩, ⟨"mail.log-20220722.bz2", 100⟩,
    ⟨"mail.log-20220728", 200⟩, ⟨"mail.log-20220728.bz2", 200⟩,
    ⟨"mail.log-20220731", 300⟩, ⟨"mail.log-20220731.bz2", 300⟩,
    ⟨"mail.log-20220804", 400⟩ ]

/-! ## File-set planner: notions used to state its properties -/

/-- The record is the one of the current base file. -/
def recIsBase (r : filenameRecognizer) (a : rec) : Prop :=
  pathBase a.entry.filename = r.pattern

/-- The range of a 64-bit `int`. -/
def inInt64 (x : Int) : Prop := -(2 : Int) ^ 63 ≤ x ∧ x < (2 : Int) ^ 63

/-- The order the comparator of the planner sorts by: base files last, the
others by key and, for the same key, compressed before plain. -/
def recOrd (r : filenameRecognizer) (a b : rec) : Prop :=
  recIsBase r b ∨
    (¬ recIsBase r a ∧
      (recKey r a < recKey r b ∨
        (recKey r a = recKey r b ∧ (a.compressed = true ∨ b.compressed = false))))

/-- The strict part of the order between the records that are kept: base files
last, the others by strictly increasing key. -/
def recStrict (r : filenameRecognizer) (a b : rec) : Prop :=
  recIsBase r b ∨ (¬ recIsBase r a ∧ recKey r a < recKey r b)

/-- The records whose entries the deduplication loop appends. -/
def dedupRecs : rec → List rec → List rec
  | _, [] => []
  | lastAddedRec, r :: rs =>
      if r.index ≠ lastAddedRec.index then r :: dedupRecs r rs
      else dedupRecs lastAddedRec rs

/-- The records kept from the sorted records. -/
def keptOfSorted : List rec → List rec
  | [] => []
  | first :: rest => first :: dedupRecs first rest

/-- A listing with a rotation that is older than the earliest-interesting time
`7`, and a base file that is older too. -/
def agedListing : fileEntryList :=
  [⟨"mail.log.1", 10⟩, ⟨"mail.log.2.gz", 5⟩, ⟨"mail.log", 3⟩]

/-- A rotation listed plain and compressed, the compressed file being older
than the earliest-interesting time `7`. -/
def agedTwinListing : fileEntryList :=
  [⟨"mail.log.1", 10⟩, ⟨"mail.log.1.gz", 5⟩, ⟨"mail.log", 20⟩]

/-- A family rotated by logrotate with `start 0`: the newest rotation has the
suffix `.0`. -/
def startZeroListing : fileEntryList :=
  [⟨"mail.log", 30⟩, ⟨"mail.log.0", 20⟩, ⟨"mail.log.1", 10⟩]

/-- A listing that holds rotations of both conventions. -/
def mixedListing : fileEntryList :=
  [⟨"mail.log", 50⟩, ⟨"mail.log.1", 40⟩, ⟨"mail.log.2.gz", 30⟩,
    ⟨"mail.log-20220728.bz2", 20⟩, ⟨"mail.log-20220722", 10⟩]

/-! ## Guessing the date of the first line of a file

`guessInitialDateForFile` reads the modification time only through the calendar
accessors of `time.Time` (`Year`, `Month`, `Day`, `Hour`, `Minute`, `Second`)
after `In(time.UTC)`, and through `Add(12 * time.Hour)`.  The modification time
is therefore given by its UTC calendar reading.  The header parser and the time
formats live in `pkg/postfix`, outside these sources: a line of the file is
given with the outcome of parsing its header (`none` when the header does not
parse, an error that is not recoverable), and `ConvertWithYear` of the time
format is a parameter. -/

/-- Go `time.Month`, whose values here come from the header parser and from
`Time.Month()`: the twelve months. -/
inductive Month where
  | January | February | March | April | May | June
  | July | August | September | October | November | December
deriving DecidableEq, Repr

/-- The number of days of a leap year before the first day of a month. -/
def Month.daysBeforeInLeapYear : Month → Nat
  | January => 0
  | February => 31
  | March => 60
  | April => 91
  | May => 121
  | June => 152
  | July => 182
  | August => 213
  | September => 244
  | October => 274
  | November => 305
  | December => 335

/-- The header time `parser.Time`: a month and the four `uint8` fields. -/
structure parser.Time where
  Month : Month
  Day : Nat
  Hour : Nat
  Minute : Nat
  Second : Nat
deriving DecidableEq, Repr

/-- The UTC calendar reading of a Go `time.Time`. -/
structure UTCTime where
  year : Int
  month : Month
  day : Nat
  hour : Nat
  minute : Nat
  second : Nat
deriving DecidableEq, Repr

/-- Leap years of the Gregorian calendar. -/
def isLeapYear (year : Int) : Bool :=
  decide (year % 4 = 0 ∧ (year % 100 ≠ 0 ∨ year % 400 = 0))

/-- The number of days of a month in a year. -/
def daysIn (year : Int) : Month → Nat
  | Month.February => if isLeapYear year then 29 else 28
  | Month.April => 30
  | Month.June => 30
  | Month.September => 30
  | Month.November => 30
  | _ => 31

/-- The month after a month of the same year (`December` has none). -/
def Month.next : Month → Month
  | January => February
  | February => March
  | March => April
  | April => May
  | May => June
  | June => July
  | July => August
  | August => September
  | September => October
  | October => November
  | November => December
  | December => January

/-- The calendar readings that a `time.Time` can have. -/
def UTCTime.valid (t : UTCTime) : Prop :=
  1 ≤ t.day ∧ t.day ≤ daysIn t.year t.month ∧ t.hour < 24 ∧ t.minute < 60 ∧ t.second < 60

/-- Go `t.Add(12 * time.Hour)`, on the calendar reading. -/
def UTCTime.add12Hours (t : UTCTime) : UTCTime :=
  if t.hour < 12 then { t with hour := t.hour + 12 }
  else if t.day < daysIn t.year t.month then { t with day := t.day + 1, hour := t.hour - 12 }
  else if t.month = Month.December then
    { t with year := t.year + 1, month := Month.January, day := 1, hour := t.hour - 12 }
  else { t with month := t.month.next, day := 1, hour := t.hour - 12 }

/-- The function `secondInTheYear`: the seconds from the start of the leap year
2000 to the given month, day and time of that year.  The `float64` it returns
is a whole number far below `2 ^ 53`, so it is an integer here.  `time.Date`
carries a day or time field that is out of range over to the next unit, which
the sum does as well. -/
def secondInTheYear (month : Month) (day hour minute second : Nat) : Int :=
  ((month.daysBeforeInLeapYear : Int) + (day : Int) - 1) * 86400
    + (hour : Int) * 3600 + (minute : Int) * 60 + (second : Int)

/-- The closure `secondsInTheYearForTime` of `guessInitialDateForFile`. -/
def secondsInTheYearForTime (t : UTCTime) : Int :=
  secondInTheYear t.month t.day t.hour t.minute t.second

/-- The part of a `parsertimeutil.TimeFormat` that `guessInitialDateForFile`
uses; the location argument of `ConvertWithYear` is always UTC. -/
structure TimeFormat where
  ConvertWithYear : parser.Time → Int → UTCTime

/-- The closure `basicOffset` of `guessInitialDateForFile`. -/
def basicOffset (begin_ end_ modified : Int) : Int :=
  if begin_ ≤ end_ ∧ end_ ≤ modified then 0 else 1

/-- The closure `ordered` of `guessInitialDateForFile`. -/
def ordered (a b c : Int) : Bool := decide (a ≤ b ∧ b ≤ c)

/-- The year `guessInitialDateForFile` computes for a file of one line. -/
def oneLineYear (modificationTime : UTCTime) (timeFirstLine : parser.Time) : Int :=
  let secondsInYearFirstLine := secondInTheYear timeFirstLine.Month timeFirstLine.Day
    timeFirstLine.Hour timeFirstLine.Minute timeFirstLine.Second
  let secondsInYearModificationTime := secondsInTheYearForTime modificationTime
  let adjustYearOffsetAfter12HoursJumpForward :=
    modificationTime.add12Hours.year - modificationTime.year
  let yearOffset : Int := if secondsInYearModificationTime < secondsInYearFirstLine then 1 else 0
  (modificationTime.year - yearOffset) + adjustYearOffsetAfter12HoursJumpForward

/-- The year `guessInitialDateForFile` computes for a file of two lines or
more. -/
def manyLinesYear (modificationTime : UTCTime) (timeFirstLine timeLastLine : parser.Time) : Int :=
  let secondsInYearFirstLine := secondInTheYear timeFirstLine.Month timeFirstLine.Day
    timeFirstLine.Hour timeFirstLine.Minute timeFirstLine.Second
  let secondsInYearLastLine := secondInTheYear timeLastLine.Month timeLastLine.Day
    timeLastLine.Hour timeLastLine.Minute timeLastLine.Second
  let secondsInYearModificationTime := secondsInTheYearForTime modificationTime
  let secondsInYearModificationTimePlus12Hours :=
    secondsInTheYearForTime modificationTime.add12Hours
  let adjustYearOffsetAfter12HoursJumpForward :=
    modificationTime.add12Hours.year - modificationTime.year
  let yearOffset : Int :=
    if ordered secondsInYearFirstLine secondsInYearModificationTime secondsInYearLastLine
        ∨ ordered secondsInYearModificationTime secondsInYearFirstLine secondsInYearLastLine then
      basicOffset secondsInYearFirstLine secondsInYearLastLine
          secondsInYearModificationTimePlus12Hours
        - adjustYearOffsetAfter12HoursJumpForward
    else
      basicOffset secondsInYearFirstLine secondsInYearLastLine secondsInYearModificationTime
  modificationTime.year - yearOffset

/-- The function `guessInitialDateForFile`, on the lines of the file (each with
the outcome of parsing its header) and the UTC reading of the modification
time.  `readLastLine` scans the lines after the first and parses the last of
them only. -/
def guessInitialDateForFile (format : TimeFormat) (lines : List (Option parser.Time))
    (modificationTime : UTCTime) : Except GuessError UTCTime :=
  match lines with
  | [] => Except.ok modificationTime
  | first :: rest =>
      match first with
      | none => Except.error GuessError.firstLine
      | some timeFirstLine =>
          match rest.getLast? with
          | none =>
              Except.ok (format.ConvertWithYear timeFirstLine
                (oneLineYear modificationTime timeFirstLine))
          | some none => Except.error GuessError.lastLine
          | some (some timeLastLine) =>
              Except.ok (format.ConvertWithYear timeFirstLine
                (manyLinesYear modificationTime timeFirstLine timeLastLine))

/-- A time format that keeps the fields of the header time as they are. -/
def plainTimeFormat : TimeFormat :=
  { ConvertWithYear := fun t year =>
      { year := year, month := t.Month, day := t.Day, hour := t.Hour, minute := t.Minute,
        second := t.Second } }

/-! ## Detective (`detective/detective.go`)

The statement is run by SQLite and the columns are decoded by `encoding/json`;
the raw-logs accessor, the status constants of the parser and the direction
constants of the tracker are outside these sources.  A result row is given as
scanned, each JSON column with the outcome of decoding it (`none` when
`json.Unmarshal` fails); the accessor and the constants are parameters. -/

/-- The constants `parser.ReceivedStatus`, `parser.ReturnedStatus`,
`parser.RepliedStatus`, `parser.ExpiredStatus`,
`tracking.MessageDirectionIncoming` and `tracking.MessageDirectionOutbound`. -/
structure StatusCodes where
  ReceivedStatus : Int
  ReturnedStatus : Int
  RepliedStatus : Int
  ExpiredStatus : Int
  MessageDirectionIncoming : Int
  MessageDirectionOutbound : Int
deriving DecidableEq, Repr

/-- The value bound to `@NoStatus` by `checkMessageDelivery`. -/
def NoStatus : Int := -1

/-- One element of the `logRefs` array decoded by `parseLogRefs`. -/
structure logRef where
  Time : Int
  Checksum : Sum
  Invalid : Int
deriving DecidableEq, Repr

/-- The errors of `rawLogsAccessor.FetchLogLine`, as `parseLogRefs` tells them
apart with `errors.Is(err, rawlogsdb.ErrLogLineNotFound)`. -/
inductive AccessorError where
  | ErrLogLineNotFound : AccessorError
  | other : AccessorError
deriving DecidableEq, Repr

/-- The method `FetchLogLine` of a `rawlogsdb.Accessor`: from the Unix time and
the checksum of a reference to the pair `(logLine, err)` it returns. -/
abbrev Accessor := Int → Sum → String × Option AccessorError

/-- The errors of the detective: a JSON column that does not decode, an error
of the raw-logs accessor, and the run-time panic of an integer division by
zero. -/
inductive DetectiveError where
  | json : DetectiveError
  | rawLogs : DetectiveError
  | divisionByZero : DetectiveError
deriving DecidableEq, Repr

/-- The loop of `parseLogRefs` over the decoded references. -/
def parseLogRefsLoop (rawLogsAccessor : Accessor) : List logRef → Except DetectiveError (List String)
  | [] => Except.ok []
  | ref :: rest =>
      if ref.Invalid = 1 then parseLogRefsLoop rawLogsAccessor rest
      else
        match rawLogsAccessor ref.Time ref.Checksum with
        | (_, some AccessorError.other) => Except.error DetectiveError.rawLogs
        | (logLine, _) =>
            match parseLogRefsLoop rawLogsAccessor rest with
            | Except.error e => Except.error e
            | Except.ok logLines => Except.ok (logLine :: logLines)

/-- The function `parseLogRefs`; `content` is the outcome of decoding the JSON
array. -/
def parseLogRefs (rawLogsAccessor : Accessor) (content : Option (List logRef)) :
    Except DetectiveError (List String) :=
  match content with
  | none => Except.error DetectiveError.json
  | some logRefs => parseLogRefsLoop rawLogsAccessor logRefs

/-- The struct `MessageDelivery`; times are Unix seconds. -/
structure MessageDelivery where
  NumberOfAttempts : Int
  TimeMin : Int
  TimeMax : Int
  Status : Int
  Dsn : String
  Relays : List String
  Expired : Option Int
  MailFrom : String
  MailTo : List String
  RawLogMsgs : List String
deriving DecidableEq, Repr

/-- The struct `Message`. -/
structure Message where
  Queue : String
  MessageID : String
  Entries : List MessageDelivery
deriving DecidableEq, Repr

/-- The struct `MessagesPage`. -/
structure MessagesPage where
  PageNumber : Int
  FirstPage : Int
  LastPage : Int
  TotalResults : Int
  Messages : List Message
deriving DecidableEq, Repr

/-- A row of the result of the statement, as `rows.Scan` fills the variables
of the loop of `checkMessageDelivery`. -/
structure resultRow where
  total : Int
  status : Int
  dsn : String
  queueName : String
  messageID : String
  expiredTs : Option Int
  numberOfAttempts : Int
  tsMin : Int
  tsMax : Int
  direction : Int
  returned : Bool
  mailFrom : String
  mailTo : Option (List String)
  relay : Option (List String)
  logRefsContent : Option (List logRef)
  isReply : Bool
deriving DecidableEq, Repr

/-- The status overlay of the loop of `checkMessageDelivery`: the three `if`
statements, in their order. -/
def overlayStatus (codes : StatusCodes) (row : resultRow) : Int :=
  let status := row.status
  let status := if row.direction = codes.MessageDirectionIncoming then codes.ReceivedStatus else status
  let status := if row.returned then codes.ReturnedStatus else status
  let status := if row.isReply then codes.RepliedStatus else status
  status

/-- The loop of the closure `index` of `checkMessageDelivery` over the messages
from position `i` on: the position of the first message of the queue. -/
def findQueue (queueName : String) : List Message → Nat → Option Nat
  | [], _ => none
  | v :: rest, i => if v.Queue = queueName then some i else findQueue queueName rest (i + 1)

/-- The statement `messages[index].Entries = append(messages[index].Entries, delivery)`. -/
def appendEntry (delivery : MessageDelivery) : List Message → Nat → List Message
  | [], _ => []
  | m :: rest, 0 => { m with Entries := m.Entries ++ [delivery] } :: rest
  | m :: rest, index + 1 => m :: appendEntry delivery rest index

/-- The variables `total`, `grouped` and `messages` of `checkMessageDelivery`. -/
structure rowsState where
  total : Int
  grouped : Int
  messages : List Message
deriving DecidableEq, Repr

/-- The `MessageDelivery` built from a row; an error when a JSON column does
not decode or `parseLogRefs` fails. -/
def deliveryOfRow (codes : StatusCodes) (rawLogsAccessor : Accessor) (row : resultRow) :
    Except DetectiveError MessageDelivery :=
  match row.mailTo with
  | none => Except.error DetectiveError.json
  | some mailTos =>
      match row.relay with
      | none => Except.error DetectiveError.json
      | some relays =>
          match row.logRefsContent with
          | none => Except.error DetectiveError.json
          | some _ =>
              match parseLogRefs rawLogsAccessor row.logRefsContent with
              | Except.error e => Except.error e
              | Except.ok logLines =>
                  Except.ok
                    { NumberOfAttempts := row.numberOfAttempts
                      TimeMin := row.tsMin
                      TimeMax := row.tsMax
                      Status := overlayStatus codes row
                      Dsn := row.dsn
                      Expired := row.expiredTs
                      MailFrom := row.mailFrom
                      MailTo := mailTos
                      Relays := relays
                      RawLogMsgs := logLines }

/-- One iteration of the loop `for rows.Next()` of `checkMessageDelivery`. -/
def processRow (codes : StatusCodes) (rawLogsAccessor : Accessor) (state : rowsState)
    (row : resultRow) : Except DetectiveError rowsState :=
  let indexed : Nat × Int × List Message :=
    match findQueue row.queueName state.messages 0 with
    | some i => (i, state.grouped + 1, state.messages)
    | none =>
        (state.messages.length, state.grouped,
          state.messages ++ [{ Queue := row.queueName, MessageID := row.messageID, Entries := [] }])
  match deliveryOfRow codes rawLogsAccessor row with
  | Except.error e => Except.error e
  | Except.ok delivery =>
      Except.ok
        { total := row.total
          grouped := indexed.2.1
          messages := appendEntry delivery indexed.2.2 indexed.1 }

/-- The loop `for rows.Next()` of `checkMessageDelivery`. -/
def processRows (codes : StatusCodes) (rawLogsAccessor : Accessor) :
    rowsState → List resultRow → Except DetectiveError rowsState
  | state, [] => Except.ok state
  | state, row :: rest =>
      match processRow codes rawLogsAccessor state row with
      | Except.error e => Except.error e
      | Except.ok next => processRows codes rawLogsAccessor next rest

/-- The function `checkMessageDelivery`, from the rows the statement returns
on.  Go's `total/limit` truncates and panics when `limit` is zero. -/
def checkMessageDelivery (codes : StatusCodes) (rawLogsAccessor : Accessor)
    (rows : List resultRow) (page limit : Int) : Except DetectiveError MessagesPage :=
  match processRows codes rawLogsAccessor { total := 0, grouped := 0, messages := [] } rows with
  | Except.error e => Except.error e
  | Except.ok state =>
      if limit = 0 then Except.error DetectiveError.divisionByZero
      else
        Except.ok
          { PageNumber := page
            FirstPage := 1
            LastPage := Int.tdiv state.total limit + 1
            TotalResults := state.total - state.grouped
            Messages := state.messages }

/-- What SQLite returns for `limit @limit offset @offset` on the ordered result
of the query, with the column `count() over () as total`: a negative offset is
zero, a negative limit is no limit, and `total` is the number of rows of the
whole result. -/
def queryRows (result : List resultRow) (limit offset : Int) : List resultRow :=
  ((if limit < 0 then result.drop offset.toNat
    else (result.drop offset.toNat).take limit.toNat).map
      (fun row => { row with total := (result.length : Int) }))

/-- The parameter `offset` that `checkMessageDelivery` binds for a page. -/
def pageOffset (page limit : Int) : Int := (page - 1) * limit

/-- The method `CheckMessageDelivery` on a store whose query has the ordered
result `result`. -/
def checkMessageDeliveryPage (codes : StatusCodes) (rawLogsAccessor : Accessor)
    (result : List resultRow) (page limit : Int) : Except DetectiveError MessagesPage :=
  checkMessageDelivery codes rawLogsAccessor (queryRows result limit (pageOffset page limit))
    page limit

/-- The relation between the rows read so far and the variables of the loop of
`checkMessageDelivery`: the messages have different queues, in the order of the
first row of each queue; the entries of a message are the deliveries of the
rows of its queue, in row order; `grouped` counts the rows that did not open a
message; `total` is the column of the last row. -/
def rowsInvariant (codes : StatusCodes) (rawLogsAccessor : Accessor) (rows : List resultRow)
    (state : rowsState) : Prop :=
  (state.messages.map (fun m => m.Queue)).Nodup ∧
  (∀ m ∈ state.messages,
    m.Entries.map Except.ok
      = (rows.filter (fun r => decide (r.queueName = m.Queue))).map
          (deliveryOfRow codes rawLogsAccessor)) ∧
  (∀ q, q ∈ state.messages.map (fun m => m.Queue) ↔ q ∈ rows.map (fun r => r.queueName)) ∧
  (state.messages.map (fun m => m.Queue)).Pairwise
    (fun a b => (rows.map (fun r => r.queueName)).indexOf a
      < (rows.map (fun r => r.queueName)).indexOf b) ∧
  state.grouped = (rows.length : Int) - (state.messages.length : Int) ∧
  state.total = ((rows.getLast?).map (fun r => r.total)).getD 0

/-- Status and direction codes for examples. -/
def sampleCodes : StatusCodes :=
  { ReceivedStatus := 42, ReturnedStatus := 4, RepliedStatus := 5, ExpiredStatus := 3,
    MessageDirectionIncoming := 1, MessageDirectionOutbound := 0 }

/-- An accessor that finds no line. -/
def emptyAccessor : Accessor := fun _ _ => ("", some AccessorError.ErrLogLineNotFound)

/-- A result row of a queue with a stored status, the other columns plain. -/
def sampleRow (queueName : String) (status : Int) : resultRow :=
  { total := 0, status := status, dsn := "2.0.0", queueName := queueName, messageID := "id",
    expiredTs := none, numberOfAttempts := 1, tsMin := 10, tsMax := 10, direction := 0,
    returned := false, mailFrom := "a@b.c", mailTo := some ["d@e.f"], relay := some ["local"],
    logRefsContent := some [], isReply := false }

/-- A query result of three rows: queue `A` with two groups (sent, deferred)
and queue `B` with one. -/
def sampleResult : List resultRow :=
  [sampleRow "A" 0, sampleRow "A" 2, sampleRow "B" 0]

/-- The rows of the only page of `sampleResult` for a page size of 100. -/
def samplePageRows : List resultRow := queryRows sampleResult 100 (pageOffset 1 100)

/-- The page `checkMessageDelivery` builds from `samplePageRows`. -/
def samplePage : MessagesPage :=
  { PageNumber := 1, FirstPage := 1, LastPage := 1, TotalResults := 2,
    Messages :=
      [ { Queue := "A", MessageID := "id",
          Entries :=
            [ { NumberOfAttempts := 1, TimeMin := 10, TimeMax := 10, Status := 0, Dsn := "2.0.0",
                Relays := ["local"], Expired := none, MailFrom := "a@b.c", MailTo := ["d@e.f"],
                RawLogMsgs := [] },
              { NumberOfAttempts := 1, TimeMin := 10, TimeMax := 10, Status := 2, Dsn := "2.0.0",
                Relays := ["local"], Expired := none, MailFrom := "a@b.c", MailTo := ["d@e.f"],
                RawLogMsgs := [] } ] },
        { Queue := "B", MessageID := "id",
          Entries :=
            [ { NumberOfAttempts := 1, TimeMin := 10, TimeMax := 10, Status := 0, Dsn := "2.0.0",
                Relays := ["local"], Expired := none, MailFrom := "a@b.c", MailTo := ["d@e.f"],
                RawLogMsgs := [] } ] } ] }

/-- An accessor that knows one line, at time 1 with checksum 2, and reports
`ErrLogLineNotFound` with an empty line for every other reference. -/
def sampleAccessor : Accessor := fun time checksum =>
  if time = 1 ∧ checksum = 2 then ("postfix/smtp: sent", none)
  else ("", some AccessorError.ErrLogLineNotFound)

/-- The references of `parseLogRefs` that are not marked invalid. -/
def validRefs (logRefs : List logRef) : List logRef :=
  logRefs.filter (fun ref => decide (ref.Invalid ≠ 1))

/-- The columns of a joined row of `deliveries`, `delivery_queue` and `queues`
that the status selector of `sent_deliveries_filtered_by_condition` reads;
`queue_id` is `q.id`. The columns are not null. -/
structure deliveryRow where
  status : Int
  direction : Int
  sender_local_part : String
  message_id : Int
  queue_id : Int
deriving DecidableEq, Repr

/-- The status selector in the `where` clause of
`sent_deliveries_filtered_by_condition`, the disjunction of five cases, for
the requested status `status`; `messageids_replies` lists the `reply_id` of the
rows of that table and `expired_queues` the `queue_id` of the rows of that
table. -/
def statusSelector (codes : StatusCodes) (status : Int) (messageids_replies : List Int)
    (expired_queues : List Int) (d : deliveryRow) : Bool :=
  (decide (d.status = status) && !(decide (d.status = codes.ReceivedStatus)
      || decide (d.status = codes.RepliedStatus))
    && decide (d.direction = codes.MessageDirectionOutbound))
  || (decide (status = codes.ReceivedStatus)
    && decide (d.direction = codes.MessageDirectionIncoming))
  || (decide (status = codes.RepliedStatus)
    && decide (d.direction = codes.MessageDirectionIncoming)
    && decide (d.sender_local_part ≠ "")
    && messageids_replies.any (fun reply_id => decide (reply_id = d.message_id)))
  || decide (status = NoStatus)
  || (decide (status = codes.ExpiredStatus)
    && expired_queues.any (fun queue_id => decide (queue_id = d.queue_id)))

/-- An outbound delivery whose stored status is the expired one. -/
def expiredDelivery : deliveryRow :=
  { status := 3, direction := 0, sender_local_part := "alice", message_id := 7, queue_id := 1 }

/-- The parsable lines that a processor's scanners still have to read, in
reading order, each with its time and its text. -/
def parsedLines (scanners : List (List LogLine)) : List (Time × String) :=
  scanners.flatten.filterMap (fun l => l.time.map (fun t => (t, l.text)))

/-- The time and text of a parsed record. -/
def recordKey (r : parsedHeaderRecord) : Time × String := (r.time, r.line)

/-- The lines a processor holding a current record still contributes to the
merge: the record, then the lines left to its scanners. -/
def pendingLines (q : queueProcessor) : List (Time × String) :=
  recordKey q.record :: parsedLines q.scanners

/-- The lines the processors from index `i` on still contribute at the start of
an iteration of the merge loop: a processor about to be updated no longer
counts its record, which was chosen in the iteration before. -/
def outstandingLines (toBeUpdated : Int) : List queueProcessor → Nat → List (List (Time × String))
  | [], _ => []
  | p :: ps, i =>
      (if toBeUpdated ≠ -1 ∧ (i : Int) ≠ toBeUpdated then pendingLines p
        else parsedLines p.scanners) :: outstandingLines toBeUpdated ps (i + 1)

/-- The `postfix.Record` of a line with the given time and text. -/
def recordOfLine (computeChecksum : String → Sum) (x : Time × String) : Record :=
  { Time := x.1, Line := x.2, Sum := computeChecksum x.2 }

/-- One record per parsable line of every file of every queue. -/
def allRecords (computeChecksum : String → Sum) (queueProcessors : List queueProcessor) :
    List Record :=
  queueProcessors.flatMap (fun p => (parsedLines p.scanners).map (recordOfLine computeChecksum))

/-- The seconds from the zero instant, `0001-01-01 00:00:00 UTC`, to a calendar
reading of year 1 or later, in the proleptic Gregorian calendar of Go `time`. -/
def UTCTime.seconds (t : UTCTime) : Time :=
  let y := t.year - 1
  let skippedLeapDay : Int :=
    if isLeapYear t.year = false ∧ 59 < t.month.daysBeforeInLeapYear then 1 else 0
  (365 * y + y / 4 - y / 100 + y / 400
      + (t.month.daysBeforeInLeapYear : Int) - skippedLeapDay + (t.day : Int) - 1) * 86400
    + (t.hour : Int) * 3600 + (t.minute : Int) * 60 + (t.second : Int)

/-- Modelled from the spec: the Time Converter (section 4.1, steps 1 and 2),
whose code is in `pkg/postfix`, outside these sources, run over the lines of a
file; each line comes with the outcome of parsing its header.  The first header
is dated in the reference year; a later header that, in the year of the line
before, would be six months or more earlier than that line is dated in the next
year.  Returned with the lines are the year and the line the converter is left
at. -/
def convertHeaders :
    Int → Option UTCTime → List (String × Option parser.Time) →
      List LogLine × Int × Option UTCTime
  | year, previous, [] => ([], year, previous)
  | year, previous, (text, none) :: rest =>
      let result := convertHeaders year previous rest
      (⟨text, none⟩ :: result.1, result.2)
  | year, previous, (text, some header) :: rest =>
      let sameYear := plainTimeFormat.ConvertWithYear header year
      let dated : UTCTime :=
        match previous with
        | none => sameYear
        | some line =>
            if sameYear.seconds + 183 * 86400 ≤ line.seconds then
              { sameYear with year := year + 1 }
            else sameYear
      let result := convertHeaders dated.year (some dated) rest
      (⟨text, some dated.seconds⟩ :: result.1, result.2)

/-- The converter of a family run over its files in plan order; a file is given
by its name, the UTC reading of its modification time and its lines. -/
def convertFiles :
    Int → Option UTCTime → List (String × UTCTime × List (String × Option parser.Time)) →
      List (fileEntry × List LogLine)
  | _, _, [] => []
  | year, previous, (filename, modificationTime, lines) :: rest =>
      let result := convertHeaders year previous lines
      (⟨filename, modificationTime.seconds⟩, result.1)
        :: convertFiles result.2.1 result.2.2 rest

/-- The files of a family with their lines dated as the importer dates them:
the reference year of the converter is the year `guessInitialDateForFile`
returns for the first file that holds a line whose header parses.  When the
guess fails the import stops before a line is dated, and the year of the
modification time stands in. -/
def datedFamily (files : List (String × UTCTime × List (String × Option parser.Time))) :
    List (fileEntry × List LogLine) :=
  match files.find? (fun f => f.2.2.any (fun l => l.2.isSome)) with
  | none => convertFiles 0 none files
  | some (_, modificationTime, lines) =>
      match guessInitialDateForFile plainTimeFormat (lines.map Prod.snd) modificationTime with
      | Except.ok initial => convertFiles initial.year none files
      | Except.error _ => convertFiles modificationTime.year none files

/-- The directory of the regression test for issue 368, as planned: the
`mail.log` and `mail.err` families, oldest file first, every file with the UTC
reading of its modification time and every line with its header as parsed. -/
def regressionProcessors : List queueProcessor :=
  [
    processorForQueue "mail.log" (datedFamily [
        ("mail.log.4.gz", ⟨2020, Month.December, 14, 5, 24, 27⟩,
          [
            ("Dec  6 06:25:06 cloud2 postfix/pickup[22197]: D4D433E8C6: uid=0 from=<root>",
              some ⟨Month.December, 6, 6, 25, 6⟩),
            ("Dec  6 06:25:06 cloud2 postfix/cleanup[23434]: D4D433E8C6: message-id=<h-e24810f14bc82f4c71d942d6e@h-32c0e75797df5c34bbefdfa.com>",
              some ⟨Month.December, 6, 6, 25, 6⟩),
            ("Dec 14 06:24:27 cloud2 postfix/anvil[15757]: statistics: max cache size 1 at Dec 14 06:21:07",
              some ⟨Month.December, 14, 6, 24, 27⟩) ]),
        ("mail.log.3.gz", ⟨2020, Month.December, 20, 5, 22, 40⟩,
          [
            ("Dec 14 06:25:07 cloud2 postfix/pickup[14915]: E75F43E8C5: uid=0 from=<root>",
              some ⟨Month.December, 14, 6, 25, 7⟩),
            ("Dec 14 06:25:07 cloud2 postfix/cleanup[16017]: E75F43E8C5: message-id=<h-ec65578888181a672d81cd9d7@h-32c0e75797df5c34bbefdfa.com>",
              some ⟨Month.December, 14, 6, 25, 7⟩),
            ("Dec 20 06:22:40 cloud2 postfix/smtpd[16077]: disconnect from h-1c62d4153b2e275bb625c632[26.93.33.217] commands=0/0",
              some ⟨Month.December, 20, 6, 22, 40⟩) ]),
        ("mail.log.2.gz", ⟨2020, Month.December, 28, 5, 25, 4⟩,
          [
            ("Dec 20 06:25:07 cloud2 postfix/pickup[15941]: AF96E3E8C6: uid=0 from=<root>",
              some ⟨Month.December, 20, 6, 25, 7⟩),
            ("Dec 20 06:25:07 cloud2 postfix/cleanup[16236]: AF96E3E8C6: message-id=<h-006d72b7798821336acf614a7@h-32c0e75797df5c34bbefdfa.com>",
              some ⟨Month.December, 20, 6, 25, 7⟩),
            ("Dec 28 06:25:04 cloud2 postfix/smtpd[27432]: disconnect from h-1c62d4153b2e275bb625c632[26.93.33.217] commands=0/0",
              some ⟨Month.December, 28, 6, 25, 4⟩) ]),
        ("mail.log.1", ⟨2021, Month.January, 3, 5, 22, 59⟩,
          [
            ("Dec 28 06:25:07 cloud2 postfix/pickup[24537]: 572F93E8B7: uid=0 from=<root>",
              some ⟨Month.December, 28, 6, 25, 7⟩),
            ("Dec 28 06:25:07 cloud2 postfix/cleanup[27496]: 572F93E8B7: message-id=<h-52b7359754499a54086fa9b88@h-32c0e75797df5c34bbefdfa.com>",
              some ⟨Month.December, 28, 6, 25, 7⟩),
            ("Jan  3 06:22:59 cloud2 postfix/smtpd[26341]: disconnect from h-1c62d4153b2e275bb625c632[26.93.33.217] commands=0/0",
              some ⟨Month.January, 3, 6, 22, 59⟩) ]),
        ("mail.log", ⟨2021, Month.January, 5, 13, 5, 47⟩,
          [
            ("Jan  3 06:25:07 cloud2 postfix/pickup[25779]: DD78F3E8C1: uid=0 from=<root>",
              some ⟨Month.January, 3, 6, 25, 7⟩),
            ("Jan  3 06:25:07 cloud2 postfix/cleanup[26489]: DD78F3E8C1: message-id=<h-02419a263e156696315f34ffa@h-32c0e75797df5c34bbefdfa.com>",
              some ⟨Month.January, 3, 6, 25, 7⟩),
            ("Jan  5 14:05:47 cloud2 postfix/qmgr[1428]: 5EEC73E8C6: removed",
              some ⟨Month.January, 5, 14, 5, 47⟩) ]) ]),
    processorForQueue "mail.err" (datedFamily [
        ("mail.err.2.gz", ⟨2019, Month.February, 28, 21, 43, 31⟩,
          [
            ("Feb 28 22:08:56 ubuntu-2gb-nbg1-1 postfix/postmap[1400]: fatal: open /h-5e9ec2de88d0040a44ee23d5867b3c12b58fd34f/: No such file or directory",
              some ⟨Month.February, 28, 22, 8, 56⟩),
            ("Feb 28 22:39:44 ubuntu-2gb-nbg1-1 postfix/smtpd[4470]: error: open database /h-9e096e99702f280aef3bad9c4f6a462df2670537/: No such file or directory",
              some ⟨Month.February, 28, 22, 39, 44⟩),
            ("Feb 28 22:43:31 ubuntu-2gb-nbg1-1 postfix/smtpd[4677]: error: open database /h-9e096e99702f280aef3bad9c4f6a462df2670537/: No such file or directory",
              some ⟨Month.February, 28, 22, 43, 31⟩) ]),
        ("mail.err.1", ⟨2020, Month.June, 25, 14, 40, 9⟩,
          [
            ("Jun 25 16:40:09 cloud2 postfix/postfix-script[31421]: fatal: unknown command: \x27reloadd\x27. Usage: postfix start (or stop, reload, abort, flush, check, status, set-permissions, upgrade-configuration)",
              some ⟨Month.June, 25, 16, 40, 9⟩) ]),
        ("mail.err", ⟨2020, Month.June, 26, 4, 25, 1⟩, []) ]) ]

/-- The high-water of the regression test, `1970-01-01 00:00:00 +0100`, with no
checksum. -/
def regressionSum : SumPair := { Time := 62135593200, Sum := none }

/-- A checksum for examples: the length of the line. -/
def sampleChecksum (line : String) : Sum := line.length

/-- One family whose only file holds the same line twice in the same second. -/
def repeatedLineProcessors : List queueProcessor :=
  [ processorForQueue "mail.log"
      [ (⟨"mail.log", 20⟩, [⟨"warning: x", some 7⟩, ⟨"warning: x", some 7⟩]) ] ]

/-- The method `DirectoryImporter.run` with `watch` set, from the queue
processors on: the historical import, then, unless it returned an error, the
loop over the records of the live phase, each published through the same
`ignoringPublisher` with its checksum computed.  `live` lists the records
received on `partiallyParsedLogsPublisher.records`; the result is the publisher
when `run` returns. -/
def run (computeChecksum : String → Sum) (queueProcessors : List queueProcessor)
    (sum : SumPair) (downstream : List Record) (live : List parsedHeaderRecord) :
    Option IgnoringPublisher :=
  match importExistingLogs computeChecksum queueProcessors sum with
  | none => none
  | some result =>
      match (IgnoringPublisher.mk downstream sum).publishAll
          (publishedRecords computeChecksum result.1) with
      | none => none
      | some p =>
          match result.2 with
          | some _ => some p
          | none => p.publishAll (live.map (toRecord computeChecksum))

/-- The index, among the files a processor has still to read, of the first file
holding a line whose header parses. -/
def firstParsedFile : List (List LogLine) → Option Nat
  | [] => none
  | f :: rest =>
      if f.any (fun l => l.time.isSome) then some 0
      else (firstParsedFile rest).map (fun i => i + 1)

/-- The converter a processor hands over once it is exhausted: the one it
holds; else the one created for the first line it parses; else, when it has
entries, one synthesised from the modification time of its last entry. -/
def handoverConverter (p : queueProcessor) : Option TimeConverter :=
  match p.converter with
  | some c => some c
  | none =>
      match firstParsedFile p.scanners with
      | some i => some (TimeConverter.forFile (p.currentIndex + i))
      | none => p.entries.getLast?.map (fun e => TimeConverter.fromModificationTime e.modificationTime)

/-- Whether the converter of a processor can be created at the first line it
parses: the processor holds a converter already, or none of the files it has
still to read holds a line that parses, or `guessInitialDateForFile` returns no
error on the file of the first line that parses (its first line parses, and so
does its last). -/
def converterCreated (p : queueProcessor) : Bool :=
  match p.converter with
  | some _ => true
  | none =>
      match firstParsedFile p.scanners with
      | none => true
      | some i => (guessError (p.content.getD (p.currentIndex + i) [])).isNone

/-- One family whose only file starts with a line whose header does not parse,
followed by two lines that parse. -/
def unparsedFirstLineProcessors : List queueProcessor :=
  [ processorForQueue "mail.log"
      [ (⟨"mail.log", 20⟩, [⟨"junk", none⟩, ⟨"connect", some 7⟩, ⟨"disconnect", some 8⟩]) ] ]

/-- The converters handed over by a sequence of events, each with the pattern
of the channel it was sent on. -/
def handedOf : List ImportEvent → List (String × TimeConverter)
  | [] => []
  | ImportEvent.handed pattern c :: es => (pattern, c) :: handedOf es
  | ImportEvent.chosen _ _ :: es => handedOf es

/-- The function `filterNonEmptyQueues`, whose result is the set of queues that
get a file watcher. -/
def filterNonEmptyQueues (queues : fileQueues) : fileQueues :=
  queues.filter (fun kq => decide (kq.2.length > 0))

/-- The planned queues of the regression test for issue 463: of the default
patterns only `mail.err` has a file, and that file is empty. -/
def regression463Queues : fileQueues :=
  [ ("mail.log", []), ("mail.err", [⟨"mail.err", 63755107220⟩]), ("mail.warn", []),
    ("zimbra.log", []), ("maillog", []) ]

/-- The queue processors of the regression test for issue 463. -/
def regression463Processors : List queueProcessor :=
  [ processorForQueue "mail.log" [],
    processorForQueue "mail.err" [(⟨"mail.err", 63755107220⟩, [])],
    processorForQueue "mail.warn" [],
    processorForQueue "zimbra.log" [],
    processorForQueue "maillog" [] ]

/-- The error `ErrLogFilesNotFound`, the only one `buildQueuesForDirImporter`
returns. -/
inductive ImporterError where
  | ErrLogFilesNotFound : ImporterError
deriving DecidableEq, Repr

/-- The function `buildQueuesForDirImporter`; `fileEntries` is the outcome of
`content.fileEntries()`, `none` for its error.  The outer `none` is the panic
of the planner. -/
def buildQueuesForDirImporter (fileEntries : Option fileEntryList) (patterns : LogPatterns)
    (initialTime : Time) : Option (Except ImporterError fileQueues) :=
  match fileEntries with
  | none => some (Except.error ImporterError.ErrLogFilesNotFound)
  | some entries =>
      if entries.length = 0 then some (Except.error ImporterError.ErrLogFilesNotFound)
      else
        match buildFilesToImport entries patterns initialTime with
        | none => none
        | some queues =>
            if queues.length = 0 then some (Except.error ImporterError.ErrLogFilesNotFound)
            else if queues.any (fun q => decide (q.2.length ≠ 0)) then some (Except.ok queues)
            else some (Except.error ImporterError.ErrLogFilesNotFound)

/-- The patterns `DefaultLogPatterns`. -/
def DefaultLogPatterns : LogPatterns :=
  { patterns := ["mail.log", "mail.err", "mail.warn", "zimbra.log", "maillog"] }

/-- A directory holding the base file and a rotated file whose numeric suffix
does not fit an `int`. -/
def hugeSuffixListing : fileEntryList :=
  [ ⟨"mail.log", 20⟩, ⟨"mail.log.99999999999999999999", 10⟩ ]

/-! ## CSV export -/

/-- The two renderings `MessageDelivery.ExportCSV` takes from outside these
sources: `time.Time.Format(time.RFC3339)` for a time given in Unix seconds, and
`parser.SmtpStatus.String`. -/
structure CSVFormat where
  FormatTime : Int → String
  StatusString : Int → String

/-- The variable `CSVHeader`. -/
def CSVHeader : List String :=
  [ "MailFrom", "MailTo", "MessageID", "Queue", "NumberOfAttempts", "TimeMin", "TimeMax",
    "Status", "DSN", "Expired", "Relays", "RawLogMsgs" ]

/-- Go `strconv.Itoa`. -/
def Itoa (n : Int) : String := toString n

/-- The method `MessageDelivery.ExportCSV`. -/
def MessageDelivery.ExportCSV (format : CSVFormat) (d : MessageDelivery)
    (queue messageid : String) : List String :=
  let exp := match d.Expired with
    | none => ""
    | some t => format.FormatTime t
  [ d.MailFrom,
    String.intercalate "\n" d.MailTo,
    messageid,
    queue,
    Itoa d.NumberOfAttempts,
    format.FormatTime d.TimeMin,
    format.FormatTime d.TimeMax,
    format.StatusString d.Status,
    d.Dsn,
    exp,
    String.intercalate "\n" d.Relays,
    String.intercalate "\n" d.RawLogMsgs ]

/-- The method `MessagesPage.ExportCSV`: the two nested loops appending to
`records`. -/
def MessagesPage.ExportCSV (format : CSVFormat) (p : MessagesPage) : List (List String) :=
  p.Messages.foldl
    (fun records m =>
      m.Entries.foldl (fun records d => records ++ [d.ExportCSV format m.Queue m.MessageID]) records)
    []

/-- A format for examples: a time is rendered as its Unix seconds after `@`, a
status as its number. -/
def sampleCSVFormat : CSVFormat :=
  { FormatTime := fun t => String.mk ('@' :: (toString t).data)
    StatusString := fun s => toString s }

/-! ## Pooled read-only connections -/

/-- A prepared statement, `*sql.Stmt`, known by the query it was prepared
from. -/
structure Stmt where
  query : String
deriving DecidableEq, Repr

/-- The struct `RoPooledConn`: the map `stmts` as an association list with one
pair per key (keys are the `iota` constants of the callers), and the statements
added to its `Closers`. -/
structure RoPooledConn where
  stmts : List (Int × Stmt)
  closers : List Stmt
deriving DecidableEq, Repr

/-- How a call of `PrepareStmt` ends, with the handle as the call leaves it:
the panic of `log.Panic().Msgf`, the error of `c.Prepare`, or a `nil` return. -/
inductive PrepareResult where
  | panicked (c : RoPooledConn) : PrepareResult
  | failed (c : RoPooledConn) : PrepareResult
  | prepared (c : RoPooledConn) : PrepareResult
deriving DecidableEq, Repr

/-- The method `RoPooledConn.PrepareStmt`; `prepare` is `c.Prepare`, the driver
compiling a query, `none` for its error. -/
def RoPooledConn.PrepareStmt (c : RoPooledConn) (prepare : String → Option Stmt)
    (query : String) (key : Int) : PrepareResult :=
  match c.stmts.lookup key with
  | some _ => PrepareResult.panicked c
  | none =>
      match prepare query with
      | none => PrepareResult.failed c
      | some stmt =>
          PrepareResult.prepared
            { stmts := (key, stmt) :: c.stmts.filter (fun kv => decide (kv.1 ≠ key))
              closers := c.closers ++ [stmt] }

/-- The method `RoPooledConn.GetStmt`, which only reads the handle; `none` is
the panic of `log.Panic().Msgf`. -/
def RoPooledConn.GetStmt (c : RoPooledConn) (key : Int) : Option Stmt :=
  match c.stmts.lookup key with
  | some stmt => some stmt
  | none => none

/-- A driver for examples that compiles every non-empty query. -/
def samplePrepare (query : String) : Option Stmt :=
  if query = "" then none else some { query := query }

/-- A fresh handle of the pool, with the empty statement map. -/
def freshConn : RoPooledConn := { stmts := [], closers := [] }

/-! ## Live sorter

`container/heap` is Go standard library; its functions `Push`, `Pop`, `up` and
`down` are given here as they run on a `sortableRecordHeap`, a slice.  The
loops of `up` and `down` take one unit of fuel per iteration.  An index out of
range is a panic in Go; the functions are only called with indexes inside the
slice, and a lookup outside it leaves the slice as it is. -/

/-- The method `Swap` of a heap slice. -/
def heapSwap {α : Type} (h : List α) (i j : Nat) : List α :=
  match h.get? i, h.get? j with
  | some a, some b => (h.set i b).set j a
  | _, _ => h

/-- The function `up` of `container/heap`: `j` moves to its parent `(j-1)/2`
while it is less than it. -/
def heapUp {α : Type} (less : α → α → Bool) : Nat → List α → Nat → List α
  | 0, h, _ => h
  | fuel + 1, h, j =>
      if (j - 1) / 2 = j then h
      else
        match h.get? j, h.get? ((j - 1) / 2) with
        | some x, some y =>
            if less x y then heapUp less fuel (heapSwap h ((j - 1) / 2) j) ((j - 1) / 2) else h
        | _, _ => h

/-- The child `down` compares with `i` among the first `n` elements: the right
child `2i+2` when it exists and is less than the left child `2i+1`, else the
left child. -/
def smallerChild {α : Type} (less : α → α → Bool) (h : List α) (i n : Nat) : Nat :=
  match h.get? (2 * i + 2), h.get? (2 * i + 1) with
  | some a, some b => if 2 * i + 2 < n ∧ less a b = true then 2 * i + 2 else 2 * i + 1
  | _, _ => 2 * i + 1

/-- The function `down` of `container/heap` on the first `n` elements: `i`
moves to its smaller child while that child is less than it. -/
def heapDown {α : Type} (less : α → α → Bool) : Nat → List α → Nat → Nat → List α
  | 0, h, _, _ => h
  | fuel + 1, h, i, n =>
      if 2 * i + 1 ≥ n then h
      else
        match h.get? (smallerChild less h i n), h.get? i with
        | some x, some y =>
            if less x y then
              heapDown less fuel (heapSwap h i (smallerChild less h i n)) (smallerChild less h i n) n
            else h
        | _, _ => h

/-- The function `heap.Push`: append, then `up` from the last index. -/
def heapPush {α : Type} (less : α → α → Bool) (h : List α) (x : α) : List α :=
  heapUp less (h.length + 1) (h ++ [x]) h.length

/-- The function `heap.Pop`: swap the first and last elements, `down` from the
root on all but the last, then remove and return the last; `none` is the panic
on an empty heap. -/
def heapPop {α : Type} (less : α → α → Bool) (h : List α) : Option (α × List α) :=
  match (heapDown less (h.length - 1) (heapSwap h 0 (h.length - 1)) 0 (h.length - 1)).getLast? with
  | none => none
  | some x =>
      some (x, (heapDown less (h.length - 1) (heapSwap h 0 (h.length - 1)) 0 (h.length - 1)).dropLast)

/-- The struct `parsedRecord`, with the fields the sorter reads or passes on;
`sequence` is a `uint64`. -/
structure parsedRecord where
  line : String
  queueIndex : Int
  sequence : Nat
  loc : RecordLocation
deriving DecidableEq, Repr

/-- The struct `sortableRecord`. -/
structure sortableRecord where
  record : parsedRecord
  time : Time
deriving DecidableEq, Repr

/-- The method `sortableRecord.Less`. -/
def sortableRecord.Less (r other : sortableRecord) : Bool :=
  if r.time.Before other.time then true
  else if r.time.After other.time then false
  else if r.record.queueIndex < other.record.queueIndex then true
  else if r.record.queueIndex > other.record.queueIndex then false
  else decide (r.record.sequence < other.record.sequence)

/-- The constant `maxNumberOfCachedElementsInTheHeap`. -/
def maxNumberOfCachedElementsInTheHeap : Nat := 2048

/-- The closure `flushHeap` of `publishNewLogsSorted`, one `heap.Pop` per unit
of fuel: the heap left and the records popped, in order. -/
def flushHeapLoop : Nat → List sortableRecord → List sortableRecord × List sortableRecord
  | 0, h => (h, [])
  | fuel + 1, h =>
      if h.length > 0 then
        match heapPop sortableRecord.Less h with
        | none => (h, [])
        | some (s, h2) => ((flushHeapLoop fuel h2).1, s :: (flushHeapLoop fuel h2).2)
      else (h, [])

/-- The closure `flushHeap`: the loop run until the heap is empty. -/
def flushHeap (h : List sortableRecord) : List sortableRecord × List sortableRecord :=
  flushHeapLoop h.length h

/-- What the goroutine of `publishNewLogsSorted` selects: a record received on
`sortableRecordsChan`, or a tick of the two-second ticker. -/
inductive SorterEvent where
  | received (r : sortableRecord) : SorterEvent
  | tick : SorterEvent
deriving DecidableEq, Repr

/-- One iteration of the loop of `publishNewLogsSorted` on the heap and the
records sent so far: a received record is pushed, a tick flushes the heap. -/
def sorterStep (state : List sortableRecord × List sortableRecord) :
    SorterEvent → List sortableRecord × List sortableRecord
  | SorterEvent.received r => (heapPush sortableRecord.Less state.1 r, state.2)
  | SorterEvent.tick => ((flushHeap state.1).1, state.2 ++ (flushHeap state.1).2)

/-- The loop of `publishNewLogsSorted` over the events selected until
`sortableRecordsChan` is closed, starting from the empty heap. -/
def sorterLoop (events : List SorterEvent) : List sortableRecord × List sortableRecord :=
  events.foldl sorterStep ([], [])

/-- The record `flushHeap` sends on `pub.records` for a popped record. -/
def sortableRecord.toParsedHeaderRecord (s : sortableRecord) : parsedHeaderRecord :=
  { time := s.time, location := s.record.loc, line := s.record.line }

/-- The function `publishNewLogsSorted`: the records sent on `pub.records`
until the channel is closed, the last flush included. -/
def publishNewLogsSorted (events : List SorterEvent) : List parsedHeaderRecord :=
  ((sorterLoop events).2 ++ (flushHeap (sorterLoop events).1).2).map
    sortableRecord.toParsedHeaderRecord

/-- What `container/heap` asks of `Less`: if `a` is less than `b` then `b` is
not less than `a`, and "not less than" is transitive. -/
def heapOrder {α : Type} (less : α → α → Bool) : Prop :=
  (∀ a b, less a b = true → less b a = false) ∧
  (∀ a b c, less b a = false → less c b = false → less c a = false)

/-- The heap invariant on the first `n` elements of a slice: no element is less
than its parent. -/
def isHeap {α : Type} (less : α → α → Bool) (h : List α) (n : Nat) : Prop :=
  ∀ k x y, 0 < k → k < n → h.get? k = some x → h.get? ((k - 1) / 2) = some y → less x y = false

/-- The invariant of the loop of `up` at index `j`: the heap invariant holds at
every index but `j`, and no child of `j` is less than the parent of `j`. -/
def upInvariant {α : Type} (less : α → α → Bool) (h : List α) (j : Nat) : Prop :=
  (∀ k x y, 0 < k → k ≠ j → h.get? k = some x → h.get? ((k - 1) / 2) = some y →
    less x y = false) ∧
  (∀ k x z, 0 < k → 0 < j → (k - 1) / 2 = j → h.get? k = some x →
    h.get? ((j - 1) / 2) = some z → less x z = false)

/-- The invariant of the loop of `down` at index `i` on the first `n` elements:
the heap invariant holds at every index whose parent is not `i`, and no child
of `i` is less than the parent of `i`. -/
def downInvariant {α : Type} (less : α → α → Bool) (h : List α) (i n : Nat) : Prop :=
  (∀ k x y, 0 < k → k < n → (k - 1) / 2 ≠ i → h.get? k = some x →
    h.get? ((k - 1) / 2) = some y → less x y = false) ∧
  (∀ k x z, 0 < k → k < n → 0 < i → (k - 1) / 2 = i → h.get? k = some x →
    h.get? ((i - 1) / 2) = some z → less x z = false)

/-- The sorting key of a live record: time, family index, sequence in the
family. -/
def sortableRecord.key (r : sortableRecord) : Int × Int × Nat :=
  (r.time, r.record.queueIndex, r.record.sequence)

/-- The strict lexicographic order on keys. -/
def keyLess (a b : Int × Int × Nat) : Prop :=
  a.1 < b.1 ∨ (a.1 = b.1 ∧ (a.2.1 < b.2.1 ∨ (a.2.1 = b.2.1 ∧ a.2.2 < b.2.2)))

/-- Three live records: two of family 0 in the same second, in sequence, and
one of family 1 a second earlier. -/
def sampleLiveRecords : List sortableRecord :=
  [ ⟨⟨"b", 0, 1, ⟨"mail.log", 2⟩⟩, 8⟩, ⟨⟨"c", 1, 0, ⟨"mail.err", 1⟩⟩, 7⟩,
    ⟨⟨"a", 0, 0, ⟨"mail.log", 1⟩⟩, 8⟩ ]

/-- The records `startWatchingOnQueue` sends for the lines its watcher reports,
in the order of the file: `sequence` counts them from 0 in a `uint64`, and `loc`
is left at its zero value. -/
def startWatchingOnQueue (queueIndex : Int) (lines : List String) : List parsedRecord :=
  lines.enum.map
    (fun il => { line := il.2, queueIndex := queueIndex, sequence := il.1 % 2 ^ 64,
                 loc := { Filename := "", Line := 0 } })

/-- Whether a calendar reading is not later than another: an earlier year, or
the same year and a second-of-year that is not greater (for dates that exist in
their year this is the order of the instants). -/
def UTCTime.notAfter (a b : UTCTime) : Bool :=
  decide (a.year < b.year ∨
    (a.year = b.year ∧ secondsInTheYearForTime a ≤ secondsInTheYearForTime b))

/-! # Theorems -/

/-! ## The high-water publisher -/

theorem shouldIgnore_eq_some_true (hw : SumPair) (r : Record) :
    shouldIgnore hw r = some true ↔
      hw.Time ≠ 0 ∧ (r.Time < hw.Time ∨ (r.Time = hw.Time ∧ hw.Sum = some r.Sum)) := by
  unfold shouldIgnore Time.IsZero Time.Before Time.Equal
  by_cases h0 : hw.Time = 0
  · simp [h0]
  · by_cases h1 : r.Time < hw.Time
    · simp [h0, h1]
    · by_cases h2 : r.Time = hw.Time
      · cases hs : hw.Sum with
        | none => simp [h0, h2]
        | some s =>
          simp [h0, h2]
          exact eq_comm
      · simp [h0, h1, h2]

theorem Publish_forward (p q : IgnoringPublisher) (r : Record)
    (h : p.Publish r = some q) :
    q = p ∨ (q.pub = p.pub ++ [r] ∧ q.lastPublishedSumPair = { Time := r.Time, Sum := some r.Sum } ∧
      (p.lastPublishedSumPair.Time = 0 ∨ p.lastPublishedSumPair.Time ≤ r.Time)) := by
  unfold IgnoringPublisher.Publish at h
  cases hs : shouldIgnore p.lastPublishedSumPair r with
  | none => simp [hs] at h
  | some b =>
    cases b with
    | true =>
      simp [hs] at h
      exact Or.inl h.symm
    | false =>
      simp [hs] at h
      right
      subst h
      refine ⟨rfl, rfl, ?_⟩
      by_cases h0 : p.lastPublishedSumPair.Time = 0
      · exact Or.inl h0
      · right
        by_contra hlt
        have : shouldIgnore p.lastPublishedSumPair r = some true :=
          (shouldIgnore_eq_some_true _ _).2 ⟨h0, Or.inl (not_le.1 hlt)⟩
        rw [hs] at this
        cases this

theorem publishTrace_forwarded (rs : List Record) :
    ∀ p : IgnoringPublisher, (∀ r ∈ rs, 0 ≤ r.Time) →
      ∃ fwd : List Record,
        (p.publishTrace rs).pub = p.pub ++ fwd ∧
        fwd.Sublist rs ∧
        fwd.Pairwise (fun a b => a.Time ≤ b.Time) ∧
        (∀ x ∈ fwd, p.lastPublishedSumPair.Time ≤ x.Time) ∧
        p.lastPublishedSumPair.Time ≤ (p.publishTrace rs).lastPublishedSumPair.Time := by
  induction rs with
  | nil =>
    intro p _
    exact ⟨[], by simp [IgnoringPublisher.publishTrace], List.Sublist.refl _, List.Pairwise.nil,
      by simp, by simp [IgnoringPublisher.publishTrace]⟩
  | cons r rs ih =>
    intro p hpos
    have hr : 0 ≤ r.Time := hpos r (List.mem_cons_self _ _)
    have hrs : ∀ x ∈ rs, 0 ≤ x.Time := fun x hx => hpos x (List.mem_cons_of_mem _ hx)
    cases hq : p.Publish r with
    | none =>
      refine ⟨[], ?_, List.nil_sublist _, List.Pairwise.nil, by simp, ?_⟩
      · simp [IgnoringPublisher.publishTrace, hq]
      · simp [IgnoringPublisher.publishTrace, hq]
    | some q =>
      obtain ⟨fwd, h1, h2, h3, h4, h5⟩ := ih q hrs
      have htr : p.publishTrace (r :: rs) = q.publishTrace rs := by
        simp [IgnoringPublisher.publishTrace, hq]
      rcases Publish_forward p q r hq with hqp | ⟨hpub, hhw, hle⟩
      · subst hqp
        exact ⟨fwd, by rw [htr, h1], h2.trans (List.sublist_cons_self _ _), h3, h4,
          by rw [htr]; exact h5⟩
      · have hpr : p.lastPublishedSumPair.Time ≤ r.Time := by
          rcases hle with h0 | hle
          · rw [h0]; exact hr
          · exact hle
        have hqt : q.lastPublishedSumPair.Time = r.Time := by rw [hhw]
        refine ⟨r :: fwd, ?_, h2.cons₂ r, ?_, ?_, ?_⟩
        · rw [htr, h1, hpub]; simp
        · refine List.Pairwise.cons ?_ h3
          intro x hx
          have := h4 x hx
          rw [hqt] at this
          exact this
        · intro x hx
          rcases List.mem_cons.1 hx with hx | hx
          · subst hx; exact hpr
          · have := h4 x hx
            rw [hqt] at this
            exact le_trans hpr this
        · rw [htr]
          rw [hqt] at h5
          exact le_trans hpr h5

/-- C1 (amended): for every sequence of records whose times are not before Go's
zero instant, handed to the `ignoringPublisher` from any initial high-water, the
records forwarded downstream are a subsequence of the records handed in with
non-decreasing times, and the high-water time after the calls is not below the
one before them.  This holds for the calls made up to a panic as well. -/
theorem C1_forwarded_times_nondecreasing (p : IgnoringPublisher) (rs : List Record)
    (h : ∀ r ∈ rs, 0 ≤ r.Time) :
    ∃ fwd : List Record,
      (p.publishTrace rs).pub = p.pub ++ fwd ∧
      fwd.Sublist rs ∧
      fwd.Pairwise (fun a b => a.Time ≤ b.Time) ∧
      p.lastPublishedSumPair.Time ≤ (p.publishTrace rs).lastPublishedSumPair.Time := by
  obtain ⟨fwd, h1, h2, h3, _, h5⟩ := publishTrace_forwarded rs p h
  exact ⟨fwd, h1, h2, h3, h5⟩

theorem C1_forwarded_times_nondecreasing_witness :
    (∀ r ∈ [Record.mk 5 "a" 1, Record.mk 3 "b" 2, Record.mk 5 "c" 3], 0 ≤ r.Time) ∧
    ∃ fwd : List Record,
      ((IgnoringPublisher.mk [] ⟨2, none⟩).publishTrace
          [Record.mk 5 "a" 1, Record.mk 3 "b" 2, Record.mk 5 "c" 3]).pub = [] ++ fwd ∧
      fwd.Sublist [Record.mk 5 "a" 1, Record.mk 3 "b" 2, Record.mk 5 "c" 3] ∧
      fwd.Pairwise (fun a b => a.Time ≤ b.Time) ∧
      (2 : Int) ≤ ((IgnoringPublisher.mk [] ⟨2, none⟩).publishTrace
          [Record.mk 5 "a" 1, Record.mk 3 "b" 2, Record.mk 5 "c" 3]).lastPublishedSumPair.Time :=
  ⟨by decide,
   C1_forwarded_times_nondecreasing (IgnoringPublisher.mk [] ⟨2, none⟩)
     [Record.mk 5 "a" 1, Record.mk 3 "b" 2, Record.mk 5 "c" 3] (by decide)⟩

/-- C1, as stated, fails: while the high-water time is the zero instant nothing
is ignored, so a record at the zero instant followed by a record before it are
both forwarded (decreasing times), and the high-water time moves backwards. -/
theorem C1_counterexample :
    (IgnoringPublisher.mk [] ⟨0, none⟩).publishAll [Record.mk 0 "a" 1, Record.mk (-1) "b" 2]
      = some (IgnoringPublisher.mk [Record.mk 0 "a" 1, Record.mk (-1) "b" 2] ⟨-1, some 2⟩) ∧
    ¬ ([Record.mk 0 "a" 1, Record.mk (-1) "b" 2].Pairwise (fun a b => a.Time ≤ b.Time)) ∧
    (-1 : Int) < (SumPair.mk 0 none).Time := by
  refine ⟨by decide, by decide, by decide⟩

/-- C5: when `ignoringPublisher.Publish` decides to ignore a record, the call
completes with the publisher unchanged (nothing is forwarded to the wrapped
publisher and the high-water `SumPair` stays as it was), and the ignored record
is stale: its time is before the high-water time, or it has the high-water's
time and checksum. -/
theorem C5_ignored_record_leaves_state (p : IgnoringPublisher) (r : Record)
    (h : shouldIgnore p.lastPublishedSumPair r = some true) :
    p.Publish r = some p ∧
    (r.Time < p.lastPublishedSumPair.Time ∨
      (r.Time = p.lastPublishedSumPair.Time ∧ p.lastPublishedSumPair.Sum = some r.Sum)) := by
  refine ⟨?_, ((shouldIgnore_eq_some_true _ _).1 h).2⟩
  unfold IgnoringPublisher.Publish
  rw [h]

theorem C5_ignored_record_leaves_state_witness :
    shouldIgnore (SumPair.mk 7 (some 4)) (Record.mk 7 "x" 4) = some true ∧
    ((IgnoringPublisher.mk [Record.mk 7 "x" 4] ⟨7, some 4⟩).Publish (Record.mk 7 "x" 4)
        = some (IgnoringPublisher.mk [Record.mk 7 "x" 4] ⟨7, some 4⟩) ∧
     ((Record.mk 7 "x" 4).Time < (SumPair.mk 7 (some 4)).Time ∨
      ((Record.mk 7 "x" 4).Time = (SumPair.mk 7 (some 4)).Time ∧
        (SumPair.mk 7 (some 4)).Sum = some (Record.mk 7 "x" 4).Sum))) :=
  ⟨by decide,
   C5_ignored_record_leaves_state (IgnoringPublisher.mk [Record.mk 7 "x" 4] ⟨7, some 4⟩)
     (Record.mk 7 "x" 4) (by decide)⟩

/-! ## The merge loop returns -/

theorem scanUntilParsed_length (f : List LogLine) :
    ∀ (n : Nat) (t : Time) (text : String) (m : Nat) (g : List LogLine),
      scanUntilParsed f n = some (t, text, m, g) → g.length < f.length := by
  induction f with
  | nil => intro n t text m g h; simp [scanUntilParsed] at h
  | cons l ls ih =>
    intro n t text m g h
    unfold scanUntilParsed at h
    cases hl : l.time with
    | none =>
      rw [hl] at h
      have := ih _ _ _ _ _ h
      simp only [List.length_cons]
      omega
    | some u =>
      rw [hl] at h
      simp only [Option.some.injEq, Prod.mk.injEq] at h
      obtain ⟨_, _, _, rfl⟩ := h
      simp

theorem setFileLocation_scanners (p : queueProcessor) :
    (setFileLocationOnQueueProcessorIfNeeded p).scanners = p.scanners := by
  unfold setFileLocationOnQueueProcessorIfNeeded
  cases p.entries.get? p.currentIndex with
  | none => rfl
  | some e =>
    by_cases h : p.line > 0
    · simp [h]
    · simp [h]

theorem updateQueueProcessorLoop_cons_some (f : List LogLine) (rest : List (List LogLine))
    (p : queueProcessor) (t : Time) (text : String) (n : Nat) (g : List LogLine)
    (hs : scanUntilParsed f p.line = some (t, text, n, g)) :
    (∃ e, updateQueueProcessorLoop (f :: rest) p = Except.error e ∧ p.converter = none ∧
      createConverterForQueueProcessor p = Except.error e) ∨
    (∃ c, updateQueueProcessorLoop (f :: rest) p
        = Except.ok (true,
            { p with
              scanners := g :: rest
              line := n
              converter := some c
              record :=
                { time := t, location := { Filename := p.filename, Line := n }, line := text } }) ∧
      (p.converter = some c ∨
        (p.converter = none ∧ createConverterForQueueProcessor p = Except.ok c))) := by
  unfold updateQueueProcessorLoop
  rw [hs]
  simp only
  cases hc : p.converter with
  | some c => exact Or.inr ⟨c, rfl, Or.inl rfl⟩
  | none =>
    simp only
    cases hcr : createConverterForQueueProcessor p with
    | error e => exact Or.inl ⟨e, rfl, trivial, rfl⟩
    | ok c => exact Or.inr ⟨c, rfl, Or.inr ⟨trivial, rfl⟩⟩

theorem updateQueueProcessorLoop_cons_none (f : List LogLine) (rest : List (List LogLine))
    (p : queueProcessor) (hs : scanUntilParsed f p.line = none) :
    updateQueueProcessorLoop (f :: rest) p
      = updateQueueProcessorLoop rest
          (setFileLocationOnQueueProcessorIfNeeded
            { p with scanners := rest, currentIndex := p.currentIndex + 1, line := 0 }) := by
  rw [updateQueueProcessorLoop, hs]

theorem updateQueueProcessorLoop_weight (fs : List (List LogLine)) :
    ∀ (p q : queueProcessor), updateQueueProcessorLoop fs p = Except.ok (true, q) →
      scannersWeight q.scanners < scannersWeight fs := by
  induction fs with
  | nil => intro p q h; simp [updateQueueProcessorLoop] at h
  | cons f rest ih =>
    intro p q h
    cases hs : scanUntilParsed f p.line with
    | none =>
      rw [updateQueueProcessorLoop_cons_none f rest p hs] at h
      have := ih _ _ h
      simp only [scannersWeight, List.map_cons, List.sum_cons] at this ⊢
      omega
    | some x =>
      obtain ⟨t, text, n, g⟩ := x
      rcases updateQueueProcessorLoop_cons_some f rest p t text n g hs with
        ⟨e, he, _⟩ | ⟨c, hc, _⟩
      · rw [he] at h; cases h
      · rw [hc] at h
        simp only [Except.ok.injEq, Prod.mk.injEq, true_and] at h
        subst h
        have := scanUntilParsed_length f _ _ _ _ _ hs
        simp only [scannersWeight, List.map_cons, List.sum_cons]
        omega

theorem updateQueueProcessor_weight (p q : queueProcessor)
    (h : updateQueueProcessor p = Except.ok (true, q)) : q.weight < p.weight := by
  unfold updateQueueProcessor at h
  have := updateQueueProcessorLoop_weight _ _ _ h
  rw [setFileLocation_scanners] at this
  unfold queueProcessor.weight
  omega

theorem updateQueueProcessors_cons (toBeUpdated : Int) (p : queueProcessor)
    (ps : List queueProcessor) (i : Nat) :
    (toBeUpdated ≠ -1 ∧ (i : Int) ≠ toBeUpdated ∧
      (updateQueueProcessors toBeUpdated (p :: ps) i).1
        = p :: (updateQueueProcessors toBeUpdated ps (i + 1)).1) ∨
    (¬ (toBeUpdated ≠ -1 ∧ (i : Int) ≠ toBeUpdated) ∧
      ((∃ q, q.weight < p.weight ∧
          (updateQueueProcessors toBeUpdated (p :: ps) i).1
            = q :: (updateQueueProcessors toBeUpdated ps (i + 1)).1) ∨
        (updateQueueProcessors toBeUpdated (p :: ps) i).1
          = (updateQueueProcessors toBeUpdated ps (i + 1)).1 ∨
        (updateQueueProcessors toBeUpdated (p :: ps) i).1 = [])) := by
  by_cases hskip : toBeUpdated ≠ -1 ∧ (i : Int) ≠ toBeUpdated
  · left
    refine ⟨hskip.1, hskip.2, ?_⟩
    simp only [updateQueueProcessors]
    rw [if_pos hskip]
  · right
    refine ⟨hskip, ?_⟩
    simp only [updateQueueProcessors]
    rw [if_neg hskip]
    cases hu : updateQueueProcessor p with
    | error e => exact Or.inr (Or.inr rfl)
    | ok bq =>
      obtain ⟨b, q⟩ := bq
      cases b with
      | true =>
        left
        exact ⟨q, updateQueueProcessor_weight p q hu, rfl⟩
      | false =>
        right; left
        simp only
        cases q.converter with
        | some c => rfl
        | none =>
          simp only
          cases q.entries.getLast? with
          | none => rfl
          | some e => rfl

theorem updateQueueProcessors_weight_le (toBeUpdated : Int) (ps : List queueProcessor) :
    ∀ i : Nat, totalWeight (updateQueueProcessors toBeUpdated ps i).1 ≤ totalWeight ps := by
  induction ps with
  | nil => intro i; simp [updateQueueProcessors]
  | cons p ps ih =>
    intro i
    have hrest := ih (i + 1)
    rcases updateQueueProcessors_cons toBeUpdated p ps i with
      ⟨_, _, h⟩ | ⟨_, ⟨q, hq, h⟩ | h | h⟩
    · rw [h]; simp only [totalWeight, List.map_cons, List.sum_cons] at hrest ⊢; omega
    · rw [h]; simp only [totalWeight, List.map_cons, List.sum_cons] at hrest ⊢; omega
    · rw [h]; simp only [totalWeight, List.map_cons, List.sum_cons] at hrest ⊢; omega
    · rw [h]; simp [totalWeight]

theorem weight_pos (p : queueProcessor) : 0 < p.weight := by
  unfold queueProcessor.weight; omega

theorem updateQueueProcessors_weight_lt (toBeUpdated : Int) (ps : List queueProcessor) :
    ∀ i : Nat, ((toBeUpdated = -1 ∧ ps ≠ []) ∨
        ((i : Int) ≤ toBeUpdated ∧ toBeUpdated < (i : Int) + ps.length)) →
      totalWeight (updateQueueProcessors toBeUpdated ps i).1 < totalWeight ps := by
  induction ps with
  | nil =>
    intro i h
    rcases h with ⟨_, h⟩ | ⟨h1, h2⟩
    · exact absurd rfl h
    · simp at h2; omega
  | cons p ps ih =>
    intro i h
    have hle := updateQueueProcessors_weight_le toBeUpdated ps (i + 1)
    have hp := weight_pos p
    rcases updateQueueProcessors_cons toBeUpdated p ps i with
      ⟨h1, h2, h3⟩ | ⟨_, ⟨q, hq, h3⟩ | h3 | h3⟩
    · have hrest : totalWeight (updateQueueProcessors toBeUpdated ps (i + 1)).1 < totalWeight ps := by
        apply ih (i + 1)
        rcases h with ⟨h, _⟩ | ⟨ha, hb⟩
        · exact absurd h h1
        · right
          simp only [List.length_cons] at hb
          push_cast at hb ⊢
          omega
      rw [h3]; simp only [totalWeight, List.map_cons, List.sum_cons] at hrest ⊢; omega
    · rw [h3]; simp only [totalWeight, List.map_cons, List.sum_cons] at hle ⊢; omega
    · rw [h3]; simp only [totalWeight, List.map_cons, List.sum_cons] at hle ⊢; omega
    · rw [h3]; simp only [totalWeight, List.map_cons, List.sum_cons, List.map_nil, List.sum_nil]
      omega

theorem chooseIndexLoop_bound (qs : List queueProcessor) :
    ∀ (rest : List queueProcessor) (i : Nat) (chosen : Option Nat),
      i + rest.length = qs.length →
      (∀ c, chosen = some c → c < i) →
      (chosen = none → i = 0) →
      (rest = [] → chosen = none → False) →
      ∃ k, chooseIndexLoop qs rest i chosen = some k ∧ k < qs.length := by
  intro rest
  induction rest with
  | nil =>
    intro i chosen hlen hc _ hne
    cases chosen with
    | none => exact absurd rfl (fun h => hne rfl h)
    | some c =>
      refine ⟨c, rfl, ?_⟩
      have := hc c rfl
      simp at hlen
      omega
  | cons p rest ih =>
    intro i chosen hlen hc h0 _
    simp only [List.length_cons] at hlen
    cases chosen with
    | none =>
      simp only [chooseIndexLoop]
      apply ih (i + 1) (some i) (by omega)
      · intro c h; cases h; omega
      · intro h; cases h
      · intro _ h; cases h
    | some c =>
      have hci := hc c rfl
      have hcl : c < qs.length := by omega
      simp only [chooseIndexLoop]
      rw [List.get?_eq_get hcl]
      simp only
      apply ih (i + 1) _ (by omega)
      · intro d hd
        split at hd
        · cases hd; omega
        · cases hd; omega
      · intro h
        split at h <;> cases h
      · intro _ h
        split at h <;> cases h

theorem chooseIndexForOldestElement_bound (qs : List queueProcessor) (h : qs ≠ []) :
    ∃ k, chooseIndexForOldestElement qs = some k ∧ k < qs.length := by
  unfold chooseIndexForOldestElement
  apply chooseIndexLoop_bound qs qs 0 none (by simp)
  · intro c hc; cases hc
  · intro _; rfl
  · intro h1 _; exact h h1

theorem importLoop_some (computeChecksum : String → Sum) (sum : SumPair) (fuel : Nat) :
    ∀ (ps : List queueProcessor) (toBeUpdated : Int) (matched : Bool),
      (toBeUpdated = -1 ∨ (0 ≤ toBeUpdated ∧ toBeUpdated < (ps.length : Int))) →
      totalWeight ps < fuel →
      ∃ result, importLoop computeChecksum sum fuel ps toBeUpdated matched = some result := by
  induction fuel with
  | zero => intro ps _ _ _ h; omega
  | succ fuel ih =>
    intro ps toBeUpdated matched hidx hw
    simp only [importLoop]
    cases herr : (updateQueueProcessors toBeUpdated ps 0).2.2 with
    | some e => exact ⟨_, rfl⟩
    | none =>
      simp only
      by_cases hempty : (updateQueueProcessors toBeUpdated ps 0).1.length = 0
      · rw [if_pos hempty]; exact ⟨_, rfl⟩
      · rw [if_neg hempty]
        have hne : (updateQueueProcessors toBeUpdated ps 0).1 ≠ [] := by
          intro h; rw [h] at hempty; exact hempty rfl
        obtain ⟨k, hk, hkl⟩ := chooseIndexForOldestElement_bound _ hne
        rw [hk]
        simp only
        rw [List.get?_eq_get hkl]
        simp only
        have hps : ps ≠ [] := by
          intro h; rw [h] at hne; exact hne (by simp [updateQueueProcessors])
        have hlt : totalWeight (updateQueueProcessors toBeUpdated ps 0).1 < totalWeight ps := by
          apply updateQueueProcessors_weight_lt
          rcases hidx with h | ⟨h1, h2⟩
          · exact Or.inl ⟨h, hps⟩
          · right; push_cast; omega
        obtain ⟨es, hes⟩ := ih (updateQueueProcessors toBeUpdated ps 0).1 (k : Int)
          (highWaterTest computeChecksum sum matched
            ((updateQueueProcessors toBeUpdated ps 0).1.get ⟨k, hkl⟩).record).2
          (Or.inr ⟨by omega, by exact_mod_cast hkl⟩) (by omega)
        rw [hes]
        exact ⟨_, rfl⟩

theorem importExistingLogs_some (computeChecksum : String → Sum) (ps : List queueProcessor)
    (sum : SumPair) :
    ∃ events err, importExistingLogs computeChecksum ps sum = some (events, err) := by
  unfold importExistingLogs importFuel
  obtain ⟨r, hr⟩ := importLoop_some computeChecksum sum _ ps (-1) false (Or.inl rfl)
    (Nat.lt_succ_self _)
  exact ⟨r.1, r.2, hr⟩

theorem chosenDecisions_append_handed (hs es : List ImportEvent)
    (h : ∀ e ∈ hs, ∃ pat c, e = ImportEvent.handed pat c) :
    chosenDecisions (hs ++ es) = chosenDecisions es := by
  induction hs with
  | nil => rfl
  | cons e hs ih =>
    obtain ⟨pat, c, rfl⟩ := h _ (List.mem_cons_self _ _)
    simp only [List.cons_append, chosenDecisions]
    exact ih (fun e he => h e (List.mem_cons_of_mem _ he))

theorem updateQueueProcessors_handed (toBeUpdated : Int) (ps : List queueProcessor) :
    ∀ (i : Nat) (e : ImportEvent), e ∈ (updateQueueProcessors toBeUpdated ps i).2.1 →
      ∃ pat c, e = ImportEvent.handed pat c := by
  induction ps with
  | nil => intro i e h; simp [updateQueueProcessors] at h
  | cons p ps ih =>
    intro i e h
    simp only [updateQueueProcessors] at h
    split at h
    · exact ih _ _ h
    · split at h
      · cases h
      · exact ih _ _ h
      · split at h
        · rcases List.mem_cons.1 h with h | h
          · exact ⟨_, _, h⟩
          · exact ih _ _ h
        · split at h
          · exact ih _ _ h
          · rcases List.mem_cons.1 h with h | h
            · exact ⟨_, _, h⟩
            · exact ih _ _ h

theorem chosenRecords_eq_map (es : List ImportEvent) :
    chosenRecords es = (chosenDecisions es).map Prod.fst := by
  induction es with
  | nil => rfl
  | cons e es ih =>
    cases e with
    | handed pat c => simpa [chosenRecords, chosenDecisions] using ih
    | chosen r b => simp [chosenRecords, chosenDecisions, ih]

theorem publishedRecords_eq (computeChecksum : String → Sum) (es : List ImportEvent) :
    publishedRecords computeChecksum es
      = ((chosenDecisions es).filter (fun d => d.2)).map (fun d => toRecord computeChecksum d.1) := by
  induction es with
  | nil => rfl
  | cons e es ih =>
    cases e with
    | handed pat c => simpa [publishedRecords, chosenDecisions] using ih
    | chosen r b =>
      cases b with
      | true => simp [publishedRecords, chosenDecisions, ih]
      | false => simp [publishedRecords, chosenDecisions, ih]

theorem importLoop_succ (computeChecksum : String → Sum) (sum : SumPair) (fuel : Nat)
    (ps : List queueProcessor) (toBeUpdated : Int) (matched : Bool) (events : List ImportEvent)
    (err : Option GuessError)
    (h : importLoop computeChecksum sum (fuel + 1) ps toBeUpdated matched = some (events, err)) :
    ((∃ e, (updateQueueProcessors toBeUpdated ps 0).2.2 = some e ∧ err = some e) ∧
      events = (updateQueueProcessors toBeUpdated ps 0).2.1) ∨
    ((updateQueueProcessors toBeUpdated ps 0).2.2 = none ∧
      (updateQueueProcessors toBeUpdated ps 0).1.length = 0 ∧ err = none ∧
      events = (updateQueueProcessors toBeUpdated ps 0).2.1) ∨
    (∃ (k : Nat) (pk : queueProcessor) (rest : List ImportEvent),
      (updateQueueProcessors toBeUpdated ps 0).2.2 = none ∧
      (updateQueueProcessors toBeUpdated ps 0).1.length ≠ 0 ∧
      chooseIndexForOldestElement (updateQueueProcessors toBeUpdated ps 0).1 = some k ∧
      (updateQueueProcessors toBeUpdated ps 0).1.get? k = some pk ∧
      importLoop computeChecksum sum fuel (updateQueueProcessors toBeUpdated ps 0).1 (k : Int)
        (highWaterTest computeChecksum sum matched pk.record).2 = some (rest, err) ∧
      events = (updateQueueProcessors toBeUpdated ps 0).2.1 ++
        ImportEvent.chosen pk.record (highWaterTest computeChecksum sum matched pk.record).1 :: rest) := by
  simp only [importLoop] at h
  cases herr : (updateQueueProcessors toBeUpdated ps 0).2.2 with
  | some e =>
    rw [herr] at h
    simp only [Option.some.injEq, Prod.mk.injEq] at h
    exact Or.inl ⟨⟨e, rfl, h.2.symm⟩, h.1.symm⟩
  | none =>
    rw [herr] at h
    simp only at h
    right
    by_cases hempty : (updateQueueProcessors toBeUpdated ps 0).1.length = 0
    · rw [if_pos hempty] at h
      simp only [Option.some.injEq, Prod.mk.injEq] at h
      exact Or.inl ⟨rfl, hempty, h.2.symm, h.1.symm⟩
    · rw [if_neg hempty] at h
      right
      cases hk : chooseIndexForOldestElement (updateQueueProcessors toBeUpdated ps 0).1 with
      | none => rw [hk] at h; cases h
      | some k =>
        rw [hk] at h
        simp only at h
        cases hpk : (updateQueueProcessors toBeUpdated ps 0).1.get? k with
        | none => rw [hpk] at h; cases h
        | some pk =>
          rw [hpk] at h
          simp only at h
          cases hrest : importLoop computeChecksum sum fuel (updateQueueProcessors toBeUpdated ps 0).1
              (k : Int) (highWaterTest computeChecksum sum matched pk.record).2 with
          | none => rw [hrest] at h; cases h
          | some rest =>
            rw [hrest] at h
            simp only [Option.map_some', Option.some.injEq, Prod.mk.injEq] at h
            refine ⟨k, pk, rest.1, rfl, hempty, rfl, hpk, ?_, h.1.symm⟩
            rw [← h.2]
            exact hrest

theorem importLoop_decisions (computeChecksum : String → Sum) (sum : SumPair) (fuel : Nat) :
    ∀ (ps : List queueProcessor) (toBeUpdated : Int) (matched : Bool) (events : List ImportEvent)
      (err : Option GuessError),
      importLoop computeChecksum sum fuel ps toBeUpdated matched = some (events, err) →
      chosenDecisions events
        = highWaterDecisions computeChecksum sum matched (chosenRecords events) := by
  induction fuel with
  | zero => intro ps t m es err h; simp [importLoop] at h
  | succ fuel ih =>
    intro ps t m es err h
    have hh := updateQueueProcessors_handed t ps 0
    have hnil : chosenDecisions (updateQueueProcessors t ps 0).2.1
        = highWaterDecisions computeChecksum sum m
            (chosenRecords (updateQueueProcessors t ps 0).2.1) := by
      have := chosenDecisions_append_handed (updateQueueProcessors t ps 0).2.1 []
        (fun e he => hh e he)
      simp only [List.append_nil] at this
      rw [chosenRecords_eq_map, this]
      rfl
    rcases importLoop_succ _ _ _ _ _ _ _ _ h with
      ⟨_, rfl⟩ | ⟨_, _, _, rfl⟩ | ⟨k, pk, rest, _, _, _, _, hrest, rfl⟩
    · exact hnil
    · exact hnil
    · rw [chosenRecords_eq_map, chosenDecisions_append_handed _ _ (fun e he => hh e he)]
      simp only [chosenDecisions, List.map_cons, highWaterDecisions]
      rw [← chosenRecords_eq_map, ← ih _ _ _ _ _ hrest]

theorem importLoop_merge_order (cs cs2 : String → Sum) (sum sum2 : SumPair) (fuel : Nat) :
    ∀ (ps : List queueProcessor) (toBeUpdated : Int) (m m2 : Bool) (events : List ImportEvent)
      (err : Option GuessError),
      importLoop cs sum fuel ps toBeUpdated m = some (events, err) →
      ∃ events2, importLoop cs2 sum2 fuel ps toBeUpdated m2 = some (events2, err) ∧
        chosenRecords events2 = chosenRecords events := by
  induction fuel with
  | zero => intro ps t m m2 es err h; simp [importLoop] at h
  | succ fuel ih =>
    intro ps t m m2 es err h
    have hh := updateQueueProcessors_handed t ps 0
    rcases importLoop_succ _ _ _ _ _ _ _ _ h with
      ⟨⟨e, he, rfl⟩, rfl⟩ | ⟨herr, he, rfl, rfl⟩ | ⟨k, pk, rest, herr, he, hk, hpk, hrest, rfl⟩
    · refine ⟨(updateQueueProcessors t ps 0).2.1, ?_, rfl⟩
      simp only [importLoop]
      rw [he]
    · refine ⟨(updateQueueProcessors t ps 0).2.1, ?_, rfl⟩
      simp only [importLoop]
      rw [herr]
      simp only
      rw [if_pos he]
    · obtain ⟨rest2, h2, hc⟩ := ih _ _ _ (highWaterTest cs2 sum2 m2 pk.record).2 _ _ hrest
      refine ⟨(updateQueueProcessors t ps 0).2.1 ++
        ImportEvent.chosen pk.record (highWaterTest cs2 sum2 m2 pk.record).1 :: rest2, ?_, ?_⟩
      · simp only [importLoop]
        rw [herr]
        simp only
        rw [if_neg he, hk]
        simp only
        rw [hpk]
        simp only
        rw [h2]
        rfl
      · rw [chosenRecords_eq_map, chosenRecords_eq_map,
          chosenDecisions_append_handed _ _ (fun e he => hh e he),
          chosenDecisions_append_handed _ _ (fun e he => hh e he)]
        simp only [chosenDecisions, List.map_cons]
        rw [← chosenRecords_eq_map, ← chosenRecords_eq_map, hc]

/-! ## The high-water test of the merge loop -/

theorem highWaterTest_fst (cs : String → Sum) (sum : SumPair) (m : Bool) (t : parsedHeaderRecord) :
    (highWaterTest cs sum m t).1 = true ↔
      sum.Time < t.time ∨ (t.time = sum.Time ∧ m = true ∧ sum.Sum ≠ none) := by
  unfold highWaterTest Time.Before Time.Equal
  by_cases h1 : t.time < sum.Time
  · have h3 : ¬ sum.Time < t.time := by unfold Time at *; omega
    have h4 : t.time ≠ sum.Time := by unfold Time at *; omega
    simp [h1, h3, h4]
  · by_cases h2 : t.time = sum.Time
    · cases hs : sum.Sum with
      | none => simp [h1, h2]
      | some s => cases m <;> simp [h2]
    · have : sum.Time < t.time := by unfold Time at *; omega
      simp [h1, h2, this]

theorem highWaterTest_snd (cs : String → Sum) (sum : SumPair) (m : Bool) (t : parsedHeaderRecord) :
    (highWaterTest cs sum m t).2 = true ↔
      m = true ∨ (t.time = sum.Time ∧ sum.Sum = some (cs t.line)) := by
  unfold highWaterTest Time.Before Time.Equal
  by_cases h1 : t.time < sum.Time
  · have : t.time ≠ sum.Time := by unfold Time at *; omega
    simp [h1, this]
  · by_cases h2 : t.time = sum.Time
    · cases hs : sum.Sum with
      | none => simp [h2]
      | some s =>
        cases m
        · simp [h2]; exact eq_comm
        · simp [h2]
    · simp [h1, h2]

theorem highWaterDecisions_map_fst (cs : String → Sum) (sum : SumPair) (ts : List parsedHeaderRecord) :
    ∀ m : Bool, (highWaterDecisions cs sum m ts).map Prod.fst = ts := by
  induction ts with
  | nil => intro m; rfl
  | cons t ts ih => intro m; simp [highWaterDecisions, ih]

theorem highWaterDecisions_nil_sum (cs : String → Sum) (sum : SumPair) (hs : sum.Sum = none)
    (ts : List parsedHeaderRecord) :
    ∀ m : Bool, highWaterDecisions cs sum m ts
      = ts.map (fun t => (t, decide (sum.Time < t.time))) := by
  induction ts with
  | nil => intro m; rfl
  | cons t ts ih =>
    intro m
    simp only [highWaterDecisions, List.map_cons, ih]
    congr 2
    rw [Bool.eq_iff_iff, highWaterTest_fst]
    simp [hs]

theorem chosenRecords_eq_mergedRecords (cs : String → Sum) (ps : List queueProcessor)
    (sum : SumPair) (events : List ImportEvent) (err : Option GuessError)
    (h : importExistingLogs cs ps sum = some (events, err)) :
    chosenRecords events = mergedRecords ps := by
  unfold importExistingLogs at h
  obtain ⟨events2, h2, hc⟩ :=
    importLoop_merge_order cs (fun _ => 0) sum { Time := 0, Sum := none } _ ps (-1) false false
      events err h
  unfold mergedRecords importExistingLogs
  rw [h2]
  exact hc.symm

theorem importExistingLogs_decisions (cs : String → Sum) (ps : List queueProcessor)
    (sum : SumPair) (events : List ImportEvent) (err : Option GuessError)
    (h : importExistingLogs cs ps sum = some (events, err)) :
    chosenDecisions events = highWaterDecisions cs sum false (mergedRecords ps) := by
  rw [← chosenRecords_eq_mergedRecords cs ps sum events err h]
  exact importLoop_decisions cs sum _ ps (-1) false events err h

theorem highWaterDecisions_split (cs : String → Sum) (sum : SumPair) (s : Sum)
    (hs : sum.Sum = some s) (pre : List (parsedHeaderRecord × Bool)) :
    ∀ (m : Bool) (ts : List parsedHeaderRecord) (t : parsedHeaderRecord) (b : Bool)
      (post : List (parsedHeaderRecord × Bool)),
      highWaterDecisions cs sum m ts = pre ++ (t, b) :: post →
      (b = true ↔ sum.Time < t.time ∨
        (t.time = sum.Time ∧
          (m = true ∨ ∃ u ∈ pre, u.1.time = sum.Time ∧ cs u.1.line = s))) := by
  induction pre with
  | nil =>
    intro m ts t b post h
    cases ts with
    | nil => simp [highWaterDecisions] at h
    | cons t0 ts =>
      simp only [highWaterDecisions, List.nil_append, List.cons.injEq, Prod.mk.injEq] at h
      obtain ⟨⟨rfl, rfl⟩, _⟩ := h
      rw [highWaterTest_fst]
      simp [hs]
  | cons u pre ih =>
    intro m ts t b post h
    cases ts with
    | nil => simp [highWaterDecisions] at h
    | cons t0 ts =>
      simp only [highWaterDecisions, List.cons_append, List.cons.injEq] at h
      obtain ⟨rfl, h⟩ := h
      rw [ih _ _ _ _ _ h]
      have hflag := highWaterTest_snd cs sum m t0
      rw [hs] at hflag
      simp only [Option.some.injEq] at hflag
      constructor
      · rintro (h1 | ⟨h1, h2⟩)
        · exact Or.inl h1
        · right
          refine ⟨h1, ?_⟩
          rcases h2 with h2 | ⟨v, hv, hv2⟩
          · rcases hflag.1 h2 with h3 | ⟨h3, h4⟩
            · exact Or.inl h3
            · exact Or.inr ⟨_, List.mem_cons_self _ _, h3, h4.symm⟩
          · exact Or.inr ⟨v, List.mem_cons_of_mem _ hv, hv2⟩
      · rintro (h1 | ⟨h1, h2⟩)
        · exact Or.inl h1
        · right
          refine ⟨h1, ?_⟩
          rcases h2 with h2 | ⟨v, hv, hv2⟩
          · exact Or.inl (hflag.2 (Or.inl h2))
          · rcases List.mem_cons.1 hv with rfl | hv
            · exact Or.inl (hflag.2 (Or.inr ⟨hv2.1, hv2.2.symm⟩))
            · exact Or.inr ⟨v, hv, hv2⟩

/-- C3: when the high-water carries a checksum `s`, `importExistingLogs`
returns, with an error or without, and for every record `t` the merge loop
chose until then (with `pre` the records chosen before it): `t` is passed to
the publisher only if its time is not before `hw.time`; a `t` whose time equals
`hw.time` is passed exactly when some earlier record of that time had checksum
`hw.checksum`; hence the first matching record itself is not passed. -/
theorem C3_checksum_resume (cs : String → Sum) (ps : List queueProcessor) (sum : SumPair)
    (s : Sum) (hs : sum.Sum = some s) :
    ∃ events err, importExistingLogs cs ps sum = some (events, err) ∧
      ∀ (pre : List (parsedHeaderRecord × Bool)) (t : parsedHeaderRecord) (b : Bool)
        (post : List (parsedHeaderRecord × Bool)),
        chosenDecisions events = pre ++ (t, b) :: post →
        (b = true → sum.Time ≤ t.time) ∧
        (t.time = sum.Time →
          (b = true ↔ ∃ u ∈ pre, u.1.time = sum.Time ∧ cs u.1.line = s)) ∧
        (t.time = sum.Time → cs t.line = s →
          (∀ u ∈ pre, ¬ (u.1.time = sum.Time ∧ cs u.1.line = s)) → b = false) := by
  obtain ⟨events, err, he⟩ := importExistingLogs_some cs ps sum
  refine ⟨events, err, he, ?_⟩
  intro pre t b post hsplit
  rw [importExistingLogs_decisions cs ps sum events err he] at hsplit
  have key := highWaterDecisions_split cs sum s hs pre false _ t b post hsplit
  simp only [Bool.false_eq_true, false_or] at key
  refine ⟨?_, ?_, ?_⟩
  · intro hb
    rcases key.1 hb with h | ⟨h, _⟩
    · exact le_of_lt h
    · exact le_of_eq h.symm
  · intro ht
    rw [key]
    constructor
    · rintro (h | ⟨_, h⟩)
      · rw [ht] at h; exact absurd h (lt_irrefl _)
      · exact h
    · intro h; exact Or.inr ⟨ht, h⟩
  · intro ht _ hnone
    cases b with
    | false => rfl
    | true =>
      rcases key.1 rfl with h | ⟨_, u, hu, hu2⟩
      · rw [ht] at h; exact absurd h (lt_irrefl _)
      · exact absurd hu2 (hnone u hu)

theorem C3_checksum_resume_witness :
    (SumPair.mk 7 (some 1)).Sum = some 1 ∧
    ∃ events err, importExistingLogs String.length sampleQueueProcessors (SumPair.mk 7 (some 1))
        = some (events, err) ∧
      ∀ (pre : List (parsedHeaderRecord × Bool)) (t : parsedHeaderRecord) (b : Bool)
        (post : List (parsedHeaderRecord × Bool)),
        chosenDecisions events = pre ++ (t, b) :: post →
        (b = true → (SumPair.mk 7 (some 1)).Time ≤ t.time) ∧
        (t.time = (SumPair.mk 7 (some 1)).Time →
          (b = true ↔ ∃ u ∈ pre, u.1.time = (SumPair.mk 7 (some 1)).Time ∧
            String.length u.1.line = 1)) ∧
        (t.time = (SumPair.mk 7 (some 1)).Time → String.length t.line = 1 →
          (∀ u ∈ pre, ¬ (u.1.time = (SumPair.mk 7 (some 1)).Time ∧ String.length u.1.line = 1)) →
          b = false) :=
  ⟨rfl, C3_checksum_resume String.length sampleQueueProcessors (SumPair.mk 7 (some 1)) 1 rfl⟩

/-! ## Re-running the import at the last published record -/

theorem Publish_cases (p q : IgnoringPublisher) (r : Record) (h : p.Publish r = some q) :
    (shouldIgnore p.lastPublishedSumPair r = some true ∧ q = p) ∨
    (shouldIgnore p.lastPublishedSumPair r = some false ∧
      q = { pub := p.pub ++ [r], lastPublishedSumPair := { Time := r.Time, Sum := some r.Sum } }) := by
  unfold IgnoringPublisher.Publish at h
  cases hs : shouldIgnore p.lastPublishedSumPair r with
  | none => rw [hs] at h; cases h
  | some b =>
    rw [hs] at h
    cases b with
    | true => exact Or.inl ⟨rfl, (Option.some.inj h).symm⟩
    | false => exact Or.inr ⟨rfl, (Option.some.inj h).symm⟩

theorem publishAll_cons (p p1 : IgnoringPublisher) (r : Record) (rs : List Record)
    (h : p.publishAll (r :: rs) = some p1) :
    ∃ q, p.Publish r = some q ∧ q.publishAll rs = some p1 := by
  simp only [IgnoringPublisher.publishAll] at h
  cases hq : p.Publish r with
  | none => rw [hq] at h; cases h
  | some q => rw [hq] at h; exact ⟨q, rfl, h⟩

theorem publishAll_trace (rs : List Record) :
    ∀ p p1 : IgnoringPublisher, p.publishAll rs = some p1 → p.publishTrace rs = p1 := by
  induction rs with
  | nil => intro p p1 h; exact Option.some.inj h
  | cons r rs ih =>
    intro p p1 h
    obtain ⟨q, hq, hrest⟩ := publishAll_cons p p1 r rs h
    simp only [IgnoringPublisher.publishTrace, hq]
    exact ih q p1 hrest

theorem publishAll_pub (rs : List Record) :
    ∀ p p1 : IgnoringPublisher, p.publishAll rs = some p1 → ∃ fwd, p1.pub = p.pub ++ fwd := by
  induction rs with
  | nil => intro p p1 h; exact ⟨[], by rw [← Option.some.inj h]; simp⟩
  | cons r rs ih =>
    intro p p1 h
    obtain ⟨q, hq, hrest⟩ := publishAll_cons p p1 r rs h
    obtain ⟨fwd, hf⟩ := ih q p1 hrest
    rcases Publish_cases p q r hq with ⟨_, rfl⟩ | ⟨_, rfl⟩
    · exact ⟨fwd, hf⟩
    · exact ⟨r :: fwd, by rw [hf]; simp⟩

theorem publishAll_nothing_forwarded (rs : List Record) :
    ∀ p p1 : IgnoringPublisher, p.publishAll rs = some p1 → p1.pub = p.pub →
      ∀ u ∈ rs, shouldIgnore p.lastPublishedSumPair u = some true := by
  induction rs with
  | nil => intro p p1 _ _ u hu; cases hu
  | cons r rs ih =>
    intro p p1 h hpub u hu
    obtain ⟨q, hq, hrest⟩ := publishAll_cons p p1 r rs h
    obtain ⟨fwd, hf⟩ := publishAll_pub rs q p1 hrest
    rcases Publish_cases p q r hq with ⟨hi, rfl⟩ | ⟨_, rfl⟩
    · rcases List.mem_cons.1 hu with rfl | hu
      · exact hi
      · exact ih q p1 hrest hpub u hu
    · exfalso
      rw [hpub] at hf
      have := congrArg List.length hf
      simp at this

theorem publishAll_last (rs : List Record) :
    ∀ (p p1 : IgnoringPublisher) (fwd : List Record) (last : Record),
      p.publishAll rs = some p1 → p1.pub = p.pub ++ fwd → fwd.getLast? = some last →
      (∀ r ∈ rs, 0 ≤ r.Time) →
      ∃ A B, rs = A ++ last :: B ∧ (∀ u ∈ A, u.Time ≤ last.Time) ∧
        (∀ u ∈ B, shouldIgnore { Time := last.Time, Sum := some last.Sum } u = some true) := by
  induction rs with
  | nil =>
    intro p p1 fwd last h hpub hlast _
    have : p1 = p := (Option.some.inj h).symm
    subst this
    have : fwd = [] := by simpa using hpub
    subst this
    cases hlast
  | cons r rs ih =>
    intro p p1 fwd last h hpub hlast hpos
    have hposr : ∀ x ∈ rs, 0 ≤ x.Time := fun x hx => hpos x (List.mem_cons_of_mem _ hx)
    obtain ⟨q, hq, hrest⟩ := publishAll_cons p p1 r rs h
    obtain ⟨fwdq, h1, _, _, h4, _⟩ := publishTrace_forwarded rs q hposr
    rw [publishAll_trace rs q p1 hrest] at h1
    rcases Publish_cases p q r hq with ⟨hi, rfl⟩ | ⟨_, rfl⟩
    · have hfe : fwdq = fwd := List.append_cancel_left (h1.symm.trans hpub)
      subst hfe
      obtain ⟨A, B, hAB, hA, hB⟩ := ih q p1 fwdq last hrest hpub hlast hposr
      refine ⟨r :: A, B, by rw [hAB]; rfl, ?_, hB⟩
      intro u hu
      rcases List.mem_cons.1 hu with rfl | hu
      · have hle := h4 last (List.mem_of_getLast?_eq_some hlast)
        rcases ((shouldIgnore_eq_some_true _ _).1 hi).2 with hlt | ⟨heq, _⟩
        · exact le_trans (le_of_lt hlt) hle
        · rw [heq]; exact hle
      · exact hA u hu
    · simp only [List.append_assoc, List.singleton_append] at h1
      have hfe : r :: fwdq = fwd := List.append_cancel_left (h1.symm.trans hpub)
      subst hfe
      cases fwdq with
      | nil =>
        simp only [List.getLast?_singleton, Option.some.injEq] at hlast
        subst hlast
        refine ⟨[], rs, rfl, fun u hu => absurd hu (List.not_mem_nil u), ?_⟩
        exact publishAll_nothing_forwarded rs _ p1 hrest (by rw [h1])
      | cons x xs =>
        have hlast2 : (x :: xs).getLast? = some last := by
          rw [List.getLast?_cons_cons] at hlast; exact hlast
        obtain ⟨A, B, hAB, hA, hB⟩ := ih _ p1 (x :: xs) last hrest
          (by rw [h1]; simp) hlast2 hposr
        refine ⟨r :: A, B, by rw [hAB]; rfl, ?_, hB⟩
        intro u hu
        rcases List.mem_cons.1 hu with rfl | hu
        · exact h4 last (List.mem_of_getLast?_eq_some hlast2)
        · exact hA u hu

theorem filter_map_eq_append_cons {α β : Type} (p : α → Bool) (f : α → β) (l : List α) :
    ∀ (A : List β) (x : β) (B : List β), (l.filter p).map f = A ++ x :: B →
      ∃ X y Y, l = X ++ y :: Y ∧ p y = true ∧ f y = x ∧
        (X.filter p).map f = A ∧ (Y.filter p).map f = B := by
  induction l with
  | nil => intro A x B h; simp at h
  | cons a l ih =>
    intro A x B h
    by_cases hp : p a = true
    · rw [List.filter_cons_of_pos hp, List.map_cons] at h
      cases A with
      | nil =>
        simp only [List.nil_append, List.cons.injEq] at h
        exact ⟨[], a, l, rfl, hp, h.1, rfl, h.2⟩
      | cons a0 A =>
        simp only [List.cons_append, List.cons.injEq] at h
        obtain ⟨X, y, Y, hl, hy, hfy, hX, hY⟩ := ih A x B h.2
        refine ⟨a :: X, y, Y, by rw [hl]; rfl, hy, hfy, ?_, hY⟩
        rw [List.filter_cons_of_pos hp, List.map_cons, hX, h.1]
    · rw [List.filter_cons_of_neg hp] at h
      obtain ⟨X, y, Y, hl, hy, hfy, hX, hY⟩ := ih A x B h
      refine ⟨a :: X, y, Y, by rw [hl]; rfl, hy, hfy, ?_, hY⟩
      rw [List.filter_cons_of_neg hp, hX]

theorem highWaterDecisions_mem (cs : String → Sum) (sum : SumPair) (ts : List parsedHeaderRecord) :
    ∀ (m : Bool) (u : parsedHeaderRecord) (b : Bool),
      (u, b) ∈ highWaterDecisions cs sum m ts →
      (b = true → sum.Time ≤ u.time) ∧ (b = false → u.time ≤ sum.Time) := by
  induction ts with
  | nil => intro m u b h; simp [highWaterDecisions] at h
  | cons t ts ih =>
    intro m u b h
    simp only [highWaterDecisions, List.mem_cons, Prod.mk.injEq] at h
    rcases h with ⟨rfl, rfl⟩ | h
    · have key := highWaterTest_fst cs sum m u
      constructor
      · intro hb
        rcases key.1 hb with h | ⟨h, _⟩
        · exact le_of_lt h
        · exact le_of_eq h.symm
      · intro hb
        by_contra hgt
        have : (highWaterTest cs sum m u).1 = true := key.2 (Or.inl (not_le.1 hgt))
        rw [hb] at this
        cases this
    · exact ih _ u b h

theorem highWaterDecisions_append (cs : String → Sum) (sum : SumPair) (xs : List parsedHeaderRecord) :
    ∀ (m : Bool) (ys : List parsedHeaderRecord),
      ∃ m2, highWaterDecisions cs sum m (xs ++ ys)
        = highWaterDecisions cs sum m xs ++ highWaterDecisions cs sum m2 ys ∧
        (m2 = true → m = true ∨ ∃ u ∈ xs, u.time = sum.Time ∧ sum.Sum = some (cs u.line)) := by
  induction xs with
  | nil => intro m ys; exact ⟨m, rfl, fun h => Or.inl h⟩
  | cons x xs ih =>
    intro m ys
    obtain ⟨m2, h1, h2⟩ := ih (highWaterTest cs sum m x).2 ys
    refine ⟨m2, ?_, ?_⟩
    · show (x, _) :: highWaterDecisions cs sum _ (xs ++ ys) = _
      rw [h1]
      rfl
    · intro hm2
      rcases h2 hm2 with h | ⟨u, hu, hu2⟩
      · rcases (highWaterTest_snd cs sum m x).1 h with h | h
        · exact Or.inl h
        · exact Or.inr ⟨x, List.mem_cons_self _ _, h⟩
      · exact Or.inr ⟨u, List.mem_cons_of_mem _ hu, hu2⟩

theorem highWaterDecisions_all_before (cs : String → Sum) (sum : SumPair)
    (ts : List parsedHeaderRecord) (h : ∀ u ∈ ts, u.time < sum.Time) :
    ∀ m : Bool, (highWaterDecisions cs sum m ts).filter (fun d => d.2) = [] := by
  induction ts with
  | nil => intro m; rfl
  | cons t ts ih =>
    intro m
    have ht := h t (List.mem_cons_self _ _)
    have hd : (highWaterTest cs sum m t).1 = false := by
      cases hb : (highWaterTest cs sum m t).1 with
      | false => rfl
      | true =>
        rcases (highWaterTest_fst cs sum m t).1 hb with h1 | ⟨h1, _⟩
        · exact absurd (lt_trans h1 ht) (lt_irrefl _)
        · rw [h1] at ht; exact absurd ht (lt_irrefl _)
    simp only [highWaterDecisions]
    rw [List.filter_cons_of_neg (by simp [hd])]
    exact ih (fun u hu => h u (List.mem_cons_of_mem _ hu)) _

theorem highWaterDecisions_none_yet (cs : String → Sum) (sum : SumPair)
    (ts : List parsedHeaderRecord)
    (h : ∀ u ∈ ts, u.time ≤ sum.Time ∧ ¬ (u.time = sum.Time ∧ sum.Sum = some (cs u.line))) :
    (highWaterDecisions cs sum false ts).filter (fun d => d.2) = [] := by
  induction ts with
  | nil => rfl
  | cons t ts ih =>
    have ht := h t (List.mem_cons_self _ _)
    have hd : (highWaterTest cs sum false t).1 = false := by
      cases hb : (highWaterTest cs sum false t).1 with
      | false => rfl
      | true =>
        rcases (highWaterTest_fst cs sum false t).1 hb with h1 | ⟨_, h1, _⟩
        · exact absurd (lt_of_lt_of_le h1 ht.1) (lt_irrefl _)
        · cases h1
    have hf : (highWaterTest cs sum false t).2 = false := by
      cases hb : (highWaterTest cs sum false t).2 with
      | false => rfl
      | true =>
        rcases (highWaterTest_snd cs sum false t).1 hb with h1 | h1
        · cases h1
        · exact absurd h1 ht.2
    simp only [highWaterDecisions]
    rw [List.filter_cons_of_neg (by simp [hd]), hf]
    exact ih (fun u hu => h u (List.mem_cons_of_mem _ hu))

theorem highWaterDecisions_skipped_after_published (cs : String → Sum) (sum : SumPair)
    (m : Bool) (ts : List parsedHeaderRecord) (pre mid post : List (parsedHeaderRecord × Bool))
    (t u : parsedHeaderRecord)
    (h : highWaterDecisions cs sum m ts = pre ++ (t, true) :: (mid ++ (u, false) :: post)) :
    u.time < t.time := by
  have ht : (t, true) ∈ highWaterDecisions cs sum m ts := by rw [h]; simp
  have hu : (u, false) ∈ highWaterDecisions cs sum m ts := by rw [h]; simp
  have h1 := (highWaterDecisions_mem cs sum ts m t true ht).1 rfl
  have h2 := (highWaterDecisions_mem cs sum ts m u false hu).2 rfl
  rcases lt_or_eq_of_le (le_trans h2 h1) with hlt | heq
  · exact hlt
  · exfalso
    have hut : u.time = sum.Time := le_antisymm h2 (by rw [heq]; exact h1)
    have htt : t.time = sum.Time := by rw [← heq]; exact hut
    cases hs : sum.Sum with
    | none =>
      rw [highWaterDecisions_nil_sum cs sum hs] at ht
      simp only [List.mem_map, Prod.mk.injEq] at ht
      obtain ⟨a, _, rfl, ha⟩ := ht
      rw [htt] at ha
      simp at ha
    | some s =>
      have k1 := (highWaterDecisions_split cs sum s hs pre m ts t true _ h).1 rfl
      have h' : highWaterDecisions cs sum m ts = (pre ++ (t, true) :: mid) ++ (u, false) :: post := by
        rw [h]; simp
      have k2 := (highWaterDecisions_split cs sum s hs _ m ts u false _ h').2
      have : false = true := by
        apply k2
        right
        refine ⟨hut, ?_⟩
        rcases k1 with k1 | ⟨_, k1⟩
        · rw [htt] at k1; exact absurd k1 (lt_irrefl _)
        · rcases k1 with k1 | ⟨v, hv, hv2⟩
          · exact Or.inl k1
          · exact Or.inr ⟨v, List.mem_append_left _ hv, hv2⟩
      cases this

theorem rerun_publishes_nothing (cs : String → Sum) (sum0 : SumPair)
    (m : List parsedHeaderRecord) (p1 : IgnoringPublisher) (last : Record)
    (hrun : (IgnoringPublisher.mk [] sum0).publishAll
        (((highWaterDecisions cs sum0 false m).filter (fun d => d.2)).map
          (fun d => toRecord cs d.1)) = some p1)
    (hlast : p1.pub.getLast? = some last)
    (htimes : ∀ t ∈ m, 0 ≤ t.time)
    (huniq : (m.filter (fun t => decide (t.time = last.Time ∧ cs t.line = last.Sum))).length ≤ 1) :
    (highWaterDecisions cs { Time := last.Time, Sum := some last.Sum } false m).filter
      (fun d => d.2) = [] := by
  have hfst := highWaterDecisions_map_fst cs sum0 m false
  have hpos : ∀ r ∈ ((highWaterDecisions cs sum0 false m).filter (fun d => d.2)).map
      (fun d => toRecord cs d.1), 0 ≤ r.Time := by
    intro r hr
    simp only [List.mem_map, List.mem_filter] at hr
    obtain ⟨d, ⟨hd, _⟩, rfl⟩ := hr
    apply htimes
    rw [← hfst]
    exact List.mem_map_of_mem Prod.fst hd
  obtain ⟨A, B, hAB, hA, hB⟩ := publishAll_last _ _ p1 p1.pub last hrun (by simp) hlast hpos
  obtain ⟨X, y, Y, hD, hy, hfy, hX, hY⟩ := filter_map_eq_append_cons _ _ _ A last B hAB
  obtain ⟨t, b⟩ := y
  simp only at hy hfy
  subst hy
  have htT : t.time = last.Time := by rw [← hfy]; rfl
  have htS : cs t.line = last.Sum := by rw [← hfy]; rfl
  have hm : m = X.map Prod.fst ++ t :: Y.map Prod.fst := by
    rw [← hfst, hD]; simp
  -- no other record of the merge has the time and checksum of `last`
  rw [hm, List.filter_append, List.filter_cons_of_pos (by simp [htT, htS]),
    List.length_append, List.length_cons] at huniq
  have hXn : (X.map Prod.fst).filter
      (fun t => decide (t.time = last.Time ∧ cs t.line = last.Sum)) = [] :=
    List.length_eq_zero.1 (by omega)
  have hYn : (Y.map Prod.fst).filter
      (fun t => decide (t.time = last.Time ∧ cs t.line = last.Sum)) = [] :=
    List.length_eq_zero.1 (by omega)
  have hXno : ∀ u ∈ X.map Prod.fst, ¬ (u.time = last.Time ∧ cs u.line = last.Sum) := by
    intro u hu
    have := (List.filter_eq_nil_iff.1 hXn) u hu
    simpa using this
  have hYno : ∀ u ∈ Y.map Prod.fst, ¬ (u.time = last.Time ∧ cs u.line = last.Sum) := by
    intro u hu
    have := (List.filter_eq_nil_iff.1 hYn) u hu
    simpa using this
  have ht0 : sum0.Time ≤ t.time :=
    (highWaterDecisions_mem cs sum0 m false t true (by rw [hD]; simp)).1 rfl
  -- records before `t` in the merge are not later than it
  have hXle : ∀ u ∈ X.map Prod.fst, u.time ≤ last.Time := by
    intro u hu
    obtain ⟨d, hd, rfl⟩ := List.mem_map.1 hu
    obtain ⟨v, c⟩ := d
    cases c with
    | true =>
      apply hA (toRecord cs v)
      rw [← hX]
      simp only [List.mem_map, List.mem_filter]
      exact ⟨(v, true), ⟨hd, rfl⟩, rfl⟩
    | false =>
      have := (highWaterDecisions_mem cs sum0 m false v false
        (by rw [hD]; exact List.mem_append_left _ hd)).2 rfl
      rw [← htT]
      exact le_trans this ht0
  -- records after `t` in the merge are strictly older
  have hYlt : ∀ u ∈ Y.map Prod.fst, u.time < last.Time := by
    intro u hu
    obtain ⟨d, hd, rfl⟩ := List.mem_map.1 hu
    obtain ⟨v, c⟩ := d
    cases c with
    | true =>
      have hv : toRecord cs v ∈ B := by
        rw [← hY]
        simp only [List.mem_map, List.mem_filter]
        exact ⟨(v, true), ⟨hd, rfl⟩, rfl⟩
      rcases ((shouldIgnore_eq_some_true _ _).1 (hB _ hv)).2 with h | ⟨h1, h2⟩
      · exact h
      · exfalso
        apply hYno v hu
        exact ⟨h1, (Option.some.inj h2).symm⟩
    | false =>
      obtain ⟨Y1, Y2, rfl⟩ := List.append_of_mem hd
      rw [← htT]
      exact highWaterDecisions_skipped_after_published cs sum0 false m X Y1 Y2 t v hD
  -- the second run: nothing before `t` matches, `t` itself is skipped, the rest is older
  rw [hm]
  obtain ⟨m2, happ, hm2⟩ := highWaterDecisions_append cs
    { Time := last.Time, Sum := some last.Sum } (X.map Prod.fst) false (t :: Y.map Prod.fst)
  rw [happ, List.filter_append]
  have hfirst := highWaterDecisions_none_yet cs { Time := last.Time, Sum := some last.Sum }
    (X.map Prod.fst) (by
      intro u hu
      refine ⟨hXle u hu, ?_⟩
      rintro ⟨h1, h2⟩
      exact hXno u hu ⟨h1, (Option.some.inj h2).symm⟩)
  rw [hfirst, List.nil_append]
  have hm2f : m2 = false := by
    cases m2 with
    | false => rfl
    | true =>
      rcases hm2 rfl with h | ⟨u, hu, h1, h2⟩
      · cases h
      · exact absurd ⟨h1, (Option.some.inj h2).symm⟩ (hXno u hu)
  subst hm2f
  simp only [highWaterDecisions]
  have hd : (highWaterTest cs { Time := last.Time, Sum := some last.Sum } false t).1 = false := by
    cases hb : (highWaterTest cs { Time := last.Time, Sum := some last.Sum } false t).1 with
    | false => rfl
    | true =>
      rcases (highWaterTest_fst cs _ false t).1 hb with h1 | ⟨_, h1, _⟩
      · simp only at h1; rw [htT] at h1; exact absurd h1 (lt_irrefl _)
      · cases h1
  rw [List.filter_cons_of_neg (by simp [hd])]
  exact highWaterDecisions_all_before cs _ _ hYlt _

/-- C2 (amended): take a historical import (from any high-water) that emitted at
least one record, the last one being `last`.  If the merged record times are not
before Go's zero instant and no two records of the merge have the time and
checksum of `last`, then re-running the import on the same queues with the
high-water `(last.Time, last.Sum)` returns (with the error of
`updateQueueProcessors`, if a converter cannot be created, or without), passes
no record to the publisher and so emits zero records downstream. -/
theorem C2_rerun_emits_nothing (cs : String → Sum) (ps : List queueProcessor) (sum0 : SumPair)
    (p1 : IgnoringPublisher) (last : Record) (downstream : List Record)
    (hrun : runImport cs ps sum0 [] = some p1)
    (hlast : p1.pub.getLast? = some last)
    (htimes : ∀ t ∈ mergedRecords ps, 0 ≤ t.time)
    (huniq : ((mergedRecords ps).filter
        (fun t => decide (t.time = last.Time ∧ cs t.line = last.Sum))).length ≤ 1) :
    (∃ events err, importExistingLogs cs ps { Time := last.Time, Sum := some last.Sum }
        = some (events, err) ∧ publishedRecords cs events = []) ∧
    runImport cs ps { Time := last.Time, Sum := some last.Sum } downstream
      = some { pub := downstream,
               lastPublishedSumPair := { Time := last.Time, Sum := some last.Sum } } := by
  obtain ⟨ev1, err1, he1⟩ := importExistingLogs_some cs ps sum0
  obtain ⟨ev2, err2, he2⟩ :=
    importExistingLogs_some cs ps { Time := last.Time, Sum := some last.Sum }
  unfold runImport at hrun
  rw [he1] at hrun
  simp only at hrun
  rw [publishedRecords_eq, importExistingLogs_decisions cs ps sum0 ev1 err1 he1] at hrun
  have key := rerun_publishes_nothing cs sum0 (mergedRecords ps) p1 last hrun hlast htimes huniq
  have hpub : publishedRecords cs ev2 = [] := by
    rw [publishedRecords_eq, importExistingLogs_decisions cs ps _ ev2 err2 he2, key]
    rfl
  refine ⟨⟨ev2, err2, he2, hpub⟩, ?_⟩
  unfold runImport
  rw [he2]
  simp only
  rw [hpub]
  rfl

theorem C2_rerun_emits_nothing_witness :
    (runImport String.length sampleQueueProcessors (SumPair.mk 0 none) []
        = some (IgnoringPublisher.mk
            [Record.mk 5 "a" 1, Record.mk 7 "b" 1, Record.mk 8 "x" 1, Record.mk 9 "d" 1]
            (SumPair.mk 9 (some 1))) ∧
      [Record.mk 5 "a" 1, Record.mk 7 "b" 1, Record.mk 8 "x" 1, Record.mk 9 "d" 1].getLast?
        = some (Record.mk 9 "d" 1) ∧
      (∀ t ∈ mergedRecords sampleQueueProcessors, 0 ≤ t.time) ∧
      ((mergedRecords sampleQueueProcessors).filter
        (fun t => decide (t.time = 9 ∧ String.length t.line = 1))).length ≤ 1) ∧
    ((∃ events err, importExistingLogs String.length sampleQueueProcessors (SumPair.mk 9 (some 1))
          = some (events, err) ∧ publishedRecords String.length events = []) ∧
      runImport String.length sampleQueueProcessors (SumPair.mk 9 (some 1)) []
        = some (IgnoringPublisher.mk [] (SumPair.mk 9 (some 1)))) :=
  ⟨⟨by decide, by decide, by decide, by decide⟩,
   C2_rerun_emits_nothing String.length sampleQueueProcessors (SumPair.mk 0 none)
     (IgnoringPublisher.mk
        [Record.mk 5 "a" 1, Record.mk 7 "b" 1, Record.mk 8 "x" 1, Record.mk 9 "d" 1]
        (SumPair.mk 9 (some 1)))
     (Record.mk 9 "d" 1) [] (by decide) (by decide) (by decide) (by decide)⟩

/-- C2, as stated, fails when a line is repeated within the second of the
high-water: the first run from an empty high-water emits warning, connect,
warning (the two warnings are the same line, hence the same checksum), and the
re-run at the time and checksum of the last emitted record resumes after the
first warning and emits connect and warning again.  It also fails, with no
line repeated, when a record at Go's zero instant is followed in its file by
an older one: the publisher, whose high-water time is then zero, forwards the
older record, which becomes the last emitted one, and the re-run at its time
and checksum emits the record of the zero instant again. -/
theorem C2_counterexample :
    runImport String.length duplicateLineProcessors (SumPair.mk 0 none) []
      = some (IgnoringPublisher.mk
          [Record.mk 7 "warning: x" 10, Record.mk 7 "connect" 7, Record.mk 7 "warning: x" 10]
          (SumPair.mk 7 (some 10))) ∧
    runImport String.length duplicateLineProcessors (SumPair.mk 7 (some 10)) []
      = some (IgnoringPublisher.mk
          [Record.mk 7 "connect" 7, Record.mk 7 "warning: x" 10]
          (SumPair.mk 7 (some 10))) ∧
    runImport String.length zeroInstantProcessors (SumPair.mk (-5) none) []
      = some (IgnoringPublisher.mk
          [Record.mk 0 "connect" 7, Record.mk (-1) "disconnect" 10]
          (SumPair.mk (-1) (some 10))) ∧
    ((mergedRecords zeroInstantProcessors).filter
        (fun t => decide (t.time = -1 ∧ String.length t.line = 10))).length ≤ 1 ∧
    runImport String.length zeroInstantProcessors (SumPair.mk (-1) (some 10)) []
      = some (IgnoringPublisher.mk [Record.mk 0 "connect" 7] (SumPair.mk 0 (some 7))) := by
  refine ⟨by decide, by decide, by decide, by decide, by decide⟩

/-! ## `sort.Slice` -/

theorem sinkInto_perm {α : Type} (less : α → α → Bool) (x : α) (rp : List α) :
    (sinkInto less x rp).Perm (x :: rp) := by
  induction rp with
  | nil => exact List.Perm.refl _
  | cons y ys ih =>
    simp only [sinkInto]
    split
    · exact (List.Perm.cons y ih).trans (List.Perm.swap x y ys)
    · exact List.Perm.refl _

theorem sinkInto_sorted {α : Type} (less : α → α → Bool) (ord : α → α → Prop) (P : α → Prop)
    (htrans : ∀ a b c, ord a b → ord b c → ord a c)
    (h1 : ∀ a b, P a → P b → less a b = true → ord a b)
    (h2 : ∀ a b, P a → P b → less a b = false → ord b a)
    (x : α) (hx : P x) (rp : List α) (hP : ∀ z ∈ rp, P z)
    (hs : rp.Pairwise (fun a b => ord b a)) :
    (sinkInto less x rp).Pairwise (fun a b => ord b a) := by
  induction rp with
  | nil => simp [sinkInto]
  | cons y ys ih =>
    have hy : P y := hP y (List.mem_cons_self _ _)
    have hys : ∀ z ∈ ys, P z := fun z hz => hP z (List.mem_cons_of_mem _ hz)
    rw [List.pairwise_cons] at hs
    simp only [sinkInto]
    cases hl : less x y with
    | true =>
      simp only [if_true]
      rw [List.pairwise_cons]
      refine ⟨?_, ih hys hs.2⟩
      intro z hz
      rcases List.mem_cons.1 ((sinkInto_perm less x ys).subset hz) with rfl | hz
      · exact h1 _ _ hx hy hl
      · exact hs.1 z hz
    | false =>
      simp only [Bool.false_eq_true, if_false]
      rw [List.pairwise_cons]
      refine ⟨?_, List.pairwise_cons.2 hs⟩
      intro z hz
      rcases List.mem_cons.1 hz with rfl | hz
      · exact h2 _ _ hx hy hl
      · exact htrans _ _ _ (hs.1 z hz) (h2 _ _ hx hy hl)

theorem foldl_sinkInto {α : Type} (less : α → α → Bool) (ord : α → α → Prop) (P : α → Prop)
    (htrans : ∀ a b c, ord a b → ord b c → ord a c)
    (h1 : ∀ a b, P a → P b → less a b = true → ord a b)
    (h2 : ∀ a b, P a → P b → less a b = false → ord b a)
    (l : List α) :
    ∀ acc : List α, (∀ z ∈ l, P z) → (∀ z ∈ acc, P z) → acc.Pairwise (fun a b => ord b a) →
      (l.foldl (fun sortedReversed x => sinkInto less x sortedReversed) acc).Perm (l ++ acc) ∧
      (l.foldl (fun sortedReversed x => sinkInto less x sortedReversed) acc).Pairwise
        (fun a b => ord b a) := by
  induction l with
  | nil => intro acc _ _ hs; exact ⟨List.Perm.refl _, hs⟩
  | cons x xs ih =>
    intro acc hl hacc hs
    have hx : P x := hl x (List.mem_cons_self _ _)
    have hxs : ∀ z ∈ xs, P z := fun z hz => hl z (List.mem_cons_of_mem _ hz)
    have hperm := sinkInto_perm less x acc
    have hacc2 : ∀ z ∈ sinkInto less x acc, P z := by
      intro z hz
      rcases List.mem_cons.1 (hperm.subset hz) with rfl | hz
      · exact hx
      · exact hacc z hz
    obtain ⟨p, s⟩ := ih (sinkInto less x acc) hxs hacc2
      (sinkInto_sorted less ord P htrans h1 h2 x hx acc hacc hs)
    refine ⟨?_, s⟩
    simp only [List.foldl_cons]
    refine p.trans ?_
    refine (List.Perm.append_left xs hperm).trans ?_
    simp only [List.cons_append]
    exact List.perm_middle

theorem sortSlice_perm {α : Type} (less : α → α → Bool) (l : List α) :
    (sortSlice less l).Perm l := by
  have := (foldl_sinkInto less (fun _ _ => True) (fun _ => True) (fun _ _ _ _ _ => trivial)
    (fun _ _ _ _ _ => trivial) (fun _ _ _ _ _ => trivial) l [] (fun _ _ => trivial)
    (fun _ _ => trivial) List.Pairwise.nil).1
  unfold sortSlice
  refine (List.reverse_perm _).trans ?_
  simpa using this

theorem sortSlice_sorted {α : Type} (less : α → α → Bool) (ord : α → α → Prop) (P : α → Prop)
    (htrans : ∀ a b c, ord a b → ord b c → ord a c)
    (h1 : ∀ a b, P a → P b → less a b = true → ord a b)
    (h2 : ∀ a b, P a → P b → less a b = false → ord b a)
    (l : List α) (hl : ∀ z ∈ l, P z) :
    (sortSlice less l).Pairwise ord := by
  have := (foldl_sinkInto less ord P htrans h1 h2 l [] hl (fun z hz => absurd hz (List.not_mem_nil z))
    List.Pairwise.nil).2
  unfold sortSlice
  exact List.pairwise_reverse.2 this

/-! ## The planner's order -/

theorem recKey_eq_iff (r : filenameRecognizer) (a b : rec)
    (ha : inInt64 a.index) (hb : inInt64 b.index) :
    recKey r a = recKey r b ↔ a.index = b.index := by
  unfold inInt64 at ha hb
  unfold recKey wrapInt64
  norm_num at ha hb ⊢
  cases r.order with
  | filenameReverseOrder =>
    simp only [filenameSortOrder.toInt]
    constructor
    · intro h; omega
    · intro h; rw [h]
  | filenameNormalOrder =>
    simp only [filenameSortOrder.toInt]
    constructor
    · intro h; omega
    · intro h; rw [h]

theorem recLess_true (r : filenameRecognizer) (a b : rec)
    (ha : inInt64 a.index) (hb : inInt64 b.index) (h : recLess r a b = true) :
    recOrd r a b := by
  unfold recLess at h
  unfold recOrd recIsBase
  by_cases h1 : pathBase b.entry.filename = r.pattern
  · exact Or.inl h1
  · rw [if_neg h1] at h
    by_cases h2 : pathBase a.entry.filename = r.pattern
    · rw [if_pos h2] at h; cases h
    · rw [if_neg h2] at h
      right
      refine ⟨h2, ?_⟩
      by_cases h3 : a.index = b.index
      · rw [if_pos h3] at h
        exact Or.inr ⟨(recKey_eq_iff r a b ha hb).2 h3, Or.inl h⟩
      · rw [if_neg h3] at h
        exact Or.inl (of_decide_eq_true h)

theorem recLess_false (r : filenameRecognizer) (a b : rec)
    (ha : inInt64 a.index) (hb : inInt64 b.index) (h : recLess r a b = false) :
    recOrd r b a := by
  unfold recLess at h
  unfold recOrd recIsBase
  by_cases h1 : pathBase b.entry.filename = r.pattern
  · rw [if_pos h1] at h; cases h
  · rw [if_neg h1] at h
    by_cases h2 : pathBase a.entry.filename = r.pattern
    · exact Or.inl h2
    · rw [if_neg h2] at h
      right
      refine ⟨h1, ?_⟩
      by_cases h3 : a.index = b.index
      · rw [if_pos h3] at h
        exact Or.inr ⟨(recKey_eq_iff r b a hb ha).2 h3.symm, Or.inr h⟩
      · rw [if_neg h3] at h
        have hnlt : ¬ recKey r a < recKey r b := of_decide_eq_false h
        have hne : recKey r a ≠ recKey r b := fun he => h3 ((recKey_eq_iff r a b ha hb).1 he)
        left
        exact lt_of_le_of_ne (not_lt.1 hnlt) (Ne.symm hne)

theorem recOrd_trans (r : filenameRecognizer) (a b c : rec)
    (h1 : recOrd r a b) (h2 : recOrd r b c) : recOrd r a c := by
  unfold recOrd at *
  rcases h2 with h2 | ⟨hb, h2⟩
  · exact Or.inl h2
  · right
    rcases h1 with h1 | ⟨ha, h1⟩
    · exact absurd h1 hb
    · refine ⟨ha, ?_⟩
      rcases h1 with h1 | ⟨h1, c1⟩
      · rcases h2 with h2 | ⟨h2, _⟩
        · exact Or.inl (lt_trans h1 h2)
        · exact Or.inl (by rw [← h2]; exact h1)
      · rcases h2 with h2 | ⟨h2, c2⟩
        · exact Or.inl (by rw [h1]; exact h2)
        · refine Or.inr ⟨h1.trans h2, ?_⟩
          rcases c2 with c2 | c2
          · rcases c1 with c1 | c1
            · exact Or.inl c1
            · rw [c1] at c2; cases c2
          · exact Or.inr c2

theorem recStrict_trans (r : filenameRecognizer) (a b c : rec)
    (h1 : recStrict r a b) (h2 : recStrict r b c) : recStrict r a c := by
  unfold recStrict at *
  rcases h2 with h2 | ⟨hb, h2⟩
  · exact Or.inl h2
  · rcases h1 with h1 | ⟨ha, h1⟩
    · exact absurd h1 hb
    · exact Or.inr ⟨ha, lt_trans h1 h2⟩

theorem dedupLoop_eq_map (rs : List rec) :
    ∀ last : rec, dedupLoop last rs = (dedupRecs last rs).map (fun x => x.entry) := by
  induction rs with
  | nil => intro last; rfl
  | cons x xs ih =>
    intro last
    simp only [dedupLoop, dedupRecs]
    split
    · rw [ih]; rfl
    · exact ih last

theorem entriesOfSorted_eq_map (l : List rec) :
    entriesOfSorted l = (keptOfSorted l).map (fun x => x.entry) := by
  cases l with
  | nil => rfl
  | cons x xs => simp [entriesOfSorted, keptOfSorted, dedupLoop_eq_map]

/-! ## The deduplication loop on sorted records -/

theorem dedupRecs_sublist (rs : List rec) :
    ∀ last : rec, (dedupRecs last rs).Sublist rs := by
  induction rs with
  | nil => intro last; exact List.Sublist.refl _
  | cons x xs ih =>
    intro last
    simp only [dedupRecs]
    split
    · exact (ih x).cons₂ x
    · exact (ih last).cons x

theorem recOrd_strict_of_index_ne (r : filenameRecognizer) (a b : rec)
    (ha : inInt64 a.index) (hb : inInt64 b.index) (h : recOrd r a b)
    (hne : b.index ≠ a.index) : recStrict r a b := by
  unfold recOrd at h
  unfold recStrict
  rcases h with h | ⟨h1, h2⟩
  · exact Or.inl h
  · right
    refine ⟨h1, ?_⟩
    rcases h2 with h2 | ⟨h2, _⟩
    · exact h2
    · exact absurd ((recKey_eq_iff r a b ha hb).1 h2).symm hne

theorem dedupRecs_strict (r : filenameRecognizer) (rs : List rec) :
    ∀ last : rec, (last :: rs).Pairwise (recOrd r) → (∀ z ∈ last :: rs, inInt64 z.index) →
      (last :: dedupRecs last rs).Pairwise (recStrict r) := by
  induction rs with
  | nil => intro last _ _; simp [dedupRecs]
  | cons x xs ih =>
    intro last hs hr
    have hlast : inInt64 last.index := hr last (List.mem_cons_self _ _)
    have hx : inInt64 x.index := hr x (List.mem_cons_of_mem _ (List.mem_cons_self _ _))
    rw [List.pairwise_cons] at hs
    simp only [dedupRecs]
    by_cases hne : x.index ≠ last.index
    · rw [if_pos hne]
      have ihx := ih x hs.2 (fun z hz => hr z (List.mem_cons_of_mem _ hz))
      have hsx : recStrict r last x :=
        recOrd_strict_of_index_ne r last x hlast hx (hs.1 x (List.mem_cons_self _ _)) hne
      rw [List.pairwise_cons]
      refine ⟨?_, ihx⟩
      intro k hk
      rcases List.mem_cons.1 hk with rfl | hk
      · exact hsx
      · exact recStrict_trans r _ _ _ hsx ((List.pairwise_cons.1 ihx).1 k hk)
    · rw [if_neg hne]
      apply ih last
      · rw [List.pairwise_cons]
        exact ⟨fun z hz => hs.1 z (List.mem_cons_of_mem _ hz), (List.pairwise_cons.1 hs.2).2⟩
      · intro z hz
        rcases List.mem_cons.1 hz with rfl | hz
        · exact hlast
        · exact hr z (List.mem_cons_of_mem _ (List.mem_cons_of_mem _ hz))

theorem dedupRecs_index_chain (rs : List rec) :
    ∀ last : rec, List.Chain (fun a b => a.index ≠ b.index) last (dedupRecs last rs) := by
  induction rs with
  | nil => intro last; exact List.Chain.nil
  | cons x xs ih =>
    intro last
    simp only [dedupRecs]
    by_cases hne : x.index ≠ last.index
    · rw [if_pos hne]
      exact List.Chain.cons (Ne.symm hne) (ih x)
    · rw [if_neg hne]
      exact ih last

theorem dedupRecs_covers (r : filenameRecognizer) (rs : List rec) :
    ∀ last : rec, (last :: rs).Pairwise (recOrd r) → (∀ z ∈ last :: rs, inInt64 z.index) →
      ∀ x ∈ rs, ¬ recIsBase r x →
        ∃ k ∈ last :: dedupRecs last rs,
          ¬ recIsBase r k ∧ k.index = x.index ∧ (x.compressed = true → k.compressed = true) := by
  induction rs with
  | nil => intro last _ _ x hx; cases hx
  | cons y ys ih =>
    intro last hs hr x hx hxb
    have hlast : inInt64 last.index := hr last (List.mem_cons_self _ _)
    have hy : inInt64 y.index := hr y (List.mem_cons_of_mem _ (List.mem_cons_self _ _))
    rw [List.pairwise_cons] at hs
    simp only [dedupRecs]
    by_cases hne : y.index ≠ last.index
    · rw [if_pos hne]
      rcases List.mem_cons.1 hx with rfl | hx
      · exact ⟨x, by simp, hxb, rfl, fun h => h⟩
      · obtain ⟨k, hk, hk2⟩ := ih y hs.2 (fun z hz => hr z (List.mem_cons_of_mem _ hz)) x hx hxb
        exact ⟨k, List.mem_cons_of_mem _ hk, hk2⟩
    · rw [if_neg hne]
      have heq : y.index = last.index := not_not.1 hne
      rcases List.mem_cons.1 hx with rfl | hx
      · have hord := hs.1 x (List.mem_cons_self _ _)
        unfold recOrd at hord
        rcases hord with h | ⟨h1, h2⟩
        · exact absurd h hxb
        · refine ⟨last, List.mem_cons_self _ _, h1, heq.symm, ?_⟩
          intro hc
          have hkey : recKey r last = recKey r x := (recKey_eq_iff r last x hlast hy).2 heq.symm
          rcases h2 with h2 | ⟨_, h2⟩
          · rw [hkey] at h2; exact absurd h2 (lt_irrefl _)
          · rcases h2 with h2 | h2
            · exact h2
            · rw [hc] at h2; cases h2
      · apply ih last ?_ ?_ x hx hxb
        · rw [List.pairwise_cons]
          exact ⟨fun z hz => hs.1 z (List.mem_cons_of_mem _ hz), (List.pairwise_cons.1 hs.2).2⟩
        · intro z hz
          rcases List.mem_cons.1 hz with rfl | hz
          · exact hlast
          · exact hr z (List.mem_cons_of_mem _ (List.mem_cons_of_mem _ hz))

theorem strict_split (r : filenameRecognizer) (K : List rec) (h : K.Pairwise (recStrict r)) :
    ∃ R B, K = R ++ B ∧ (∀ a ∈ R, ¬ recIsBase r a) ∧ (∀ b ∈ B, recIsBase r b) ∧
      R.Pairwise (fun a b => recKey r a < recKey r b) := by
  induction K with
  | nil => exact ⟨[], [], rfl, by simp, by simp, List.Pairwise.nil⟩
  | cons a K ih =>
    rw [List.pairwise_cons] at h
    obtain ⟨R, B, hK, hR, hB, hp⟩ := ih h.2
    by_cases ha : recIsBase r a
    · refine ⟨[], a :: K, rfl, by simp, ?_, List.Pairwise.nil⟩
      intro b hb
      rcases List.mem_cons.1 hb with rfl | hb
      · exact ha
      · rcases h.1 b hb with h1 | ⟨h1, _⟩
        · exact h1
        · exact absurd ha h1
    · refine ⟨a :: R, B, by rw [hK]; rfl, ?_, hB, ?_⟩
      · intro x hx
        rcases List.mem_cons.1 hx with rfl | hx
        · exact ha
        · exact hR x hx
      · rw [List.pairwise_cons]
        refine ⟨?_, hp⟩
        intro x hx
        rcases h.1 x (by rw [hK]; exact List.mem_append_left _ hx) with h1 | ⟨_, h1⟩
        · exact absurd h1 (hR x hx)
        · exact h1

/-! ## The records collected by the planner -/

theorem atoi_range (s : List Char) (n : Int) (h : atoi s = some n) : inInt64 n := by
  unfold inInt64
  unfold atoi at h
  split at h
  · cases h
  · split at h
    · cases h
    · split at h
      · cases h
      · split at h
        · cases h; constructor <;> omega
        · cases h
  · split at h
    · cases h
    · split at h
      · cases h
      · split at h
        · cases h; constructor <;> omega
        · cases h
  · split at h
    · cases h
    · split at h
      · cases h; constructor <;> omega
      · cases h

theorem collectRecs_mem (r : filenameRecognizer) (t : Time) (list : fileEntryList) :
    ∀ recs : List rec, collectRecs r t list = some recs →
      ∀ x ∈ recs, x.entry ∈ list ∧ r.reg (pathBase x.entry.filename) ≠ none ∧
        (pathBase x.entry.filename = r.pattern ∨ ¬ x.entry.modificationTime < t) ∧
        x.index = entryIndex r x.entry ∧ x.compressed = entryCompressed r x.entry ∧
        inInt64 x.index := by
  induction list with
  | nil =>
    intro recs h x hx
    simp only [collectRecs, Option.some.injEq] at h
    subst h
    cases hx
  | cons e rest ih =>
    intro recs h x hx
    have lift : ∀ recs2, collectRecs r t rest = some recs2 → x ∈ recs2 →
        x.entry ∈ e :: rest ∧ r.reg (pathBase x.entry.filename) ≠ none ∧
        (pathBase x.entry.filename = r.pattern ∨ ¬ x.entry.modificationTime < t) ∧
        x.index = entryIndex r x.entry ∧ x.compressed = entryCompressed r x.entry ∧
        inInt64 x.index := by
      intro recs2 h2 hx2
      obtain ⟨a, b⟩ := ih recs2 h2 x hx2
      exact ⟨List.mem_cons_of_mem _ a, b⟩
    simp only [collectRecs] at h
    cases hreg : r.reg (pathBase e.filename) with
    | none =>
      rw [hreg] at h
      exact lift recs h hx
    | some g =>
      obtain ⟨digits, extension⟩ := g
      rw [hreg] at h
      simp only at h
      by_cases hskip : pathBase e.filename ≠ r.pattern ∧ Time.Before e.modificationTime t = true
      · rw [if_pos hskip] at h
        exact lift recs h hx
      · rw [if_neg hskip] at h
        cases hidx : (if digits = [] then some (0 : Int) else atoi digits) with
        | none => rw [hidx] at h; cases h
        | some index =>
          rw [hidx] at h
          simp only at h
          cases hrest : collectRecs r t rest with
          | none => rw [hrest] at h; cases h
          | some recs2 =>
            rw [hrest] at h
            simp only [Option.some.injEq] at h
            subst h
            rcases List.mem_cons.1 hx with rfl | hx
            · refine ⟨List.mem_cons_self _ _, by simp [hreg], ?_, ?_, ?_, ?_⟩
              · by_cases hb : pathBase e.filename = r.pattern
                · exact Or.inl hb
                · right
                  intro hlt
                  exact hskip ⟨hb, by simp [Time.Before, hlt]⟩
              · simp only [entryIndex, hreg]
                by_cases hd : digits = []
                · simp only [hd, if_true] at hidx ⊢
                  exact (Option.some.inj hidx).symm
                · simp only [hd, if_false] at hidx ⊢
                  rw [hidx]; rfl
              · simp only [entryCompressed, hreg]
              · by_cases hd : digits = []
                · simp only [hd, if_true, Option.some.injEq] at hidx
                  subst hidx
                  unfold inInt64
                  constructor <;> norm_num
                · simp only [hd, if_false] at hidx
                  exact atoi_range _ _ hidx
            · exact lift recs2 hrest hx

theorem collectRecs_complete (r : filenameRecognizer) (t : Time) (list : fileEntryList) :
    ∀ recs : List rec, collectRecs r t list = some recs →
      ∀ e ∈ list, r.reg (pathBase e.filename) ≠ none →
        (pathBase e.filename = r.pattern ∨ ¬ e.modificationTime < t) →
        ∃ x ∈ recs, x.entry = e := by
  induction list with
  | nil => intro recs _ e he; cases he
  | cons e0 rest ih =>
    intro recs h e he hm hkeep
    simp only [collectRecs] at h
    cases hreg : r.reg (pathBase e0.filename) with
    | none =>
      rw [hreg] at h
      rcases List.mem_cons.1 he with rfl | he
      · exact absurd hreg hm
      · exact ih recs h e he hm hkeep
    | some g =>
      obtain ⟨digits, extension⟩ := g
      rw [hreg] at h
      simp only at h
      by_cases hskip : pathBase e0.filename ≠ r.pattern ∧ Time.Before e0.modificationTime t = true
      · rw [if_pos hskip] at h
        rcases List.mem_cons.1 he with rfl | he
        · exfalso
          rcases hkeep with hk | hk
          · exact hskip.1 hk
          · exact hk (by simpa [Time.Before] using hskip.2)
        · exact ih recs h e he hm hkeep
      · rw [if_neg hskip] at h
        cases hidx : (if digits = [] then some (0 : Int) else atoi digits) with
        | none => rw [hidx] at h; cases h
        | some index =>
          rw [hidx] at h
          simp only at h
          cases hrest : collectRecs r t rest with
          | none => rw [hrest] at h; cases h
          | some recs2 =>
            rw [hrest] at h
            simp only [Option.some.injEq] at h
            subst h
            rcases List.mem_cons.1 he with rfl | he
            · exact ⟨_, List.mem_cons_self _ _, rfl⟩
            · obtain ⟨x, hx, hxe⟩ := ih recs2 hrest e he hm hkeep
              exact ⟨x, List.mem_cons_of_mem _ hx, hxe⟩

theorem sortedEntries_eq (list : fileEntryList) (r : filenameRecognizer) (t : Time) :
    sortedEntriesFilteredByPatternAndMoreRecentThanTime list r t
      = (collectRecs r t list).map (fun recs => entriesOfSorted (sortSlice (recLess r) recs)) := by
  unfold sortedEntriesFilteredByPatternAndMoreRecentThanTime
  cases collectRecs r t list with
  | none => rfl
  | some recs =>
    cases recs with
    | nil => rfl
    | cons x xs =>
      cases xs with
      | nil => rfl
      | cons y ys =>
        simp only [Option.map_some']
        cases sortSlice (recLess r) (x :: y :: ys) with
        | nil => rfl
        | cons a as => rfl

theorem planner_structure (list : fileEntryList) (r : filenameRecognizer) (t : Time)
    (out : fileEntryList)
    (h : sortedEntriesFilteredByPatternAndMoreRecentThanTime list r t = some out) :
    ∃ recs kept : List rec,
      collectRecs r t list = some recs ∧
      out = kept.map (fun x => x.entry) ∧
      (∀ k ∈ kept, k ∈ recs) ∧
      kept.Pairwise (recStrict r) ∧
      List.Chain' (fun a b : rec => a.index ≠ b.index) kept ∧
      (recs ≠ [] → kept ≠ []) ∧
      (∀ x ∈ recs, ¬ recIsBase r x →
        ∃ k ∈ kept, ¬ recIsBase r k ∧ k.index = x.index ∧
          (x.compressed = true → k.compressed = true)) := by
  rw [sortedEntries_eq] at h
  cases hrecs : collectRecs r t list with
  | none => rw [hrecs] at h; cases h
  | some recs =>
    rw [hrecs] at h
    simp only [Option.map_some', Option.some.injEq] at h
    have hperm := sortSlice_perm (recLess r) recs
    have hrange : ∀ z ∈ recs, inInt64 z.index :=
      fun z hz => (collectRecs_mem r t list recs hrecs z hz).2.2.2.2.2
    have hsorted : (sortSlice (recLess r) recs).Pairwise (recOrd r) :=
      sortSlice_sorted (recLess r) (recOrd r) (fun z => inInt64 z.index) (recOrd_trans r)
        (recLess_true r) (recLess_false r) recs hrange
    refine ⟨recs, keptOfSorted (sortSlice (recLess r) recs), rfl, ?_, ?_, ?_, ?_, ?_, ?_⟩
    · rw [← h, entriesOfSorted_eq_map]
    · intro k hk
      apply hperm.subset
      cases hs : sortSlice (recLess r) recs with
      | nil => rw [hs] at hk; cases hk
      | cons a as =>
        rw [hs] at hk
        simp only [keptOfSorted] at hk
        rcases List.mem_cons.1 hk with rfl | hk
        · exact List.mem_cons_self _ _
        · exact List.mem_cons_of_mem _ ((dedupRecs_sublist as a).subset hk)
    · cases hs : sortSlice (recLess r) recs with
      | nil => exact List.Pairwise.nil
      | cons a as =>
        rw [hs] at hsorted
        exact dedupRecs_strict r as a hsorted
          (fun z hz => hrange z (hperm.subset (by rw [hs]; exact hz)))
    · cases hs : sortSlice (recLess r) recs with
      | nil => exact List.chain'_nil
      | cons a as => exact dedupRecs_index_chain as a
    · intro hne hk
      cases hs : sortSlice (recLess r) recs with
      | nil =>
        have := hperm.length_eq
        rw [hs] at this
        exact hne (List.length_eq_zero.1 this.symm)
      | cons a as => rw [hs] at hk; simp [keptOfSorted] at hk
    · intro x hx hxb
      have hx2 : x ∈ sortSlice (recLess r) recs := hperm.symm.subset hx
      cases hs : sortSlice (recLess r) recs with
      | nil => rw [hs] at hx2; cases hx2
      | cons a as =>
        rw [hs] at hx2 hsorted
        simp only [keptOfSorted]
        rcases List.mem_cons.1 hx2 with rfl | hx2
        · exact ⟨x, List.mem_cons_self _ _, hxb, rfl, fun h => h⟩
        · exact dedupRecs_covers r as a hsorted
            (fun z hz => hrange z (hperm.subset (by rw [hs]; exact hz))) x hx2 hxb

theorem pairwise_lt_inj {α : Type} (f : α → Int) (l : List α)
    (h : l.Pairwise (fun a b => f a < f b)) :
    ∀ a ∈ l, ∀ b ∈ l, f a = f b → a = b := by
  induction l with
  | nil => intro a ha; cases ha
  | cons x xs ih =>
    rw [List.pairwise_cons] at h
    intro a ha b hb hab
    rcases List.mem_cons.1 ha with ha1 | ha1
    · rcases List.mem_cons.1 hb with hb1 | hb1
      · rw [ha1, hb1]
      · have := h.1 b hb1
        rw [← ha1, hab] at this
        exact absurd this (lt_irrefl _)
    · rcases List.mem_cons.1 hb with hb1 | hb1
      · have := h.1 a ha1
        rw [← hb1, hab] at this
        exact absurd this (lt_irrefl _)
      · exact ih h.2 a ha1 b hb1 hab

/-- C8: in a planned list a file that is not the current base file has a
modification time that is not before the earliest-interesting time, and the
time filter keeps every recognised base file whatever its modification time. -/
theorem C8_time_filter (list : fileEntryList) (r : filenameRecognizer) (t : Time)
    (out : fileEntryList)
    (h : sortedEntriesFilteredByPatternAndMoreRecentThanTime list r t = some out) :
    (∀ e ∈ out, ¬ isBaseFile r e → ¬ e.modificationTime < t) ∧
    (∃ recs, collectRecs r t list = some recs ∧
      ∀ e ∈ list, isBaseFile r e → r.reg (pathBase e.filename) ≠ none →
        ∃ x ∈ recs, x.entry = e) := by
  obtain ⟨recs, kept, hrecs, hout, hsub, _⟩ := planner_structure list r t out h
  refine ⟨?_, recs, hrecs, ?_⟩
  · intro e he hb
    rw [hout] at he
    obtain ⟨k, hk, rfl⟩ := List.mem_map.1 he
    rcases (collectRecs_mem r t list recs hrecs k (hsub k hk)).2.2.1 with h1 | h1
    · exact absurd h1 hb
    · exact h1
  · intro e he hb hm
    exact collectRecs_complete r t list recs hrecs e he hm (Or.inl hb)

theorem C8_time_filter_witness :
    sortedEntriesFilteredByPatternAndMoreRecentThanTime agedListing
        (numericRecognizerBuilder.build "mail.log") 7
      = some [⟨"mail.log.1", 10⟩, ⟨"mail.log", 3⟩] ∧
    ((∀ e ∈ [fileEntry.mk "mail.log.1" 10, fileEntry.mk "mail.log" 3],
        ¬ isBaseFile (numericRecognizerBuilder.build "mail.log") e → ¬ e.modificationTime < 7) ∧
     (∃ recs, collectRecs (numericRecognizerBuilder.build "mail.log") 7 agedListing = some recs ∧
        ∀ e ∈ agedListing, isBaseFile (numericRecognizerBuilder.build "mail.log") e →
          (numericRecognizerBuilder.build "mail.log").reg (pathBase e.filename) ≠ none →
          ∃ x ∈ recs, x.entry = e)) :=
  ⟨by decide,
   C8_time_filter agedListing (numericRecognizerBuilder.build "mail.log") 7
     [⟨"mail.log.1", 10⟩, ⟨"mail.log", 3⟩] (by decide)⟩

/-- C6 (amended): a planned list is made of rotated files with pairwise
different suffix numbers, followed by base files only; and whenever a
compressed file of a rotation is listed and is not older than the
earliest-interesting time, the planned list holds a compressed file of that
rotation and no plain file of it. -/
theorem C6_one_file_per_rotation (list : fileEntryList) (r : filenameRecognizer) (t : Time)
    (out : fileEntryList)
    (h : sortedEntriesFilteredByPatternAndMoreRecentThanTime list r t = some out) :
    (∃ R B, out = R ++ B ∧ (∀ e ∈ R, ¬ isBaseFile r e) ∧ (∀ e ∈ B, isBaseFile r e) ∧
      R.Pairwise (fun a b => entryIndex r a ≠ entryIndex r b)) ∧
    (∀ c ∈ list, r.reg (pathBase c.filename) ≠ none → ¬ isBaseFile r c →
      entryCompressed r c = true → ¬ c.modificationTime < t →
      (∃ k ∈ out, ¬ isBaseFile r k ∧ entryIndex r k = entryIndex r c ∧
        entryCompressed r k = true) ∧
      (∀ p ∈ out, ¬ isBaseFile r p → entryIndex r p = entryIndex r c →
        entryCompressed r p = true)) := by
  obtain ⟨recs, kept, hrecs, hout, hsub, hstrict, _, _, hcover⟩ := planner_structure list r t out h
  obtain ⟨R, B, hK, hR, hB, hpw⟩ := strict_split r kept hstrict
  have hmem := collectRecs_mem r t list recs hrecs
  have hidx : ∀ k ∈ kept, k.index = entryIndex r k.entry :=
    fun k hk => (hmem k (hsub k hk)).2.2.2.1
  have hcomp : ∀ k ∈ kept, k.compressed = entryCompressed r k.entry :=
    fun k hk => (hmem k (hsub k hk)).2.2.2.2.1
  have hrange : ∀ k ∈ kept, inInt64 k.index :=
    fun k hk => (hmem k (hsub k hk)).2.2.2.2.2
  have hRk : ∀ k ∈ R, k ∈ kept := fun k hk => by rw [hK]; exact List.mem_append_left _ hk
  constructor
  · refine ⟨R.map (fun x => x.entry), B.map (fun x => x.entry), ?_, ?_, ?_, ?_⟩
    · rw [hout, hK, List.map_append]
    · intro e he
      obtain ⟨k, hk, rfl⟩ := List.mem_map.1 he
      exact hR k hk
    · intro e he
      obtain ⟨k, hk, rfl⟩ := List.mem_map.1 he
      exact hB k hk
    · rw [List.pairwise_map]
      refine List.Pairwise.imp_of_mem ?_ hpw
      intro a b ha hb hlt heq
      rw [← hidx a (hRk a ha), ← hidx b (hRk b hb)] at heq
      rw [(recKey_eq_iff r a b (hrange a (hRk a ha)) (hrange b (hRk b hb))).2 heq] at hlt
      exact absurd hlt (lt_irrefl _)
  · intro c hc hm hcb hcc hct
    obtain ⟨x, hx, hxe⟩ := collectRecs_complete r t list recs hrecs c hc hm (Or.inr hct)
    have hxb : ¬ recIsBase r x := by unfold recIsBase; rw [hxe]; exact hcb
    have hxc : x.compressed = true := by rw [(hmem x hx).2.2.2.2.1, hxe]; exact hcc
    have hxi : x.index = entryIndex r c := by rw [(hmem x hx).2.2.2.1, hxe]
    obtain ⟨k, hk, hkb, hki, hkc⟩ := hcover x hx hxb
    have hkR : k ∈ R := by
      rw [hK] at hk
      rcases List.mem_append.1 hk with h1 | h1
      · exact h1
      · exact absurd (hB k h1) hkb
    constructor
    · refine ⟨k.entry, ?_, hkb, ?_, ?_⟩
      · rw [hout]; exact List.mem_map_of_mem _ hk
      · rw [← hidx k hk, hki, hxi]
      · rw [← hcomp k hk]; exact hkc hxc
    · intro p hp hpb hpi
      rw [hout] at hp
      obtain ⟨y, hy, rfl⟩ := List.mem_map.1 hp
      have hyR : y ∈ R := by
        rw [hK] at hy
        rcases List.mem_append.1 hy with h1 | h1
        · exact h1
        · exact absurd (hB y h1) hpb
      have hyk : y = k := by
        apply pairwise_lt_inj (recKey r) R hpw y hyR k hkR
        apply (recKey_eq_iff r y k (hrange y hy) (hrange k hk)).2
        rw [hidx y hy, hpi, ← hxi, hki]
      rw [← hcomp y hy, hyk]
      exact hkc hxc

theorem C6_one_file_per_rotation_witness :
    sortedEntriesFilteredByPatternAndMoreRecentThanTime duplicatedFilesListing
        (datedRecognizerBuilder.build "mail.log") 0
      = some [⟨"mail.log-20220722.bz2", 100⟩, ⟨"mail.log-20220728.bz2", 200⟩,
          ⟨"mail.log-20220731.bz2", 300⟩, ⟨"mail.log-20220804", 400⟩, ⟨"mail.log", 800⟩] ∧
    ((∃ R B, [fileEntry.mk "mail.log-20220722.bz2" 100, fileEntry.mk "mail.log-20220728.bz2" 200,
          fileEntry.mk "mail.log-20220731.bz2" 300, fileEntry.mk "mail.log-20220804" 400,
          fileEntry.mk "mail.log" 800] = R ++ B ∧
        (∀ e ∈ R, ¬ isBaseFile (datedRecognizerBuilder.build "mail.log") e) ∧
        (∀ e ∈ B, isBaseFile (datedRecognizerBuilder.build "mail.log") e) ∧
        R.Pairwise (fun a b => entryIndex (datedRecognizerBuilder.build "mail.log") a
          ≠ entryIndex (datedRecognizerBuilder.build "mail.log") b)) ∧
     (∀ c ∈ duplicatedFilesListing,
        (datedRecognizerBuilder.build "mail.log").reg (pathBase c.filename) ≠ none →
        ¬ isBaseFile (datedRecognizerBuilder.build "mail.log") c →
        entryCompressed (datedRecognizerBuilder.build "mail.log") c = true →
        ¬ c.modificationTime < 0 →
        (∃ k ∈ [fileEntry.mk "mail.log-20220722.bz2" 100, fileEntry.mk "mail.log-20220728.bz2" 200,
            fileEntry.mk "mail.log-20220731.bz2" 300, fileEntry.mk "mail.log-20220804" 400,
            fileEntry.mk "mail.log" 800],
          ¬ isBaseFile (datedRecognizerBuilder.build "mail.log") k ∧
          entryIndex (datedRecognizerBuilder.build "mail.log") k
            = entryIndex (datedRecognizerBuilder.build "mail.log") c ∧
          entryCompressed (datedRecognizerBuilder.build "mail.log") k = true) ∧
        (∀ p ∈ [fileEntry.mk "mail.log-20220722.bz2" 100, fileEntry.mk "mail.log-20220728.bz2" 200,
            fileEntry.mk "mail.log-20220731.bz2" 300, fileEntry.mk "mail.log-20220804" 400,
            fileEntry.mk "mail.log" 800],
          ¬ isBaseFile (datedRecognizerBuilder.build "mail.log") p →
          entryIndex (datedRecognizerBuilder.build "mail.log") p
            = entryIndex (datedRecognizerBuilder.build "mail.log") c →
          entryCompressed (datedRecognizerBuilder.build "mail.log") p = true))) :=
  ⟨by decide,
   C6_one_file_per_rotation duplicatedFilesListing (datedRecognizerBuilder.build "mail.log") 0
     [⟨"mail.log-20220722.bz2", 100⟩, ⟨"mail.log-20220728.bz2", 200⟩,
       ⟨"mail.log-20220731.bz2", 300⟩, ⟨"mail.log-20220804", 400⟩, ⟨"mail.log", 800⟩]
     (by decide)⟩

/-- C6, as stated, fails: rotation 1 is listed both plain and compressed, the
compressed file is older than the earliest-interesting time `7` and is dropped
by the time filter, and the planned list keeps the plain file. -/
theorem C6_counterexample :
    fileEntry.mk "mail.log.1" 10 ∈ agedTwinListing ∧
    fileEntry.mk "mail.log.1.gz" 5 ∈ agedTwinListing ∧
    buildFilesToImport agedTwinListing (LogPatterns.mk ["mail.log"]) 7
      = some [("mail.log", [fileEntry.mk "mail.log.1" 10, fileEntry.mk "mail.log" 20])] := by
  refine ⟨by decide, by decide, by decide⟩

/-! ## The two recognisers of `filenameRecognizers` -/

theorem matchPattern_self (p : List Char) : matchPattern p p = some [] := by
  induction p with
  | nil => rfl
  | cons c cs ih =>
    have hcond : (c = '.' ∧ c ≠ '\n') ∨ (c ≠ '.' ∧ c = c) := by
      by_cases hc : c = '.'
      · subst hc; exact Or.inl ⟨rfl, by decide⟩
      · exact Or.inr ⟨hc, rfl⟩
    unfold matchPattern
    rw [if_pos hcond]
    exact ih

theorem atoi_nonneg (s : List Char) (n : Int) (h : atoi s = some n)
    (hs : ∀ c ∈ s, c.isDigit = true) : 0 ≤ n := by
  unfold atoi at h
  split at h
  · cases h
  · exact absurd (hs '-' (List.mem_cons_self _ _)) (by decide)
  · split at h
    · cases h
    · split at h
      · cases h
      · split at h
        · cases h; omega
        · cases h
  · split at h
    · cases h
    · split at h
      · cases h; omega
      · cases h

theorem matchDatedSuffix_digits (text digits extension : List Char)
    (h : matchDatedSuffix text = some (digits, extension)) :
    ∀ c ∈ digits, c.isDigit = true := by
  unfold matchDatedSuffix at h
  split at h
  · cases h; intro c hc; cases hc
  · split at h
    · rename_i hcond
      split at h
      · cases h
      · cases h
        intro c hc
        exact List.all_eq_true.1 hcond.2 c hc
    · cases h
  · cases h

theorem matchNumericSuffix_digits (text digits extension : List Char)
    (h : matchNumericSuffix text = some (digits, extension)) :
    ∀ c ∈ digits, c.isDigit = true := by
  unfold matchNumericSuffix at h
  split at h
  · cases h; intro c hc; cases hc
  · split at h
    · split at h
      · cases h
      · cases h
        intro c hc
        exact (List.mem_takeWhile_imp hc)
    · cases h
  · cases h

theorem dated_entryIndex (pattern : String) (e : fileEntry) :
    0 ≤ entryIndex (datedRecognizerBuilder.build pattern) e ∧
    (isBaseFile (datedRecognizerBuilder.build pattern) e →
      entryIndex (datedRecognizerBuilder.build pattern) e = 0) := by
  constructor
  · unfold entryIndex
    simp only [filenameRecognizerBuilder.build, datedRecognizerBuilder]
    cases hm : matchPattern pattern.data (pathBase e.filename).data with
    | none => simp
    | some rest =>
      simp only
      cases hsuf : matchDatedSuffix rest with
      | none => simp
      | some g =>
        obtain ⟨digits, extension⟩ := g
        simp only
        by_cases hd : digits = []
        · simp [hd]
        · rw [if_neg hd]
          cases ha : atoi digits with
          | none => simp
          | some n =>
            simp only [Option.getD_some]
            exact atoi_nonneg digits n ha (matchDatedSuffix_digits rest digits extension hsuf)
  · intro hb
    unfold isBaseFile at hb
    simp only [filenameRecognizerBuilder.build] at hb
    unfold entryIndex
    simp only [filenameRecognizerBuilder.build, datedRecognizerBuilder, hb, matchPattern_self]
    rfl

theorem numeric_entryIndex (pattern : String) (e : fileEntry) :
    0 ≤ entryIndex (numericRecognizerBuilder.build pattern) e ∧
    (isBaseFile (numericRecognizerBuilder.build pattern) e →
      entryIndex (numericRecognizerBuilder.build pattern) e = 0) := by
  constructor
  · unfold entryIndex
    simp only [filenameRecognizerBuilder.build, numericRecognizerBuilder]
    cases hm : matchPattern pattern.data (pathBase e.filename).data with
    | none => simp
    | some rest =>
      simp only
      cases hsuf : matchNumericSuffix rest with
      | none => simp
      | some g =>
        obtain ⟨digits, extension⟩ := g
        simp only
        by_cases hd : digits = []
        · simp [hd]
        · rw [if_neg hd]
          cases ha : atoi digits with
          | none => simp
          | some n =>
            simp only [Option.getD_some]
            exact atoi_nonneg digits n ha (matchNumericSuffix_digits rest digits extension hsuf)
  · intro hb
    unfold isBaseFile at hb
    simp only [filenameRecognizerBuilder.build] at hb
    unfold entryIndex
    simp only [filenameRecognizerBuilder.build, numericRecognizerBuilder, hb, matchPattern_self]
    rfl

theorem recKey_of_nonneg (r : filenameRecognizer) (k : rec) (h0 : 0 ≤ k.index)
    (hr : inInt64 k.index) : recKey r k = k.index * r.order.toInt := by
  unfold inInt64 at hr
  unfold recKey wrapInt64
  norm_num at hr ⊢
  cases r.order with
  | filenameReverseOrder => simp only [filenameSortOrder.toInt]; omega
  | filenameNormalOrder => simp only [filenameSortOrder.toInt]; omega

theorem replay_order (list : fileEntryList) (r : filenameRecognizer) (t : Time)
    (out : fileEntryList)
    (h : sortedEntriesFilteredByPatternAndMoreRecentThanTime list r t = some out)
    (hnn : ∀ e, 0 ≤ entryIndex r e)
    (hbase : ∀ e, isBaseFile r e → entryIndex r e = 0) :
    ∃ R B, out = R ++ B ∧ (∀ e ∈ R, ¬ isBaseFile r e) ∧
      R.Pairwise (fun a b => entryIndex r a * r.order.toInt < entryIndex r b * r.order.toInt) ∧
      (B = [] ∨ ∃ b, B = [b] ∧ isBaseFile r b) := by
  obtain ⟨recs, kept, hrecs, hout, hsub, hstrict, hchain, _, _⟩ := planner_structure list r t out h
  obtain ⟨R, B, hK, hR, hB, hpw⟩ := strict_split r kept hstrict
  have hmem := collectRecs_mem r t list recs hrecs
  have hidx : ∀ k ∈ kept, k.index = entryIndex r k.entry :=
    fun k hk => (hmem k (hsub k hk)).2.2.2.1
  have hrange : ∀ k ∈ kept, inInt64 k.index :=
    fun k hk => (hmem k (hsub k hk)).2.2.2.2.2
  have hRk : ∀ k ∈ R, k ∈ kept := fun k hk => by rw [hK]; exact List.mem_append_left _ hk
  have hBk : ∀ k ∈ B, k ∈ kept := fun k hk => by rw [hK]; exact List.mem_append_right _ hk
  refine ⟨R.map (fun x => x.entry), B.map (fun x => x.entry), ?_, ?_, ?_, ?_⟩
  · rw [hout, hK, List.map_append]
  · intro e he
    obtain ⟨k, hk, rfl⟩ := List.mem_map.1 he
    exact hR k hk
  · rw [List.pairwise_map]
    refine List.Pairwise.imp_of_mem ?_ hpw
    intro a b ha hb hlt
    have ha0 : 0 ≤ a.index := by rw [hidx a (hRk a ha)]; exact hnn _
    have hb0 : 0 ≤ b.index := by rw [hidx b (hRk b hb)]; exact hnn _
    rw [recKey_of_nonneg r a ha0 (hrange a (hRk a ha)),
      recKey_of_nonneg r b hb0 (hrange b (hRk b hb))] at hlt
    rw [← hidx a (hRk a ha), ← hidx b (hRk b hb)]
    exact hlt
  · rw [hK] at hchain
    have hcb := hchain.right_of_append
    cases B with
    | nil => exact Or.inl rfl
    | cons b1 B1 =>
      right
      cases B1 with
      | nil => exact ⟨b1.entry, rfl, hB b1 (List.mem_cons_self _ _)⟩
      | cons b2 B2 =>
        exfalso
        have hne : b1.index ≠ b2.index := (List.chain'_cons.1 hcb).1
        have h1 : b1 ∈ b1 :: b2 :: B2 := List.mem_cons_self _ _
        have h2 : b2 ∈ b1 :: b2 :: B2 := List.mem_cons_of_mem _ (List.mem_cons_self _ _)
        apply hne
        rw [hidx b1 (hBk b1 h1), hidx b2 (hBk b2 h2), hbase _ (hB b1 h1), hbase _ (hB b2 h2)]

/-- C9: in a planned list the rotated files come first, in replay order: under
the dated-suffix recogniser their suffix dates are strictly increasing along
the list, under the numeric-suffix recogniser their suffix numbers are strictly
decreasing; after them comes nothing but, at most, one base file. -/
theorem C9_replay_order (list : fileEntryList) (pattern : String) (t : Time)
    (outDated outNumeric : fileEntryList)
    (hD : sortedEntriesFilteredByPatternAndMoreRecentThanTime list
      (datedRecognizerBuilder.build pattern) t = some outDated)
    (hN : sortedEntriesFilteredByPatternAndMoreRecentThanTime list
      (numericRecognizerBuilder.build pattern) t = some outNumeric) :
    (∃ R B, outDated = R ++ B ∧
      (∀ e ∈ R, ¬ isBaseFile (datedRecognizerBuilder.build pattern) e) ∧
      R.Pairwise (fun a b => entryIndex (datedRecognizerBuilder.build pattern) a
        < entryIndex (datedRecognizerBuilder.build pattern) b) ∧
      (B = [] ∨ ∃ b, B = [b] ∧ isBaseFile (datedRecognizerBuilder.build pattern) b)) ∧
    (∃ R B, outNumeric = R ++ B ∧
      (∀ e ∈ R, ¬ isBaseFile (numericRecognizerBuilder.build pattern) e) ∧
      R.Pairwise (fun a b => entryIndex (numericRecognizerBuilder.build pattern) b
        < entryIndex (numericRecognizerBuilder.build pattern) a) ∧
      (B = [] ∨ ∃ b, B = [b] ∧ isBaseFile (numericRecognizerBuilder.build pattern) b)) := by
  constructor
  · obtain ⟨R, B, h1, h2, h3, h4⟩ := replay_order list _ t outDated hD
      (fun e => (dated_entryIndex pattern e).1) (fun e => (dated_entryIndex pattern e).2)
    refine ⟨R, B, h1, h2, ?_, h4⟩
    refine List.Pairwise.imp ?_ h3
    intro a b hab
    simpa [filenameRecognizerBuilder.build, datedRecognizerBuilder, filenameSortOrder.toInt]
      using hab
  · obtain ⟨R, B, h1, h2, h3, h4⟩ := replay_order list _ t outNumeric hN
      (fun e => (numeric_entryIndex pattern e).1) (fun e => (numeric_entryIndex pattern e).2)
    refine ⟨R, B, h1, h2, ?_, h4⟩
    refine List.Pairwise.imp ?_ h3
    intro a b hab
    simpa [filenameRecognizerBuilder.build, numericRecognizerBuilder, filenameSortOrder.toInt]
      using hab

theorem C9_replay_order_witness :
    (sortedEntriesFilteredByPatternAndMoreRecentThanTime mixedListing
        (datedRecognizerBuilder.build "mail.log") 0
      = some [⟨"mail.log-20220722", 10⟩, ⟨"mail.log-20220728.bz2", 20⟩, ⟨"mail.log", 50⟩] ∧
     sortedEntriesFilteredByPatternAndMoreRecentThanTime mixedListing
        (numericRecognizerBuilder.build "mail.log") 0
      = some [⟨"mail.log.2.gz", 30⟩, ⟨"mail.log.1", 40⟩, ⟨"mail.log", 50⟩]) ∧
    ((∃ R B, [fileEntry.mk "mail.log-20220722" 10, fileEntry.mk "mail.log-20220728.bz2" 20,
          fileEntry.mk "mail.log" 50] = R ++ B ∧
      (∀ e ∈ R, ¬ isBaseFile (datedRecognizerBuilder.build "mail.log") e) ∧
      R.Pairwise (fun a b => entryIndex (datedRecognizerBuilder.build "mail.log") a
        < entryIndex (datedRecognizerBuilder.build "mail.log") b) ∧
      (B = [] ∨ ∃ b, B = [b] ∧ isBaseFile (datedRecognizerBuilder.build "mail.log") b)) ∧
    (∃ R B, [fileEntry.mk "mail.log.2.gz" 30, fileEntry.mk "mail.log.1" 40,
          fileEntry.mk "mail.log" 50] = R ++ B ∧
      (∀ e ∈ R, ¬ isBaseFile (numericRecognizerBuilder.build "mail.log") e) ∧
      R.Pairwise (fun a b => entryIndex (numericRecognizerBuilder.build "mail.log") b
        < entryIndex (numericRecognizerBuilder.build "mail.log") a) ∧
      (B = [] ∨ ∃ b, B = [b] ∧ isBaseFile (numericRecognizerBuilder.build "mail.log") b))) :=
  ⟨⟨by decide, by decide⟩,
   C9_replay_order mixedListing "mail.log" 0
     [⟨"mail.log-20220722", 10⟩, ⟨"mail.log-20220728.bz2", 20⟩, ⟨"mail.log", 50⟩]
     [⟨"mail.log.2.gz", 30⟩, ⟨"mail.log.1", 40⟩, ⟨"mail.log", 50⟩] (by decide) (by decide)⟩

/-- C7 fails on the code: with logrotate's `start 0` convention the listing
holds `mail.log`, `mail.log.0` and `mail.log.1`; the base file sorts last, but
its index `0` equals the index of `mail.log.0` added just before it, so the
deduplication loop drops the base file and the plan ends with `mail.log.0`.
The same happens with the two files `mail.log.0` and `mail.log` alone. -/
theorem C7_base_file_dropped :
    fileEntry.mk "mail.log" 30 ∈ startZeroListing ∧
    buildFilesToImport startZeroListing (LogPatterns.mk ["mail.log"]) 0
      = some [("mail.log", [fileEntry.mk "mail.log.1" 10, fileEntry.mk "mail.log.0" 20])] ∧
    buildFilesToImport [fileEntry.mk "mail.log.0" 20, fileEntry.mk "mail.log" 30]
        (LogPatterns.mk ["mail.log"]) 0
      = some [("mail.log", [fileEntry.mk "mail.log.0" 20])] := by
  refine ⟨by decide, by decide, by decide⟩

/-! ## The dated recogniser never fails -/

theorem isDigit_value (c : Char) (h : c.isDigit = true) : c.toNat - '0'.toNat ≤ 9 := by
  unfold Char.isDigit at h
  simp only [Bool.and_eq_true, decide_eq_true_eq] at h
  have h2 : c.val.toNat ≤ 57 := h.2
  have h3 : '0'.toNat = 48 := by decide
  rw [h3]
  unfold Char.toNat
  omega

theorem digitsValue_some (ds : List Char) :
    ∀ acc : Nat, (∀ c ∈ ds, c.isDigit = true) →
      ∃ v, digitsValue ds acc = some v ∧ v < (acc + 1) * 10 ^ ds.length := by
  induction ds with
  | nil => intro acc _; exact ⟨acc, rfl, by simp⟩
  | cons c cs ih =>
    intro acc h
    have hc := h c (List.mem_cons_self _ _)
    obtain ⟨v, hv, hlt⟩ := ih (acc * 10 + (c.toNat - '0'.toNat))
      (fun x hx => h x (List.mem_cons_of_mem _ hx))
    refine ⟨v, by simp only [digitsValue, hc, if_true]; exact hv, ?_⟩
    have h9 := isDigit_value c hc
    have : (acc * 10 + (c.toNat - '0'.toNat) + 1) * 10 ^ cs.length
        ≤ (acc + 1) * 10 ^ (c :: cs).length := by
      rw [List.length_cons, pow_succ]
      have : acc * 10 + (c.toNat - '0'.toNat) + 1 ≤ (acc + 1) * 10 := by omega
      calc (acc * 10 + (c.toNat - '0'.toNat) + 1) * 10 ^ cs.length
          ≤ ((acc + 1) * 10) * 10 ^ cs.length := Nat.mul_le_mul_right _ this
        _ = (acc + 1) * (10 ^ cs.length * 10) := by ring
    omega

theorem atoi_eight_digits (ds : List Char) (hlen : ds.length = 8)
    (hd : ∀ c ∈ ds, c.isDigit = true) : ∃ n, atoi ds = some n := by
  obtain ⟨v, hv, hlt⟩ := digitsValue_some ds 0 hd
  rw [hlen] at hlt
  have hv63 : v < 2 ^ 63 := by
    have : (0 + 1) * 10 ^ 8 < 2 ^ 63 := by norm_num
    omega
  cases ds with
  | nil => cases hlen
  | cons c cs =>
    have hc := hd c (List.mem_cons_self _ _)
    have h1 : c ≠ '-' := by intro h; rw [h] at hc; exact absurd hc (by decide)
    have h2 : c ≠ '+' := by intro h; rw [h] at hc; exact absurd hc (by decide)
    refine ⟨(v : Int), ?_⟩
    unfold atoi
    split
    · rename_i heq; cases heq
    · rename_i heq; cases heq; exact absurd rfl h1
    · rename_i heq; cases heq; exact absurd rfl h2
    · rw [hv]
      simp only
      rw [if_pos hv63]

theorem matchDatedSuffix_length (text digits extension : List Char)
    (h : matchDatedSuffix text = some (digits, extension)) :
    digits = [] ∨ digits.length = 8 := by
  unfold matchDatedSuffix at h
  split at h
  · cases h; exact Or.inl rfl
  · split at h
    · rename_i hcond
      split at h
      · cases h
      · cases h
        right
        rw [List.length_take]
        exact Nat.min_eq_left hcond.1
    · cases h
  · cases h

theorem collectRecs_dated_some (pattern : String) (t : Time) (list : fileEntryList) :
    ∃ recs, collectRecs (datedRecognizerBuilder.build pattern) t list = some recs := by
  induction list with
  | nil => exact ⟨[], rfl⟩
  | cons e rest ih =>
    obtain ⟨recs, hrecs⟩ := ih
    simp only [collectRecs]
    cases hreg : (datedRecognizerBuilder.build pattern).reg (pathBase e.filename) with
    | none => exact ⟨recs, hrecs⟩
    | some g =>
      obtain ⟨digits, extension⟩ := g
      simp only
      split
      · exact ⟨recs, hrecs⟩
      · have hsuf : ∃ rest2, matchDatedSuffix rest2 = some (digits, extension) := by
          simp only [filenameRecognizerBuilder.build, datedRecognizerBuilder] at hreg
          cases hm : matchPattern pattern.data (pathBase e.filename).data with
          | none => rw [hm] at hreg; cases hreg
          | some rest2 => rw [hm] at hreg; exact ⟨rest2, hreg⟩
        obtain ⟨rest2, hsuf⟩ := hsuf
        have hidx : ∃ index, (if digits = [] then some (0 : Int) else atoi digits) = some index := by
          by_cases hd : digits = []
          · exact ⟨0, by rw [if_pos hd]⟩
          · rw [if_neg hd]
            rcases matchDatedSuffix_length rest2 digits extension hsuf with h0 | h8
            · exact absurd h0 hd
            · exact atoi_eight_digits digits h8 (matchDatedSuffix_digits rest2 digits extension hsuf)
        obtain ⟨index, hidx⟩ := hidx
        rw [hidx, hrecs]
        exact ⟨_, rfl⟩

theorem planQueues_dated_some (list : fileEntryList) (t : Time) (ps : List String) :
    ∃ q, planQueues list datedRecognizerBuilder t ps = some q := by
  induction ps with
  | nil => exact ⟨[], rfl⟩
  | cons p ps ih =>
    obtain ⟨q, hq⟩ := ih
    obtain ⟨recs, hrecs⟩ := collectRecs_dated_some p t list
    simp only [planQueues, sortedEntries_eq, hrecs, Option.map_some', hq]
    exact ⟨_, rfl⟩

theorem planQueues_keys (list : fileEntryList) (r : filenameRecognizerBuilder) (t : Time)
    (ps : List String) :
    ∀ q, planQueues list r t ps = some q →
      q.map Prod.fst = ps ∧
      ∀ pq ∈ q, sortedEntriesFilteredByPatternAndMoreRecentThanTime list (r.build pq.1) t
        = some pq.2 := by
  induction ps with
  | nil =>
    intro q h
    simp only [planQueues, Option.some.injEq] at h
    subst h
    exact ⟨rfl, fun pq hpq => absurd hpq (List.not_mem_nil _)⟩
  | cons p ps ih =>
    intro q h
    simp only [planQueues] at h
    cases hs : sortedEntriesFilteredByPatternAndMoreRecentThanTime list (r.build p) t with
    | none => rw [hs] at h; cases h
    | some entries =>
      rw [hs] at h
      simp only at h
      cases hq : planQueues list r t ps with
      | none => rw [hq] at h; cases h
      | some q2 =>
        rw [hq] at h
        simp only [Option.some.injEq] at h
        subst h
        obtain ⟨h1, h2⟩ := ih q2 hq
        refine ⟨by simp [h1], ?_⟩
        intro pq hpq
        rcases List.mem_cons.1 hpq with rfl | hpq
        · exact hs
        · exact h2 pq hpq

theorem buildFilesToImport_eq (list : fileEntryList) (patterns : LogPatterns) (t : Time) :
    ∃ qd, buildFilesToImportByPatternKind list patterns datedRecognizerBuilder t = some qd ∧
      buildFilesToImport list patterns t
        = if queuesMatchAFileSuffixConvention qd = true then some qd
          else buildFilesToImportByPatternKind list patterns numericRecognizerBuilder t := by
  have hd : ∃ qd, buildFilesToImportByPatternKind list patterns datedRecognizerBuilder t = some qd := by
    unfold buildFilesToImportByPatternKind
    split
    · exact ⟨[], rfl⟩
    · exact planQueues_dated_some list t _
  obtain ⟨qd, hqd⟩ := hd
  refine ⟨qd, hqd, ?_⟩
  simp only [buildFilesToImport, filenameRecognizers, buildFilesToImportLoop, hqd]
  by_cases hm : queuesMatchAFileSuffixConvention qd = true
  · rw [if_pos hm, if_pos hm]
  · rw [if_neg hm, if_neg hm]
    cases hn : buildFilesToImportByPatternKind list patterns numericRecognizerBuilder t with
    | none => rfl
    | some qn =>
      simp only
      split <;> rfl

theorem only_base_files (list : fileEntryList) (r : filenameRecognizer) (t : Time)
    (out : fileEntryList)
    (h : sortedEntriesFilteredByPatternAndMoreRecentThanTime list r t = some out)
    (hself : r.reg r.pattern ≠ none)
    (honly : ∀ e ∈ list, r.reg (pathBase e.filename) ≠ none → pathBase e.filename = r.pattern) :
    (∀ e ∈ out, e ∈ list ∧ pathBase e.filename = r.pattern) ∧
    ((∃ e ∈ list, pathBase e.filename = r.pattern) → out ≠ []) := by
  obtain ⟨recs, kept, hrecs, hout, hsub, _, _, hne, _⟩ := planner_structure list r t out h
  have hmem := collectRecs_mem r t list recs hrecs
  constructor
  · intro e he
    rw [hout] at he
    obtain ⟨k, hk, rfl⟩ := List.mem_map.1 he
    have := hmem k (hsub k hk)
    exact ⟨this.1, honly _ this.1 this.2.1⟩
  · rintro ⟨e, he, hb⟩
    obtain ⟨x, hx, _⟩ := collectRecs_complete r t list recs hrecs e he
      (by rw [hb]; exact hself) (Or.inl hb)
    have hk : kept ≠ [] := hne (List.ne_nil_of_mem hx)
    intro ho
    rw [ho] at hout
    exact hk (List.map_eq_nil_iff.1 hout.symm)

/-- C10: the dated-suffix plan always exists, and `buildFilesToImport` returns
it whenever it has a family with more than one entry and otherwise returns the
numeric-suffix plan; for a non-empty pattern set the result has exactly one
list per pattern; and when the numeric-suffix recogniser of every pattern
recognises no listed file but base files, each list of the numeric-suffix plan
holds only listed base files of its pattern and is not empty if there is one. -/
theorem C10_recogniser_precedence (list : fileEntryList) (patterns : LogPatterns) (t : Time) :
    ∃ qd, buildFilesToImportByPatternKind list patterns datedRecognizerBuilder t = some qd ∧
      (buildFilesToImport list patterns t
        = if queuesMatchAFileSuffixConvention qd = true then some qd
          else buildFilesToImportByPatternKind list patterns numericRecognizerBuilder t) ∧
      (∀ q, buildFilesToImport list patterns t = some q → patterns.patterns ≠ [] →
        q.map Prod.fst = patterns.patterns.dedup) ∧
      (∀ qn, buildFilesToImportByPatternKind list patterns numericRecognizerBuilder t = some qn →
        (∀ p ∈ patterns.patterns, ∀ e ∈ list,
          (numericRecognizerBuilder.build p).reg (pathBase e.filename) ≠ none →
          pathBase e.filename = p) →
        ∀ pq ∈ qn, (∀ e ∈ pq.2, e ∈ list ∧ pathBase e.filename = pq.1) ∧
          ((∃ e ∈ list, pathBase e.filename = pq.1) → pq.2 ≠ [])) := by
  obtain ⟨qd, hqd, heq⟩ := buildFilesToImport_eq list patterns t
  refine ⟨qd, hqd, heq, ?_, ?_⟩
  · intro q hq hne
    have hlen : ¬ patterns.patterns.length = 0 := fun h => hne (List.length_eq_zero.1 h)
    rw [heq] at hq
    by_cases hm : queuesMatchAFileSuffixConvention qd = true
    · rw [if_pos hm] at hq
      cases hq
      unfold buildFilesToImportByPatternKind at hqd
      rw [if_neg hlen] at hqd
      exact (planQueues_keys list _ t _ qd hqd).1
    · rw [if_neg hm] at hq
      unfold buildFilesToImportByPatternKind at hq
      rw [if_neg hlen] at hq
      exact (planQueues_keys list _ t _ q hq).1
  · intro qn hqn honly pq hpq
    unfold buildFilesToImportByPatternKind at hqn
    split at hqn
    · cases hqn; cases hpq
    · obtain ⟨hkeys, hplans⟩ := planQueues_keys list _ t _ qn hqn
      have hp : pq.1 ∈ patterns.patterns := by
        have : pq.1 ∈ qn.map Prod.fst := List.mem_map_of_mem Prod.fst hpq
        rw [hkeys] at this
        exact List.mem_dedup.1 this
      apply only_base_files list (numericRecognizerBuilder.build pq.1) t pq.2 (hplans pq hpq)
      · simp only [filenameRecognizerBuilder.build, numericRecognizerBuilder, matchPattern_self]
        simp [matchNumericSuffix]
      · intro e he hm
        exact honly pq.1 hp e he hm

theorem C10_recogniser_precedence_witness :
    ∃ qd, buildFilesToImportByPatternKind duplicatedFilesListing
        (LogPatterns.mk ["mail.log", "mail.err", "mail.warn"]) datedRecognizerBuilder 0 = some qd ∧
      (buildFilesToImport duplicatedFilesListing
          (LogPatterns.mk ["mail.log", "mail.err", "mail.warn"]) 0
        = if queuesMatchAFileSuffixConvention qd = true then some qd
          else buildFilesToImportByPatternKind duplicatedFilesListing
            (LogPatterns.mk ["mail.log", "mail.err", "mail.warn"]) numericRecognizerBuilder 0) ∧
      (∀ q, buildFilesToImport duplicatedFilesListing
          (LogPatterns.mk ["mail.log", "mail.err", "mail.warn"]) 0 = some q →
        (LogPatterns.mk ["mail.log", "mail.err", "mail.warn"]).patterns ≠ [] →
        q.map Prod.fst = (LogPatterns.mk ["mail.log", "mail.err", "mail.warn"]).patterns.dedup) ∧
      (∀ qn, buildFilesToImportByPatternKind duplicatedFilesListing
          (LogPatterns.mk ["mail.log", "mail.err", "mail.warn"]) numericRecognizerBuilder 0
            = some qn →
        (∀ p ∈ (LogPatterns.mk ["mail.log", "mail.err", "mail.warn"]).patterns,
          ∀ e ∈ duplicatedFilesListing,
          (numericRecognizerBuilder.build p).reg (pathBase e.filename) ≠ none →
          pathBase e.filename = p) →
        ∀ pq ∈ qn, (∀ e ∈ pq.2, e ∈ duplicatedFilesListing ∧ pathBase e.filename = pq.1) ∧
          ((∃ e ∈ duplicatedFilesListing, pathBase e.filename = pq.1) → pq.2 ≠ [])) :=
  C10_recogniser_precedence duplicatedFilesListing
    (LogPatterns.mk ["mail.log", "mail.err", "mail.warn"]) 0

/-! ## Guessing the date of the first line of a file -/

theorem add12Hours_year (t : UTCTime) :
    t.add12Hours.year = t.year ∨
    (t.add12Hours.year = t.year + 1 ∧ t.month = Month.December ∧ 31 ≤ t.day ∧ 12 ≤ t.hour ∧
      secondsInTheYearForTime t.add12Hours
        = ((t.hour : Int) - 12) * 3600 + (t.minute : Int) * 60 + (t.second : Int)) := by
  unfold UTCTime.add12Hours
  by_cases h1 : t.hour < 12
  · left; rw [if_pos h1]
  · rw [if_neg h1]
    by_cases h2 : t.day < daysIn t.year t.month
    · left; rw [if_pos h2]
    · rw [if_neg h2]
      by_cases h3 : t.month = Month.December
      · right
        rw [if_pos h3]
        have hd : daysIn t.year t.month = 31 := by rw [h3]; rfl
        rw [hd] at h2
        refine ⟨rfl, h3, by omega, by omega, ?_⟩
        simp only [secondsInTheYearForTime, secondInTheYear, Month.daysBeforeInLeapYear]
        have : ((t.hour - 12 : Nat) : Int) = (t.hour : Int) - 12 := by omega
        rw [this]
        simp
      · left; rw [if_neg h3]

theorem secondsInTheYear_december (t : UTCTime) (hm : t.month = Month.December)
    (hd : 31 ≤ t.day) :
    (365 : Int) * 86400 + (t.hour : Int) * 3600 + (t.minute : Int) * 60 + (t.second : Int)
      ≤ secondsInTheYearForTime t := by
  simp only [secondsInTheYearForTime, secondInTheYear, hm, Month.daysBeforeInLeapYear]
  have : (31 : Int) ≤ (t.day : Int) := by exact_mod_cast hd
  push_cast
  linarith

/-- C11: for a file of exactly one line whose header parses,
`guessInitialDateForFile` returns the line's month, day and time converted in
the year `modYear - (1 if secondOfYear(mod) < secondOfYear(first) else 0)
+ (1 if mod+12h is in the next calendar year else 0)`, where `mod` is the UTC
reading of the modification time. -/
theorem C11_one_line_year (format : TimeFormat) (modificationTime : UTCTime)
    (timeFirstLine : parser.Time) :
    guessInitialDateForFile format [some timeFirstLine] modificationTime
      = Except.ok (format.ConvertWithYear timeFirstLine
          (modificationTime.year
            - (if secondsInTheYearForTime modificationTime
                  < secondInTheYear timeFirstLine.Month timeFirstLine.Day timeFirstLine.Hour
                      timeFirstLine.Minute timeFirstLine.Second then 1 else 0)
            + (if modificationTime.add12Hours.year = modificationTime.year + 1 then 1 else 0))) := by
  simp only [guessInitialDateForFile, List.getLast?_nil, oneLineYear]
  rcases add12Hours_year modificationTime with h | ⟨h, _⟩
  · rw [h]
    simp
  · rw [h]
    simp

theorem manyLinesYear_range (modificationTime : UTCTime) (timeFirstLine timeLastLine : parser.Time) :
    manyLinesYear modificationTime timeFirstLine timeLastLine = modificationTime.year ∨
    manyLinesYear modificationTime timeFirstLine timeLastLine = modificationTime.year - 1 := by
  unfold manyLinesYear basicOffset ordered
  simp only
  rcases add12Hours_year modificationTime with h | ⟨h, hm, hd, hh, hs⟩
  · rw [h]
    split
    · split
      · left; omega
      · right; omega
    · split
      · left; omega
      · right; omega
  · rw [h, hs]
    have hdec := secondsInTheYear_december modificationTime hm hd
    split
    · rename_i hcase
      split
      · rename_i hb
        exfalso
        simp only [decide_eq_true_eq] at hcase
        rcases hcase with hc | hc <;> omega
      · left; omega
    · split
      · left; omega
      · right; omega

theorem guessInitialDateForFile_many (format : TimeFormat) (modificationTime : UTCTime)
    (first last : Option parser.Time) (middle : List (Option parser.Time)) :
    guessInitialDateForFile format (first :: (middle ++ [last])) modificationTime
      = match first, last with
        | none, _ => Except.error GuessError.firstLine
        | some _, none => Except.error GuessError.lastLine
        | some timeFirstLine, some timeLastLine =>
            Except.ok (format.ConvertWithYear timeFirstLine
              (manyLinesYear modificationTime timeFirstLine timeLastLine)) := by
  cases first with
  | none => rfl
  | some tf =>
    cases last with
    | none => simp [guessInitialDateForFile]
    | some tl => simp [guessInitialDateForFile]

/-- C12: for a file of at least two lines (a first line, a last line and any
lines between), `guessInitialDateForFile` fails when the header of the first or
of the last line does not parse, and otherwise returns the first line
converted in a year that is the UTC year of the modification time or the year
before it, never the year after. -/
theorem C12_many_lines_year_range (format : TimeFormat) (modificationTime : UTCTime)
    (first last : Option parser.Time) (middle : List (Option parser.Time)) :
    (guessInitialDateForFile format (first :: (middle ++ [last])) modificationTime
      = match first, last with
        | none, _ => Except.error GuessError.firstLine
        | some _, none => Except.error GuessError.lastLine
        | some timeFirstLine, some timeLastLine =>
            Except.ok (format.ConvertWithYear timeFirstLine
              (manyLinesYear modificationTime timeFirstLine timeLastLine))) ∧
    (∀ timeFirstLine timeLastLine : parser.Time,
      (manyLinesYear modificationTime timeFirstLine timeLastLine = modificationTime.year ∨
        manyLinesYear modificationTime timeFirstLine timeLastLine = modificationTime.year - 1) ∧
      manyLinesYear modificationTime timeFirstLine timeLastLine ≠ modificationTime.year + 1) := by
  refine ⟨guessInitialDateForFile_many format modificationTime first last middle, ?_⟩
  intro tf tl
  have h := manyLinesYear_range modificationTime tf tl
  refine ⟨h, ?_⟩
  rcases h with h | h <;> rw [h] <;> omega

/-- C13: for a file of at least two lines whose first line, last line and
UTC modification time satisfy, in second-of-year, `first ≤ last`, `mod ≤ last`
and `last ≤ mod+12h`, `guessInitialDateForFile` returns the first line
converted in the UTC year of the modification time. -/
theorem C13_written_ahead_of_utc (format : TimeFormat) (modificationTime : UTCTime)
    (timeFirstLine timeLastLine : parser.Time) (middle : List (Option parser.Time))
    (h1 : secondInTheYear timeFirstLine.Month timeFirstLine.Day timeFirstLine.Hour
        timeFirstLine.Minute timeFirstLine.Second
      ≤ secondInTheYear timeLastLine.Month timeLastLine.Day timeLastLine.Hour
        timeLastLine.Minute timeLastLine.Second)
    (h2 : secondsInTheYearForTime modificationTime
      ≤ secondInTheYear timeLastLine.Month timeLastLine.Day timeLastLine.Hour
        timeLastLine.Minute timeLastLine.Second)
    (h3 : secondInTheYear timeLastLine.Month timeLastLine.Day timeLastLine.Hour
        timeLastLine.Minute timeLastLine.Second
      ≤ secondsInTheYearForTime modificationTime.add12Hours) :
    guessInitialDateForFile format (some timeFirstLine :: (middle ++ [some timeLastLine]))
        modificationTime
      = Except.ok (format.ConvertWithYear timeFirstLine modificationTime.year) := by
  rw [guessInitialDateForFile_many]
  simp only
  have hy : manyLinesYear modificationTime timeFirstLine timeLastLine = modificationTime.year := by
    unfold manyLinesYear basicOffset ordered
    simp only
    have hadj : modificationTime.add12Hours.year = modificationTime.year := by
      rcases add12Hours_year modificationTime with h | ⟨_, hm, hd, _, hs⟩
      · exact h
      · exfalso
        have hdec := secondsInTheYear_december modificationTime hm hd
        rw [hs] at h3
        omega
    rw [hadj]
    have hcase :
        (decide (secondInTheYear timeFirstLine.Month timeFirstLine.Day timeFirstLine.Hour
              timeFirstLine.Minute timeFirstLine.Second ≤ secondsInTheYearForTime modificationTime ∧
            secondsInTheYearForTime modificationTime
              ≤ secondInTheYear timeLastLine.Month timeLastLine.Day timeLastLine.Hour
                  timeLastLine.Minute timeLastLine.Second) = true) ∨
        (decide (secondsInTheYearForTime modificationTime
              ≤ secondInTheYear timeFirstLine.Month timeFirstLine.Day timeFirstLine.Hour
                  timeFirstLine.Minute timeFirstLine.Second ∧
            secondInTheYear timeFirstLine.Month timeFirstLine.Day timeFirstLine.Hour
                timeFirstLine.Minute timeFirstLine.Second
              ≤ secondInTheYear timeLastLine.Month timeLastLine.Day timeLastLine.Hour
                  timeLastLine.Minute timeLastLine.Second) = true) := by
      simp only [decide_eq_true_eq]
      by_cases hc : secondInTheYear timeFirstLine.Month timeFirstLine.Day timeFirstLine.Hour
          timeFirstLine.Minute timeFirstLine.Second ≤ secondsInTheYearForTime modificationTime
      · exact Or.inl ⟨hc, h2⟩
      · exact Or.inr ⟨by omega, h1⟩
    rw [if_pos hcase, if_pos ⟨h1, h3⟩]
    omega
  rw [hy]

theorem C13_written_ahead_of_utc_witness :
    (secondInTheYear Month.February 28 22 8 56 ≤ secondInTheYear Month.February 28 22 43 31 ∧
      secondsInTheYearForTime (UTCTime.mk 2019 Month.February 28 21 43 31)
        ≤ secondInTheYear Month.February 28 22 43 31 ∧
      secondInTheYear Month.February 28 22 43 31
        ≤ secondsInTheYearForTime (UTCTime.mk 2019 Month.February 28 21 43 31).add12Hours) ∧
    guessInitialDateForFile plainTimeFormat
        (some (parser.Time.mk Month.February 28 22 8 56) ::
          ([some (parser.Time.mk Month.February 28 22 39 44)] ++
            [some (parser.Time.mk Month.February 28 22 43 31)]))
        (UTCTime.mk 2019 Month.February 28 21 43 31)
      = Except.ok (plainTimeFormat.ConvertWithYear (parser.Time.mk Month.February 28 22 8 56)
          (UTCTime.mk 2019 Month.February 28 21 43 31).year) :=
  ⟨⟨by decide, by decide, by decide⟩,
   C13_written_ahead_of_utc plainTimeFormat (UTCTime.mk 2019 Month.February 28 21 43 31)
     (parser.Time.mk Month.February 28 22 8 56) (parser.Time.mk Month.February 28 22 43 31)
     [some (parser.Time.mk Month.February 28 22 39 44)] (by decide) (by decide) (by decide)⟩

/-! ## Detective: folding rows into messages -/

theorem findQueue_none (q : String) (ms : List Message) :
    ∀ i : Nat, findQueue q ms i = none → ∀ m ∈ ms, m.Queue ≠ q := by
  induction ms with
  | nil => intro i _ m hm; cases hm
  | cons v rest ih =>
    intro i h m hm
    simp only [findQueue] at h
    by_cases hv : v.Queue = q
    · rw [if_pos hv] at h; cases h
    · rw [if_neg hv] at h
      rcases List.mem_cons.1 hm with rfl | hm
      · exact hv
      · exact ih (i + 1) h m hm

theorem findQueue_some (q : String) (d : MessageDelivery) (ms : List Message) :
    ∀ i j : Nat, findQueue q ms i = some j → (ms.map (fun m => m.Queue)).Nodup →
      ∃ k, j = i + k ∧ (∃ m ∈ ms, m.Queue = q) ∧
        appendEntry d ms k
          = ms.map (fun m => if m.Queue = q then { m with Entries := m.Entries ++ [d] } else m) := by
  induction ms with
  | nil => intro i j h; simp [findQueue] at h
  | cons v rest ih =>
    intro i j h hnd
    simp only [List.map_cons, List.nodup_cons] at hnd
    simp only [findQueue] at h
    by_cases hv : v.Queue = q
    · rw [if_pos hv] at h
      refine ⟨0, by simpa using (Option.some.inj h).symm, ⟨v, List.mem_cons_self _ _, hv⟩, ?_⟩
      simp only [appendEntry, List.map_cons, if_pos hv]
      congr 1
      have hid : ∀ m ∈ rest,
          (fun m : Message =>
            if m.Queue = q then { m with Entries := m.Entries ++ [d] } else m) m = id m := by
        intro m hm
        have : m.Queue ≠ q := by
          intro hq
          apply hnd.1
          rw [hv, ← hq]
          exact List.mem_map_of_mem (fun m => m.Queue) hm
        simp only [if_neg this, id]
      rw [List.map_congr_left hid, List.map_id]
    · rw [if_neg hv] at h
      obtain ⟨k, hk, hex, happ⟩ := ih (i + 1) j h hnd.2
      obtain ⟨m, hm, hmq⟩ := hex
      refine ⟨k + 1, by omega, ⟨m, List.mem_cons_of_mem _ hm, hmq⟩, ?_⟩
      simp only [appendEntry, List.map_cons, if_neg hv, happ]

theorem appendEntry_new (q mid : String) (d : MessageDelivery) (ms : List Message)
    (h : ∀ m ∈ ms, m.Queue ≠ q) :
    appendEntry d (ms ++ [{ Queue := q, MessageID := mid, Entries := [] }]) ms.length
      = ms ++ [{ Queue := q, MessageID := mid, Entries := [d] }] := by
  induction ms with
  | nil => simp [appendEntry]
  | cons v rest ih =>
    show v :: appendEntry d (rest ++ [{ Queue := q, MessageID := mid, Entries := [] }]) rest.length
      = v :: (rest ++ [{ Queue := q, MessageID := mid, Entries := [d] }])
    rw [ih (fun m hm => h m (List.mem_cons_of_mem _ hm))]

theorem processRow_ok (codes : StatusCodes) (acc : Accessor) (st st2 : rowsState)
    (row : resultRow) (h : processRow codes acc st row = Except.ok st2)
    (hnd : (st.messages.map (fun m => m.Queue)).Nodup) :
    ∃ d, deliveryOfRow codes acc row = Except.ok d ∧ st2.total = row.total ∧
      (((∃ m ∈ st.messages, m.Queue = row.queueName) ∧ st2.grouped = st.grouped + 1 ∧
          st2.messages = st.messages.map (fun m =>
            if m.Queue = row.queueName then { m with Entries := m.Entries ++ [d] } else m)) ∨
        ((∀ m ∈ st.messages, m.Queue ≠ row.queueName) ∧ st2.grouped = st.grouped ∧
          st2.messages = st.messages ++
            [{ Queue := row.queueName, MessageID := row.messageID, Entries := [d] }])) := by
  unfold processRow at h
  cases hd : deliveryOfRow codes acc row with
  | error e => rw [hd] at h; cases h
  | ok d =>
    rw [hd] at h
    simp only [Except.ok.injEq] at h
    refine ⟨d, rfl, by rw [← h], ?_⟩
    cases hf : findQueue row.queueName st.messages 0 with
    | none =>
      right
      have hno := findQueue_none row.queueName st.messages 0 hf
      rw [hf] at h
      simp only at h
      rw [appendEntry_new row.queueName row.messageID d st.messages hno] at h
      exact ⟨hno, by rw [← h], by rw [← h]⟩
    | some j =>
      left
      obtain ⟨k, hk, hex, happ⟩ := findQueue_some row.queueName d st.messages 0 j hf hnd
      rw [hf] at h
      simp only at h
      have hjk : j = k := by omega
      rw [hjk, happ] at h
      exact ⟨hex, by rw [← h], by rw [← h]⟩

theorem rowsInvariant_step (codes : StatusCodes) (acc : Accessor) (pre : List resultRow)
    (st st2 : rowsState) (row : resultRow)
    (hinv : rowsInvariant codes acc pre st)
    (h : processRow codes acc st row = Except.ok st2) :
    rowsInvariant codes acc (pre ++ [row]) st2 := by
  obtain ⟨hnd, hent, hmem, hord, hgr, _⟩ := hinv
  obtain ⟨d, hd, htot, hcase⟩ := processRow_ok codes acc st st2 row h hnd
  have hidx : ∀ a, a ∈ pre.map (fun r => r.queueName) →
      ((pre ++ [row]).map (fun r => r.queueName)).indexOf a
        = (pre.map (fun r => r.queueName)).indexOf a := by
    intro a ha
    rw [List.map_append]
    exact List.indexOf_append_of_mem ha
  have hord2 : (st.messages.map (fun m => m.Queue)).Pairwise
      (fun a b => ((pre ++ [row]).map (fun r => r.queueName)).indexOf a
        < ((pre ++ [row]).map (fun r => r.queueName)).indexOf b) := by
    refine List.Pairwise.imp_of_mem ?_ hord
    intro a b ha hb hab
    rw [hidx a ((hmem a).1 ha), hidx b ((hmem b).1 hb)]
    exact hab
  have hlast : st2.total = (((pre ++ [row]).getLast?).map (fun r => r.total)).getD 0 := by
    rw [List.getLast?_append]
    simp [htot]
  rcases hcase with ⟨hex, hg, hms⟩ | ⟨hno, hg, hms⟩
  · have hq : (st2.messages.map (fun m => m.Queue)) = st.messages.map (fun m => m.Queue) := by
      rw [hms, List.map_map]
      apply List.map_congr_left
      intro m _
      simp only [Function.comp]
      split <;> rfl
    refine ⟨by rw [hq]; exact hnd, ?_, ?_, by rw [hq]; exact hord2, ?_, hlast⟩
    · intro m2 hm2
      rw [hms] at hm2
      obtain ⟨m, hm, rfl⟩ := List.mem_map.1 hm2
      have hm0 := hent m hm
      by_cases hmq : m.Queue = row.queueName
      · simp only [if_pos hmq, List.map_append, List.map_cons, List.map_nil, List.filter_append,
          hm0]
        rw [List.filter_cons_of_pos (by simp [hmq])]
        simp [hd]
      · simp only [if_neg hmq, List.filter_append, List.map_append, hm0]
        rw [List.filter_cons_of_neg (by simp; exact fun h => hmq h.symm)]
        simp
    · intro q
      rw [hq, hmem q]
      simp only [List.map_append, List.mem_append, List.map_cons, List.map_nil,
        List.mem_singleton]
      constructor
      · intro h1; exact Or.inl h1
      · rintro (h1 | h1)
        · exact h1
        · obtain ⟨m, hm, hmq⟩ := hex
          rw [h1, ← hmq]
          exact (hmem _).1 (List.mem_map_of_mem (fun m => m.Queue) hm)
    · rw [hg, hgr, hms]
      simp only [List.length_append, List.length_map, List.length_singleton]
      push_cast
      omega
  · have hqnot : row.queueName ∉ st.messages.map (fun m => m.Queue) := by
      intro hin
      obtain ⟨m, hm, hmq⟩ := List.mem_map.1 hin
      exact hno m hm hmq
    have hqpre : row.queueName ∉ pre.map (fun r => r.queueName) :=
      fun hin => hqnot ((hmem _).2 hin)
    have hq : (st2.messages.map (fun m => m.Queue))
        = st.messages.map (fun m => m.Queue) ++ [row.queueName] := by
      rw [hms]; simp
    refine ⟨?_, ?_, ?_, ?_, ?_, hlast⟩
    · rw [hq]
      exact List.Nodup.append hnd (List.nodup_singleton _)
        (by
          intro a ha hb
          rw [List.mem_singleton] at hb
          exact hqnot (hb ▸ ha))
    · intro m2 hm2
      rw [hms] at hm2
      rcases List.mem_append.1 hm2 with hm | hm
      · have hmq : m2.Queue ≠ row.queueName := hno m2 hm
        rw [List.filter_append, List.map_append, ← hent m2 hm]
        rw [List.filter_cons_of_neg (by simp; exact fun h => hmq h.symm)]
        simp
      · rw [List.mem_singleton] at hm
        subst hm
        simp only [List.map_cons, List.map_nil]
        rw [List.filter_append]
        have hnone : pre.filter (fun r => decide (r.queueName = row.queueName)) = [] := by
          rw [List.filter_eq_nil_iff]
          intro r hr hrq
          apply hqpre
          simp only [decide_eq_true_eq] at hrq
          rw [← hrq]
          exact List.mem_map_of_mem (fun r => r.queueName) hr
        rw [hnone, List.filter_cons_of_pos (by simp)]
        simp [hd]
    · intro q
      rw [hq]
      simp only [List.mem_append, List.mem_singleton, List.map_append, List.map_cons,
        List.map_nil]
      rw [hmem q]
    · rw [hq, List.pairwise_append]
      refine ⟨hord2, List.pairwise_singleton _ _, ?_⟩
      intro a ha b hb
      rw [List.mem_singleton] at hb
      subst hb
      have hain := (hmem a).1 ha
      rw [hidx a hain]
      have h1 : (pre.map (fun r => r.queueName)).indexOf a < (pre.map (fun r => r.queueName)).length :=
        List.indexOf_lt_length.2 hain
      have h2 : ((pre ++ [row]).map (fun r => r.queueName)).indexOf row.queueName
          = (pre.map (fun r => r.queueName)).length := by
        rw [List.map_append, List.indexOf_append_of_not_mem hqpre]
        simp
      rw [h2]
      exact h1
    · rw [hg, hgr, hms]
      simp only [List.length_append, List.length_singleton]
      push_cast
      omega

theorem processRows_invariant (codes : StatusCodes) (acc : Accessor) (rows : List resultRow) :
    ∀ (pre : List resultRow) (st st2 : rowsState),
      rowsInvariant codes acc pre st →
      processRows codes acc st rows = Except.ok st2 →
      rowsInvariant codes acc (pre ++ rows) st2 := by
  induction rows with
  | nil =>
    intro pre st st2 hinv h
    simp only [processRows, Except.ok.injEq] at h
    subst h
    simpa using hinv
  | cons row rest ih =>
    intro pre st st2 hinv h
    simp only [processRows] at h
    cases hstep : processRow codes acc st row with
    | error e => rw [hstep] at h; cases h
    | ok next =>
      rw [hstep] at h
      have := ih (pre ++ [row]) next st2 (rowsInvariant_step codes acc pre st next row hinv hstep) h
      simpa using this

theorem rowsInvariant_init (codes : StatusCodes) (acc : Accessor) :
    rowsInvariant codes acc [] { total := 0, grouped := 0, messages := [] } := by
  unfold rowsInvariant
  simp

theorem deliveryOfRow_status (codes : StatusCodes) (acc : Accessor) (row : resultRow)
    (d : MessageDelivery) (h : deliveryOfRow codes acc row = Except.ok d) :
    d.Status = overlayStatus codes row := by
  unfold deliveryOfRow at h
  split at h
  · cases h
  · split at h
    · cases h
    · split at h
      · cases h
      · split at h
        · cases h
        · cases h; rfl

/-- C15: the status of the delivery built from a result row is replied if the
`is_reply` flag is set; otherwise returned if the `returned` flag is set;
otherwise received if the direction is inbound; otherwise the stored status. -/
theorem C15_status_overlay (codes : StatusCodes) (acc : Accessor) (row : resultRow)
    (d : MessageDelivery) (h : deliveryOfRow codes acc row = Except.ok d) :
    d.Status =
      if row.isReply = true then codes.RepliedStatus
      else if row.returned = true then codes.ReturnedStatus
      else if row.direction = codes.MessageDirectionIncoming then codes.ReceivedStatus
      else row.status := by
  rw [deliveryOfRow_status codes acc row d h]
  unfold overlayStatus
  cases row.isReply <;> cases row.returned <;> simp

theorem C15_status_overlay_witness :
    deliveryOfRow sampleCodes emptyAccessor
        { sampleRow "A" 0 with direction := 1, returned := false, isReply := true }
      = Except.ok
          { NumberOfAttempts := 1, TimeMin := 10, TimeMax := 10, Status := 5, Dsn := "2.0.0",
            Relays := ["local"], Expired := none, MailFrom := "a@b.c", MailTo := ["d@e.f"],
            RawLogMsgs := [] } ∧
    (5 : Int) =
      if ({ sampleRow "A" 0 with direction := 1, returned := false, isReply := true } :
            resultRow).isReply = true then sampleCodes.RepliedStatus
      else if ({ sampleRow "A" 0 with direction := 1, returned := false, isReply := true } :
            resultRow).returned = true then sampleCodes.ReturnedStatus
      else if ({ sampleRow "A" 0 with direction := 1, returned := false, isReply := true } :
            resultRow).direction = sampleCodes.MessageDirectionIncoming then
        sampleCodes.ReceivedStatus
      else ({ sampleRow "A" 0 with direction := 1, returned := false, isReply := true } :
            resultRow).status :=
  ⟨rfl,
   C15_status_overlay sampleCodes emptyAccessor
     { sampleRow "A" 0 with direction := 1, returned := false, isReply := true }
     { NumberOfAttempts := 1, TimeMin := 10, TimeMax := 10, Status := 5, Dsn := "2.0.0",
       Relays := ["local"], Expired := none, MailFrom := "a@b.c", MailTo := ["d@e.f"],
       RawLogMsgs := [] } rfl⟩

theorem checkMessageDelivery_ok (codes : StatusCodes) (acc : Accessor) (rows : List resultRow)
    (page limit : Int) (p : MessagesPage)
    (h : checkMessageDelivery codes acc rows page limit = Except.ok p) :
    ∃ st, processRows codes acc { total := 0, grouped := 0, messages := [] } rows = Except.ok st ∧
      limit ≠ 0 ∧
      p = { PageNumber := page, FirstPage := 1, LastPage := Int.tdiv st.total limit + 1,
            TotalResults := st.total - st.grouped, Messages := st.messages } := by
  unfold checkMessageDelivery at h
  cases hst : processRows codes acc { total := 0, grouped := 0, messages := [] } rows with
  | error e => rw [hst] at h; cases h
  | ok st =>
    rw [hst] at h
    simp only at h
    by_cases hl : limit = 0
    · rw [if_pos hl] at h; cases h
    · rw [if_neg hl] at h
      exact ⟨st, rfl, hl, (Except.ok.inj h).symm⟩

/-- C17: in the page `checkMessageDelivery` returns for the rows of one page,
no two messages share a queue; the messages are in the order of the first row
of their queues; every row's queue has its message; the entries of a message
are the deliveries of the rows of its queue, in row order; and the number of
folded rows (`grouped`) is the number of rows minus the number of messages. -/
theorem C17_rows_folded_by_queue (codes : StatusCodes) (acc : Accessor)
    (rows : List resultRow) (page limit : Int) (p : MessagesPage)
    (h : checkMessageDelivery codes acc rows page limit = Except.ok p) :
    (p.Messages.map (fun m => m.Queue)).Nodup ∧
    (p.Messages.map (fun m => m.Queue)).Pairwise
      (fun a b => (rows.map (fun r => r.queueName)).indexOf a
        < (rows.map (fun r => r.queueName)).indexOf b) ∧
    (∀ r ∈ rows, ∃ m ∈ p.Messages, m.Queue = r.queueName) ∧
    (∀ m ∈ p.Messages,
      m.Entries.map Except.ok
        = (rows.filter (fun r => decide (r.queueName = m.Queue))).map
            (deliveryOfRow codes acc)) ∧
    (∃ st, processRows codes acc { total := 0, grouped := 0, messages := [] } rows
        = Except.ok st ∧
      st.messages = p.Messages ∧
      st.grouped = (rows.length : Int) - (p.Messages.length : Int) ∧
      p.TotalResults = st.total - st.grouped) := by
  obtain ⟨st, hst, _, hp⟩ := checkMessageDelivery_ok codes acc rows page limit p h
  have hinv := processRows_invariant codes acc rows [] _ st (rowsInvariant_init codes acc) hst
  simp only [List.nil_append] at hinv
  obtain ⟨hnd, hent, hmem, hord, hgr, _⟩ := hinv
  have hm : p.Messages = st.messages := by rw [hp]
  rw [hm]
  refine ⟨hnd, hord, ?_, hent, st, hst, rfl, hgr, by rw [hp]⟩
  intro r hr
  have := (hmem r.queueName).2 (List.mem_map_of_mem (fun r => r.queueName) hr)
  obtain ⟨m, hm1, hm2⟩ := List.mem_map.1 this
  exact ⟨m, hm1, hm2⟩

theorem C17_rows_folded_by_queue_witness :
    checkMessageDelivery sampleCodes emptyAccessor samplePageRows 1 100 = Except.ok samplePage ∧
    ((samplePage.Messages.map (fun m => m.Queue)).Nodup ∧
    (samplePage.Messages.map (fun m => m.Queue)).Pairwise
      (fun a b => (samplePageRows.map (fun r => r.queueName)).indexOf a
        < (samplePageRows.map (fun r => r.queueName)).indexOf b) ∧
    (∀ r ∈ samplePageRows, ∃ m ∈ samplePage.Messages, m.Queue = r.queueName) ∧
    (∀ m ∈ samplePage.Messages,
      m.Entries.map Except.ok
        = (samplePageRows.filter (fun r => decide (r.queueName = m.Queue))).map
            (deliveryOfRow sampleCodes emptyAccessor)) ∧
    (∃ st, processRows sampleCodes emptyAccessor { total := 0, grouped := 0, messages := [] }
          samplePageRows = Except.ok st ∧
      st.messages = samplePage.Messages ∧
      st.grouped = (samplePageRows.length : Int) - (samplePage.Messages.length : Int) ∧
      samplePage.TotalResults = st.total - st.grouped)) :=
  ⟨rfl, C17_rows_folded_by_queue sampleCodes emptyAccessor samplePageRows 1 100 samplePage rfl⟩

/-- C16 fails on the code: the query result has three rows, two of queue `A`
and one of queue `B`, that is two messages.  With a page size of 2, page 1
holds the two rows of `A` and reports `total = 3 - 1 = 2`; page 2 holds the
row of `B`, nothing is folded on that page, and it reports `total = 3`. -/
theorem C16_total_depends_on_page :
    ((sampleResult.map (fun r => r.queueName)).dedup).length = 2 ∧
    (checkMessageDeliveryPage sampleCodes emptyAccessor sampleResult 1 2).toOption.map
        (fun p => (p.LastPage, p.TotalResults)) = some (2, 2) ∧
    (checkMessageDeliveryPage sampleCodes emptyAccessor sampleResult 2 2).toOption.map
        (fun p => (p.LastPage, p.TotalResults)) = some (2, 3) := by
  refine ⟨by decide, by rfl, by rfl⟩

theorem pageOffset_succ (k limit : Nat) :
    pageOffset ((k : Int) + 1) (limit : Int) = ((k * limit : Nat) : Int) := by
  unfold pageOffset
  push_cast
  ring

theorem queryRows_page (result : List resultRow) (k limit : Nat) :
    queryRows result (limit : Int) (pageOffset ((k : Int) + 1) (limit : Int))
      = ((result.drop (k * limit)).take limit).map
          (fun row => { row with total := (result.length : Int) }) := by
  rw [pageOffset_succ]
  unfold queryRows
  have h : ¬ ((limit : Int) < 0) := by omega
  rw [if_neg h, Int.toNat_ofNat, Int.toNat_ofNat, List.map_take, List.map_drop]

theorem pages_concat (result : List resultRow) (limit : Nat) (n : Nat) :
    (List.range n).flatMap (fun k => (result.drop (k * limit)).take limit)
      = result.take (n * limit) := by
  induction n with
  | zero => simp
  | succ n ih =>
    rw [List.range_succ, List.flatMap_append, ih]
    simp only [List.flatMap_cons, List.flatMap_nil, List.append_nil]
    rw [Nat.succ_mul, List.take_add]

/-- C18: for a page size `limit > 0` and a result of `total` rows, the last
page computed by the code is `total/limit + 1`; the row windows
`[offset, offset + limit)` of two different pages, `offset = (page-1)*limit`,
do not overlap; every row index below `total` lies in the window of a page
between 1 and the last page; and the rows of the pages 1 to the last page,
concatenated, are the rows of the whole result, none lost and none repeated. -/
theorem C18_pages_partition (result : List resultRow) (limit : Nat) (hl : 0 < limit) :
    Int.tdiv (result.length : Int) (limit : Int) + 1 = ((result.length / limit + 1 : Nat) : Int) ∧
    (∀ p q : Int, 1 ≤ p → p < q →
      pageOffset p (limit : Int) + (limit : Int) ≤ pageOffset q (limit : Int)) ∧
    (∀ i : Nat, i < result.length →
      i / limit + 1 ≤ result.length / limit + 1 ∧
      pageOffset (((i / limit : Nat) : Int) + 1) (limit : Int) ≤ (i : Int) ∧
      (i : Int) < pageOffset (((i / limit : Nat) : Int) + 1) (limit : Int) + (limit : Int)) ∧
    (List.range (result.length / limit + 1)).flatMap
        (fun k => queryRows result (limit : Int) (pageOffset ((k : Int) + 1) (limit : Int)))
      = queryRows result (-1) 0 := by
  refine ⟨?_, ?_, ?_, ?_⟩
  · rw [← Int.ofNat_tdiv]
    push_cast
    rfl
  · intro p q hp hpq
    unfold pageOffset
    have h1 : p ≤ q - 1 := by omega
    have h2 : p * (limit : Int) ≤ (q - 1) * (limit : Int) :=
      Int.mul_le_mul_of_nonneg_right h1 (by omega)
    have h3 : (p - 1) * (limit : Int) + (limit : Int) = p * (limit : Int) := by ring
    rw [h3]
    exact h2
  · intro i hi
    rw [pageOffset_succ]
    have h1 : i / limit * limit ≤ i := Nat.div_mul_le_self i limit
    have h2 : i < (i / limit + 1) * limit := by
      have hd := Nat.div_add_mod i limit
      have hm := Nat.mod_lt i hl
      rw [Nat.succ_mul, Nat.mul_comm]
      omega
    refine ⟨?_, ?_, ?_⟩
    · exact Nat.succ_le_succ (Nat.div_le_div_right (le_of_lt hi))
    · exact_mod_cast h1
    · have : ((i / limit + 1) * limit : Nat) = i / limit * limit + limit := by ring
      rw [this] at h2
      exact_mod_cast h2
  · have hfun : (fun (k : Nat) => queryRows result (limit : Int) (pageOffset ((k : Int) + 1) (limit : Int)))
        = (fun (k : Nat) => ((result.drop (k * limit)).take limit).map
            (fun (row : resultRow) => { row with total := (result.length : Int) })) := by
      funext k
      exact queryRows_page result k limit
    rw [hfun, ← List.map_flatMap, pages_concat]
    have hlen : result.length ≤ (result.length / limit + 1) * limit := by
      have hd := Nat.div_add_mod result.length limit
      have hm := Nat.mod_lt result.length hl
      rw [Nat.succ_mul, Nat.mul_comm]
      omega
    rw [List.take_of_length_le hlen]
    unfold queryRows
    simp

theorem C18_pages_partition_witness :
    0 < 2 ∧
    (Int.tdiv (sampleResult.length : Int) ((2 : Nat) : Int) + 1
        = ((sampleResult.length / 2 + 1 : Nat) : Int) ∧
    (∀ p q : Int, 1 ≤ p → p < q →
      pageOffset p ((2 : Nat) : Int) + ((2 : Nat) : Int) ≤ pageOffset q ((2 : Nat) : Int)) ∧
    (∀ i : Nat, i < sampleResult.length →
      i / 2 + 1 ≤ sampleResult.length / 2 + 1 ∧
      pageOffset (((i / 2 : Nat) : Int) + 1) ((2 : Nat) : Int) ≤ (i : Int) ∧
      (i : Int) < pageOffset (((i / 2 : Nat) : Int) + 1) ((2 : Nat) : Int) + ((2 : Nat) : Int)) ∧
    (List.range (sampleResult.length / 2 + 1)).flatMap
        (fun k => queryRows sampleResult ((2 : Nat) : Int)
          (pageOffset ((k : Int) + 1) ((2 : Nat) : Int)))
      = queryRows sampleResult (-1) 0) :=
  ⟨by decide, C18_pages_partition sampleResult 2 (by decide)⟩

theorem parseLogRefsLoop_eq (acc : Accessor) (logRefs : List logRef) :
    parseLogRefsLoop acc logRefs =
      if (validRefs logRefs).any
          (fun ref => decide ((acc ref.Time ref.Checksum).2 = some AccessorError.other)) then
        Except.error DetectiveError.rawLogs
      else Except.ok ((validRefs logRefs).map (fun ref => (acc ref.Time ref.Checksum).1)) := by
  induction logRefs with
  | nil => rfl
  | cons ref rest ih =>
    unfold parseLogRefsLoop
    by_cases hinv : ref.Invalid = 1
    · rw [if_pos hinv, ih]
      simp [validRefs, hinv]
    · rw [if_neg hinv, ih]
      have hv : validRefs (ref :: rest) = ref :: validRefs rest := by
        simp [validRefs, hinv]
      rw [hv]
      rcases hacc : acc ref.Time ref.Checksum with ⟨line, err⟩
      rcases err with _ | e
      · by_cases hany : (validRefs rest).any
            (fun ref => decide ((acc ref.Time ref.Checksum).2 = some AccessorError.other)) = true
        · simp [hacc, hany]
        · simp [hacc, hany]
      · cases e
        · by_cases hany : (validRefs rest).any
              (fun ref => decide ((acc ref.Time ref.Checksum).2 = some AccessorError.other)) = true
          · simp [hacc, hany]
          · simp [hacc, hany]
        · simp [hacc]

/-- C19 as stated fails on the code: a reference whose lookup reports
`ErrLogLineNotFound` is not omitted, the line returned with the error is
appended; the accessor finds one line for two valid references and
`parseLogRefs` returns two entries. -/
theorem C19_counterexample :
    parseLogRefs sampleAccessor (some [⟨1, 2, 0⟩, ⟨9, 9, 0⟩])
      = Except.ok ["postfix/smtp: sent", ""] := by
  rfl

/-- C19, amended: `parseLogRefs` fails when the JSON array does not decode;
otherwise it fails when the lookup of some reference not marked invalid
reports an error other than `ErrLogLineNotFound`, and else returns, in order,
one entry for every reference not marked invalid, namely the line the lookup
returned, also when the lookup reported `ErrLogLineNotFound`. -/
theorem C19_log_refs (acc : Accessor) (logRefs : List logRef) :
    parseLogRefs acc none = Except.error DetectiveError.json ∧
    parseLogRefs acc (some logRefs) =
      if (validRefs logRefs).any
          (fun ref => decide ((acc ref.Time ref.Checksum).2 = some AccessorError.other)) then
        Except.error DetectiveError.rawLogs
      else Except.ok ((validRefs logRefs).map (fun ref => (acc ref.Time ref.Checksum).1)) :=
  ⟨rfl, parseLogRefsLoop_eq acc logRefs⟩

/-- C20 as stated fails on the code: with the expired status requested, an
outbound delivery whose stored status is the expired one passes the selector
through its first case, with no row at all in `expired_queues`. -/
theorem C20_counterexample :
    statusSelector sampleCodes sampleCodes.ExpiredStatus [] [] expiredDelivery = true ∧
    ¬ expiredDelivery.queue_id ∈ ([] : List Int) := by
  decide

/-- C20, amended: when the expired status differs from the received status,
the replied status and the no-status value, a delivery passes the status
selector for the requested status expired exactly when its queue has a row in
`expired_queues`, or its own stored status is the expired one and it is
outbound. -/
theorem C20_expired_selector (codes : StatusCodes) (messageids_replies expired_queues : List Int)
    (d : deliveryRow)
    (hrec : codes.ExpiredStatus ≠ codes.ReceivedStatus)
    (hrep : codes.ExpiredStatus ≠ codes.RepliedStatus)
    (hno : codes.ExpiredStatus ≠ NoStatus) :
    statusSelector codes codes.ExpiredStatus messageids_replies expired_queues d = true ↔
      (d.queue_id ∈ expired_queues ∨
        (d.status = codes.ExpiredStatus ∧ d.direction = codes.MessageDirectionOutbound)) := by
  unfold statusSelector
  simp only [Bool.or_eq_true, Bool.and_eq_true, decide_eq_true_eq, Bool.not_eq_true',
    Bool.or_eq_false_iff, decide_eq_false_iff_not, List.any_eq_true]
  constructor
  · rintro ((((h | h) | h) | h) | h)
    · exact Or.inr ⟨h.1.1, h.2⟩
    · exact absurd h.1 hrec
    · exact absurd h.1.1.1 hrep
    · exact absurd h hno
    · obtain ⟨_, q, hq, hqe⟩ := h
      exact Or.inl (hqe ▸ hq)
  · rintro (h | ⟨hs, hd⟩)
    · exact Or.inr ⟨trivial, d.queue_id, h, rfl⟩
    · refine Or.inl (Or.inl (Or.inl (Or.inl ⟨⟨hs, ?_, ?_⟩, hd⟩)))
      · rw [hs]; exact hrec
      · rw [hs]; exact hrep

theorem C20_expired_selector_witness :
    sampleCodes.ExpiredStatus ≠ sampleCodes.ReceivedStatus ∧
    sampleCodes.ExpiredStatus ≠ sampleCodes.RepliedStatus ∧
    sampleCodes.ExpiredStatus ≠ NoStatus ∧
    (statusSelector sampleCodes sampleCodes.ExpiredStatus [] [1] expiredDelivery = true ↔
      (expiredDelivery.queue_id ∈ [1] ∨
        (expiredDelivery.status = sampleCodes.ExpiredStatus ∧
          expiredDelivery.direction = sampleCodes.MessageDirectionOutbound))) :=
  ⟨by decide, by decide, by decide,
    C20_expired_selector sampleCodes [] [1] expiredDelivery (by decide) (by decide) (by decide)⟩

theorem scanUntilParsed_lines (f : List LogLine) :
    ∀ (n : Nat),
      (∀ t text m f2, scanUntilParsed f n = some (t, text, m, f2) →
        f.filterMap (fun l => l.time.map (fun t => (t, l.text)))
          = (t, text) :: f2.filterMap (fun l => l.time.map (fun t => (t, l.text)))) ∧
      (scanUntilParsed f n = none →
        f.filterMap (fun l => l.time.map (fun t => (t, l.text))) = []) := by
  induction f with
  | nil =>
    intro n
    refine ⟨?_, fun _ => rfl⟩
    intro t text m f2 h
    simp [scanUntilParsed] at h
  | cons l ls ih =>
    intro n
    cases hl : l.time with
    | none =>
      have h1 : scanUntilParsed (l :: ls) n = scanUntilParsed ls (n + 1) := by
        simp [scanUntilParsed, hl]
      rw [h1]
      have h2 : (l :: ls).filterMap (fun l => l.time.map (fun t => (t, l.text)))
          = ls.filterMap (fun l => l.time.map (fun t => (t, l.text))) := by
        simp [List.filterMap_cons, hl]
      rw [h2]
      exact ih (n + 1)
    | some t0 =>
      have h1 : scanUntilParsed (l :: ls) n = some (t0, l.text, n + 1, ls) := by
        simp [scanUntilParsed, hl]
      rw [h1]
      refine ⟨?_, fun h => by cases h⟩
      intro t text m f2 h
      cases h
      simp [List.filterMap_cons, hl]

theorem parsedLines_cons (f : List LogLine) (rest : List (List LogLine)) :
    parsedLines (f :: rest)
      = f.filterMap (fun l => l.time.map (fun t => (t, l.text))) ++ parsedLines rest := by
  simp [parsedLines, List.filterMap_append]

theorem updateQueueProcessorLoop_lines (fs : List (List LogLine)) :
    ∀ (p q : queueProcessor) (b : Bool), updateQueueProcessorLoop fs p = Except.ok (b, q) →
      (b = true → parsedLines fs = pendingLines q) ∧ (b = false → parsedLines fs = []) := by
  induction fs with
  | nil =>
    intro p q b h
    simp only [updateQueueProcessorLoop, Except.ok.injEq, Prod.mk.injEq] at h
    obtain ⟨rfl, _⟩ := h
    exact ⟨fun h => (by cases h), fun _ => rfl⟩
  | cons f rest ih =>
    intro p q b h
    have hscan := scanUntilParsed_lines f p.line
    cases hs : scanUntilParsed f p.line with
    | none =>
      rw [updateQueueProcessorLoop_cons_none f rest p hs] at h
      have hnil := hscan.2 hs
      have := ih _ _ _ h
      rw [parsedLines_cons, hnil, List.nil_append]
      exact this
    | some v =>
      obtain ⟨t, text, n, f2⟩ := v
      rcases updateQueueProcessorLoop_cons_some f rest p t text n f2 hs with
        ⟨e, he, _⟩ | ⟨c, hc, _⟩
      · rw [he] at h; cases h
      · rw [hc] at h
        simp only [Except.ok.injEq, Prod.mk.injEq] at h
        obtain ⟨rfl, rfl⟩ := h
        have hcons := hscan.1 t text n f2 hs
        refine ⟨fun _ => ?_, fun h => (by cases h)⟩
        rw [parsedLines_cons, hcons]
        simp only [pendingLines, recordKey]
        rw [parsedLines_cons]
        rfl

theorem updateQueueProcessor_lines (p q : queueProcessor) (b : Bool)
    (h : updateQueueProcessor p = Except.ok (b, q)) :
    (b = true → parsedLines p.scanners = pendingLines q) ∧
    (b = false → parsedLines p.scanners = []) := by
  unfold updateQueueProcessor at h
  simp only at h
  have := updateQueueProcessorLoop_lines _ _ _ _ h
  rw [setFileLocation_scanners] at this
  exact this

theorem updateQueueProcessors_lines (toBeUpdated : Int) (ps : List queueProcessor) :
    ∀ (i : Nat), (updateQueueProcessors toBeUpdated ps i).2.2 = none →
      (updateQueueProcessors toBeUpdated ps i).1.map pendingLines
        = (outstandingLines toBeUpdated ps i).filter (fun l => !l.isEmpty) := by
  induction ps with
  | nil => intro i _; rfl
  | cons p ps ih =>
    intro i
    simp only [updateQueueProcessors, outstandingLines]
    by_cases hc : toBeUpdated ≠ -1 ∧ (i : Int) ≠ toBeUpdated
    · rw [if_pos hc, if_pos hc]
      intro herr
      simp only [List.map_cons, ih (i + 1) herr]
      rw [List.filter_cons_of_pos (by simp [pendingLines])]
    · rw [if_neg hc, if_neg hc]
      cases hu : updateQueueProcessor p with
      | error e => intro herr; cases herr
      | ok bq =>
        obtain ⟨b, q⟩ := bq
        have hl := updateQueueProcessor_lines p q b hu
        cases b with
        | true =>
          intro herr
          simp only [List.map_cons, ih (i + 1) herr]
          rw [hl.1 rfl, List.filter_cons_of_pos (by simp [pendingLines])]
        | false =>
          rw [hl.2 rfl, List.filter_cons_of_neg (by simp)]
          simp only
          cases q.converter with
          | some c => exact ih (i + 1)
          | none =>
            simp only
            cases q.entries.getLast? with
            | none => exact ih (i + 1)
            | some e => exact ih (i + 1)

theorem drop_eq_cons_get {α : Type} (qs : List α) (i : Nat) (p : α) (rest : List α)
    (h : qs.drop i = p :: rest) : qs.get? i = some p ∧ qs.drop (i + 1) = rest := by
  constructor
  · have h1 : (qs.drop i).head? = some p := by rw [h]; rfl
    rw [List.head?_drop] at h1
    simpa using h1
  · have h2 : (qs.drop i).drop 1 = rest := by rw [h]; rfl
    rw [List.drop_drop] at h2
    simpa [Nat.add_comm] using h2

theorem chooseIndexLoop_oldest (qs : List queueProcessor) :
    ∀ (rest : List queueProcessor) (i : Nat) (chosen : Option Nat),
      qs.drop i = rest →
      (∀ c, chosen = some c → ∃ pc, qs.get? c = some pc ∧
        ∀ j pj, j < i → qs.get? j = some pj → pc.record.time ≤ pj.record.time) →
      (chosen = none → i = 0) →
      ∀ k pk, chooseIndexLoop qs rest i chosen = some k → qs.get? k = some pk →
        ∀ q ∈ qs, pk.record.time ≤ q.record.time := by
  intro rest
  induction rest with
  | nil =>
    intro i chosen hdrop hinv _ k pk hk hpk q hq
    cases chosen with
    | none => simp [chooseIndexLoop] at hk
    | some c =>
      simp only [chooseIndexLoop, Option.some.injEq] at hk
      subst hk
      obtain ⟨pc, hpc, hmin⟩ := hinv c rfl
      rw [hpc] at hpk
      cases hpk
      obtain ⟨j, hjq⟩ := List.mem_iff_get?.1 hq
      have hlen : qs.length ≤ i := List.drop_eq_nil_iff.1 hdrop
      have hjl : j < qs.length := by
        by_contra hcon
        rw [List.get?_eq_none.2 (by omega)] at hjq
        cases hjq
      exact hmin j q (by omega) hjq
  | cons p rest ih =>
    intro i chosen hdrop hinv h0 k pk hk hpk
    obtain ⟨hpi, hdrop2⟩ := drop_eq_cons_get qs i p rest hdrop
    cases chosen with
    | none =>
      have hi := h0 rfl
      subst hi
      simp only [chooseIndexLoop] at hk
      refine ih 1 (some 0) hdrop2 ?_ (fun h => by cases h) k pk hk hpk
      intro c hc
      cases hc
      refine ⟨p, hpi, ?_⟩
      intro j pj hj hpj
      have : j = 0 := by omega
      subst this
      rw [hpi] at hpj
      cases hpj
      exact le_refl _
    | some c =>
      obtain ⟨pc, hpc, hmin⟩ := hinv c rfl
      simp only [chooseIndexLoop, hpc] at hk
      refine ih (i + 1) _ hdrop2 ?_ (fun h => ?_) k pk hk hpk
      · intro d hd
        by_cases hafter : pc.record.time.After p.record.time = true
        · rw [if_pos hafter] at hd
          cases hd
          have hlt : p.record.time < pc.record.time := by
            simpa [Time.After] using hafter
          refine ⟨p, hpi, ?_⟩
          intro j pj hj hpj
          by_cases hji : j = i
          · subst hji
            rw [hpi] at hpj
            cases hpj
            exact le_refl _
          · exact le_trans (le_of_lt hlt) (hmin j pj (by omega) hpj)
        · rw [if_neg hafter] at hd
          cases hd
          have hle : pc.record.time ≤ p.record.time := by
            have : ¬ p.record.time < pc.record.time := by
              simpa [Time.After] using hafter
            exact not_lt.1 this
          refine ⟨pc, hpc, ?_⟩
          intro j pj hj hpj
          by_cases hji : j = i
          · subst hji
            rw [hpi] at hpj
            cases hpj
            exact hle
          · exact hmin j pj (by omega) hpj
      · split at h <;> cases h

theorem chooseIndexForOldestElement_oldest (qs : List queueProcessor) (k : Nat)
    (pk : queueProcessor) (hk : chooseIndexForOldestElement qs = some k)
    (hpk : qs.get? k = some pk) :
    ∀ q ∈ qs, pk.record.time ≤ q.record.time := by
  unfold chooseIndexForOldestElement at hk
  exact chooseIndexLoop_oldest qs qs 0 none rfl (fun c h => by cases h) (fun _ => rfl) k pk hk hpk

theorem outstandingLines_first (ps : List queueProcessor) :
    ∀ (i : Nat), outstandingLines (-1) ps i = ps.map (fun p => parsedLines p.scanners) := by
  induction ps with
  | nil => intro i; rfl
  | cons p ps ih =>
    intro i
    simp only [outstandingLines, List.map_cons, ih (i + 1)]
    rw [if_neg (by simp)]

theorem outstandingLines_other (toBeUpdated : Int) (ps : List queueProcessor)
    (h1 : toBeUpdated ≠ -1) :
    ∀ (i : Nat), (∀ j : Nat, i ≤ j → (j : Int) ≠ toBeUpdated) →
      outstandingLines toBeUpdated ps i = ps.map pendingLines := by
  induction ps with
  | nil => intro i _; rfl
  | cons p ps ih =>
    intro i h
    simp only [outstandingLines, List.map_cons]
    rw [if_pos ⟨h1, h i (le_refl _)⟩, ih (i + 1) (fun j hj => h j (by omega))]

theorem outstandingLines_split (q : queueProcessor) (post : List queueProcessor)
    (pre : List queueProcessor) :
    ∀ (i : Nat), outstandingLines ((i + pre.length : Nat) : Int) (pre ++ q :: post) i
      = pre.map pendingLines ++ parsedLines q.scanners :: post.map pendingLines := by
  induction pre with
  | nil =>
    intro i
    simp only [List.nil_append, List.length_nil, Nat.add_zero, outstandingLines, List.map_nil]
    rw [if_neg (by simp)]
    rw [outstandingLines_other _ _ (by omega) (i + 1) (fun j hj => by omega)]
  | cons p pre ih =>
    intro i
    simp only [List.cons_append, List.length_cons, outstandingLines, List.map_cons]
    rw [if_pos ⟨by omega, by push_cast; omega⟩]
    have h : i + (pre.length + 1) = (i + 1) + pre.length := by omega
    rw [h]
    exact congrArg (fun l => pendingLines p :: l) (ih (i + 1))

theorem get?_split {α : Type} (l : List α) (k : Nat) (x : α) (h : l.get? k = some x) :
    ∃ pre post, l = pre ++ x :: post ∧ pre.length = k := by
  induction l generalizing k with
  | nil => simp at h
  | cons a l ih =>
    cases k with
    | zero =>
      simp only [List.get?_cons_zero, Option.some.injEq] at h
      subst h
      exact ⟨[], l, rfl, rfl⟩
    | succ k =>
      simp only [List.get?_cons_succ] at h
      obtain ⟨pre, post, rfl, hlen⟩ := ih k h
      exact ⟨a :: pre, post, rfl, by simp [hlen]⟩

theorem chosenRecords_step (hs rest : List ImportEvent) (r : parsedHeaderRecord) (b : Bool)
    (h : ∀ e ∈ hs, ∃ pat c, e = ImportEvent.handed pat c) :
    chosenRecords (hs ++ ImportEvent.chosen r b :: rest) = r :: chosenRecords rest := by
  rw [chosenRecords_eq_map, chosenDecisions_append_handed _ _ h]
  simp only [chosenDecisions, List.map_cons]
  rw [← chosenRecords_eq_map]

theorem chosenRecords_handed (hs : List ImportEvent)
    (h : ∀ e ∈ hs, ∃ pat c, e = ImportEvent.handed pat c) :
    chosenRecords hs = [] := by
  have := chosenDecisions_append_handed hs [] h
  rw [List.append_nil] at this
  rw [chosenRecords_eq_map, this]
  rfl

theorem importLoop_merge (cs : String → Sum) (sum : SumPair) (fuel : Nat) :
    ∀ (ps : List queueProcessor) (toBeUpdated : Int) (m : Bool) (events : List ImportEvent)
      (err : Option GuessError),
      importLoop cs sum fuel ps toBeUpdated m = some (events, err) →
      List.Subperm ((chosenRecords events).map recordKey)
        (outstandingLines toBeUpdated ps 0).flatten ∧
      (err = none →
        ((chosenRecords events).map recordKey).Perm (outstandingLines toBeUpdated ps 0).flatten) ∧
      ((∀ l ∈ outstandingLines toBeUpdated ps 0, l.Pairwise (fun a b => a.1 ≤ b.1)) →
        ((chosenRecords events).map recordKey).Pairwise (fun a b => a.1 ≤ b.1)) := by
  induction fuel with
  | zero => intro ps t m es err h; simp [importLoop] at h
  | succ fuel ih =>
    intro ps t m es err h
    have hh := updateQueueProcessors_handed t ps 0
    rcases importLoop_succ _ _ _ _ _ _ _ _ h with
      ⟨⟨e, _, rfl⟩, rfl⟩ | ⟨herr, he, rfl, rfl⟩ | ⟨k, pk, rest, herr, he, hk, hpk, hrest, rfl⟩
    · rw [chosenRecords_handed _ (fun e he => hh e he)]
      exact ⟨List.nil_subperm, fun h => (by cases h), fun _ => List.Pairwise.nil⟩
    · have hlines := updateQueueProcessors_lines t ps 0 herr
      have hflat : ((updateQueueProcessors t ps 0).1.map pendingLines).flatten
          = (outstandingLines t ps 0).flatten := by
        rw [hlines, List.flatten_filter_not_isEmpty]
      rw [chosenRecords_handed _ (fun e he => hh e he)]
      have hnil : (updateQueueProcessors t ps 0).1 = [] := List.length_eq_zero.1 he
      rw [hnil] at hflat
      rw [← hflat]
      exact ⟨List.nil_subperm, fun _ => List.Perm.refl _, fun _ => List.Pairwise.nil⟩
    · have hlines := updateQueueProcessors_lines t ps 0 herr
      have hflat : ((updateQueueProcessors t ps 0).1.map pendingLines).flatten
          = (outstandingLines t ps 0).flatten := by
        rw [hlines, List.flatten_filter_not_isEmpty]
      rw [chosenRecords_step _ _ _ _ (fun e he => hh e he)]
      obtain ⟨hsub, hperm, hsorted⟩ := ih _ _ _ _ _ hrest
      obtain ⟨pre, post, hsplit, hlen⟩ := get?_split _ _ _ hpk
      have hout : outstandingLines (k : Int) (updateQueueProcessors t ps 0).1 0
          = pre.map pendingLines ++ parsedLines pk.scanners :: post.map pendingLines := by
        rw [hsplit]
        have := outstandingLines_split pk post pre 0
        rw [Nat.zero_add, hlen] at this
        exact this
      rw [hout] at hsub hperm hsorted
      have hF : (outstandingLines t ps 0).flatten
          = (pre.map pendingLines).flatten ++
              (recordKey pk.record :: (parsedLines pk.scanners ++ (post.map pendingLines).flatten)) := by
        rw [← hflat, hsplit]
        simp [pendingLines]
      have hO : (pre.map pendingLines ++ parsedLines pk.scanners :: post.map pendingLines).flatten
          = (pre.map pendingLines).flatten ++
              (parsedLines pk.scanners ++ (post.map pendingLines).flatten) := by
        simp
      rw [hO] at hsub hperm
      have hall : List.Subperm (recordKey pk.record :: (chosenRecords rest).map recordKey)
          (outstandingLines t ps 0).flatten := by
        rw [hF]
        exact ((List.subperm_cons _).2 hsub).trans (List.perm_middle.symm.subperm)
      refine ⟨by simpa using hall, ?_, ?_⟩
      · intro hnone
        have hp : (recordKey pk.record :: (chosenRecords rest).map recordKey).Perm
            (outstandingLines t ps 0).flatten := by
          rw [hF]
          exact (List.Perm.cons _ (hperm hnone)).trans List.perm_middle.symm
        simpa using hp
      intro hs
      have hups : ∀ q ∈ (updateQueueProcessors t ps 0).1,
          (pendingLines q).Pairwise (fun a b => a.1 ≤ b.1) := by
        intro q hq
        apply hs
        have : pendingLines q ∈ (updateQueueProcessors t ps 0).1.map pendingLines :=
          List.mem_map_of_mem _ hq
        rw [hlines] at this
        exact (List.mem_filter.1 this).1
      have hmin := chooseIndexForOldestElement_oldest _ k pk hk hpk
      have hpkmem : pk ∈ (updateQueueProcessors t ps 0).1 := List.get?_mem hpk
      simp only [List.map_cons]
      refine List.Pairwise.cons ?_ (hsorted ?_)
      · intro y hy
        have hy2 : y ∈ (outstandingLines t ps 0).flatten :=
          hall.subset (List.mem_cons_of_mem _ hy)
        rw [← hflat] at hy2
        obtain ⟨l, hl, hyl⟩ := List.mem_flatten.1 hy2
        obtain ⟨q, hq, rfl⟩ := List.mem_map.1 hl
        have hqs := hups q hq
        have hqmin := hmin q hq
        simp only [pendingLines] at hyl hqs
        rcases List.mem_cons.1 hyl with rfl | hy3
        · exact hqmin
        · exact le_trans hqmin ((List.pairwise_cons.1 hqs).1 y hy3)
      · intro l hl
        rcases List.mem_append.1 hl with hl1 | hl2
        · obtain ⟨q, hq, rfl⟩ := List.mem_map.1 hl1
          exact hups q (by rw [hsplit]; exact List.mem_append_left _ hq)
        · rcases List.mem_cons.1 hl2 with rfl | hl3
          · have := hups pk hpkmem
            simp only [pendingLines] at this
            exact (List.pairwise_cons.1 this).2
          · obtain ⟨q, hq, rfl⟩ := List.mem_map.1 hl3
            exact hups q (by
              rw [hsplit]
              exact List.mem_append_right _ (List.mem_cons_of_mem _ hq))

theorem shouldIgnore_fresh (hw : SumPair) (r : Record)
    (h : hw.Time < r.Time ∨ (hw.Time = r.Time ∧ ∃ s, hw.Sum = some s ∧ r.Sum ≠ s)) :
    shouldIgnore hw r = some false := by
  unfold shouldIgnore Time.IsZero Time.Before Time.Equal
  by_cases h0 : hw.Time = 0
  · simp [h0]
  · rcases h with h | ⟨h1, s, hs, hne⟩
    · have h2 : ¬ r.Time < hw.Time := by unfold Time at *; omega
      have h3 : r.Time ≠ hw.Time := by unfold Time at *; omega
      simp [h0, h2, h3]
    · have h2 : ¬ r.Time < hw.Time := by unfold Time at *; omega
      simp [h0, h2, h1.symm, hs, hne]

theorem publishAll_forwards_all (rs : List Record) :
    ∀ p : IgnoringPublisher,
      rs.Pairwise (fun a b => a.Time < b.Time ∨ (a.Time = b.Time ∧ b.Sum ≠ a.Sum)) →
      (∀ r ∈ rs, p.lastPublishedSumPair.Time < r.Time ∨
        (p.lastPublishedSumPair.Time = r.Time ∧
          ∃ s, p.lastPublishedSumPair.Sum = some s ∧ r.Sum ≠ s)) →
      ∃ q, p.publishAll rs = some q ∧ q.pub = p.pub ++ rs := by
  induction rs with
  | nil => intro p _ _; exact ⟨p, rfl, by simp⟩
  | cons r rs ih =>
    intro p hpw hfresh
    have hr := shouldIgnore_fresh _ r (hfresh r (List.mem_cons_self _ _))
    have hpub : p.Publish r = some
        { pub := p.pub ++ [r], lastPublishedSumPair := { Time := r.Time, Sum := some r.Sum } } := by
      unfold IgnoringPublisher.Publish
      rw [hr]
    obtain ⟨hhead, htail⟩ := List.pairwise_cons.1 hpw
    obtain ⟨q, hq, hqpub⟩ := ih
      { pub := p.pub ++ [r], lastPublishedSumPair := { Time := r.Time, Sum := some r.Sum } }
      htail
      (fun x hx => by
        rcases hhead x hx with h | ⟨h1, h2⟩
        · exact Or.inl h
        · exact Or.inr ⟨h1, r.Sum, rfl, h2⟩)
    refine ⟨q, ?_, ?_⟩
    · simp only [IgnoringPublisher.publishAll, hpub]
      exact hq
    · rw [hqpub]
      simp

theorem highWaterDecisions_all_after (cs : String → Sum) (sum : SumPair)
    (ts : List parsedHeaderRecord) :
    ∀ (m : Bool), (∀ t ∈ ts, sum.Time < t.time) →
      highWaterDecisions cs sum m ts = ts.map (fun t => (t, true)) := by
  induction ts with
  | nil => intro m _; rfl
  | cons t ts ih =>
    intro m h
    simp only [highWaterDecisions, List.map_cons]
    rw [(highWaterTest_fst cs sum m t).2 (Or.inl (h t (List.mem_cons_self _ _))),
      ih _ (fun u hu => h u (List.mem_cons_of_mem _ hu))]

theorem toRecord_eq (cs : String → Sum) (t : parsedHeaderRecord) :
    toRecord cs t = recordOfLine cs (recordKey t) := rfl

theorem allRecords_eq (cs : String → Sum) (ps : List queueProcessor) :
    allRecords cs ps = ((outstandingLines (-1) ps 0).flatten).map (recordOfLine cs) := by
  rw [outstandingLines_first]
  unfold allRecords
  induction ps with
  | nil => rfl
  | cons p ps ih =>
    simp only [List.flatMap_cons, List.map_cons, List.flatten_cons, List.map_append, ih]

theorem chooseIndexLoop_first (qs : List queueProcessor) :
    ∀ (rest : List queueProcessor) (i : Nat) (chosen : Option Nat),
      qs.drop i = rest →
      (∀ c, chosen = some c → ∃ pc, qs.get? c = some pc ∧
        (∀ j pj, j < i → qs.get? j = some pj → pc.record.time ≤ pj.record.time) ∧
        (∀ j pj, j < c → qs.get? j = some pj → pc.record.time < pj.record.time)) →
      (chosen = none → i = 0) →
      ∀ k pk, chooseIndexLoop qs rest i chosen = some k → qs.get? k = some pk →
        ∀ j pj, j < k → qs.get? j = some pj → pk.record.time < pj.record.time := by
  intro rest
  induction rest with
  | nil =>
    intro i chosen _ hinv _ k pk hk hpk
    cases chosen with
    | none => simp [chooseIndexLoop] at hk
    | some c =>
      simp only [chooseIndexLoop, Option.some.injEq] at hk
      subst hk
      obtain ⟨pc, hpc, _, hfirst⟩ := hinv c rfl
      rw [hpc] at hpk
      cases hpk
      exact hfirst
  | cons p rest ih =>
    intro i chosen hdrop hinv h0 k pk hk hpk
    obtain ⟨hpi, hdrop2⟩ := drop_eq_cons_get qs i p rest hdrop
    cases chosen with
    | none =>
      have hi := h0 rfl
      subst hi
      simp only [chooseIndexLoop] at hk
      refine ih 1 (some 0) hdrop2 ?_ (fun h => by cases h) k pk hk hpk
      intro c hc
      cases hc
      refine ⟨p, hpi, ?_, ?_⟩
      · intro j pj hj hpj
        have : j = 0 := by omega
        subst this
        rw [hpi] at hpj
        cases hpj
        exact le_refl _
      · intro j pj hj _
        omega
    | some c =>
      obtain ⟨pc, hpc, hmin, hfirst⟩ := hinv c rfl
      simp only [chooseIndexLoop, hpc] at hk
      refine ih (i + 1) _ hdrop2 ?_ (fun h => ?_) k pk hk hpk
      · intro d hd
        by_cases hafter : pc.record.time.After p.record.time = true
        · rw [if_pos hafter] at hd
          cases hd
          have hlt : p.record.time < pc.record.time := by
            simpa [Time.After] using hafter
          refine ⟨p, hpi, ?_, ?_⟩
          · intro j pj hj hpj
            by_cases hji : j = i
            · subst hji
              rw [hpi] at hpj
              cases hpj
              exact le_refl _
            · exact le_trans (le_of_lt hlt) (hmin j pj (by omega) hpj)
          · intro j pj hj hpj
            exact lt_of_lt_of_le hlt (hmin j pj hj hpj)
        · rw [if_neg hafter] at hd
          cases hd
          have hle : pc.record.time ≤ p.record.time := by
            have : ¬ p.record.time < pc.record.time := by
              simpa [Time.After] using hafter
            exact not_lt.1 this
          refine ⟨pc, hpc, ?_, hfirst⟩
          intro j pj hj hpj
          by_cases hji : j = i
          · subst hji
            rw [hpi] at hpj
            cases hpj
            exact hle
          · exact hmin j pj (by omega) hpj
      · split at h <;> cases h

theorem setFileLocation_pattern (p : queueProcessor) :
    (setFileLocationOnQueueProcessorIfNeeded p).pattern = p.pattern := by
  unfold setFileLocationOnQueueProcessorIfNeeded
  split
  · rfl
  · split <;> rfl

theorem updateQueueProcessorLoop_pattern (fs : List (List LogLine)) :
    ∀ (p q : queueProcessor) (b : Bool), updateQueueProcessorLoop fs p = Except.ok (b, q) →
      q.pattern = p.pattern := by
  induction fs with
  | nil =>
    intro p q b h
    simp only [updateQueueProcessorLoop, Except.ok.injEq, Prod.mk.injEq] at h
    rw [← h.2]
  | cons f rest ih =>
    intro p q b h
    cases hs : scanUntilParsed f p.line with
    | none =>
      rw [updateQueueProcessorLoop_cons_none f rest p hs] at h
      rw [ih _ _ _ h, setFileLocation_pattern]
    | some v =>
      obtain ⟨t, text, n, f2⟩ := v
      rcases updateQueueProcessorLoop_cons_some f rest p t text n f2 hs with
        ⟨e, he, _⟩ | ⟨c, hc, _⟩
      · rw [he] at h; cases h
      · rw [hc] at h
        simp only [Except.ok.injEq, Prod.mk.injEq] at h
        rw [← h.2]

theorem updateQueueProcessor_pattern (p q : queueProcessor) (b : Bool)
    (h : updateQueueProcessor p = Except.ok (b, q)) : q.pattern = p.pattern := by
  unfold updateQueueProcessor at h
  simp only at h
  rw [updateQueueProcessorLoop_pattern _ _ _ _ h, setFileLocation_pattern]

theorem updateQueueProcessors_patterns (toBeUpdated : Int) (ps : List queueProcessor) :
    ∀ (i : Nat), ((updateQueueProcessors toBeUpdated ps i).1.map (fun p => p.pattern)).Sublist
      (ps.map (fun p => p.pattern)) := by
  induction ps with
  | nil => intro i; exact List.Sublist.refl _
  | cons p ps ih =>
    intro i
    simp only [updateQueueProcessors, List.map_cons]
    by_cases hc : toBeUpdated ≠ -1 ∧ (i : Int) ≠ toBeUpdated
    · rw [if_pos hc]
      exact (ih (i + 1)).cons₂ _
    · rw [if_neg hc]
      cases hu : updateQueueProcessor p with
      | error e => exact List.nil_sublist _
      | ok bq =>
        obtain ⟨b, q⟩ := bq
        have hp := updateQueueProcessor_pattern p q b hu
        cases b with
        | true =>
          simp only [List.map_cons]
          rw [hp]
          exact (ih (i + 1)).cons₂ _
        | false =>
          simp only
          cases q.converter with
          | some c => exact (ih (i + 1)).cons _
          | none =>
            simp only
            cases q.entries.getLast? with
            | none => exact (ih (i + 1)).cons _
            | some e => exact (ih (i + 1)).cons _

/-- C26: on a non-empty list of queue processors `chooseIndexForOldestElement`
returns an index of the list whose record time is minimal over the list and
strictly smaller than the record time at every lower index, that is the
smallest index of a minimal time; on the empty list it panics.  The update of
the processors keeps them in their order, so that a lower index is a lower
family index. -/
theorem C26_oldest_element (p : queueProcessor) (ps : List queueProcessor) (toBeUpdated : Int) :
    (∃ k pk, chooseIndexForOldestElement (p :: ps) = some k ∧
      (p :: ps).get? k = some pk ∧
      (∀ q ∈ p :: ps, pk.record.time ≤ q.record.time) ∧
      (∀ j pj, j < k → (p :: ps).get? j = some pj → pk.record.time < pj.record.time)) ∧
    chooseIndexForOldestElement [] = none ∧
    ((updateQueueProcessors toBeUpdated (p :: ps) 0).1.map (fun q => q.pattern)).Sublist
      ((p :: ps).map (fun q => q.pattern)) := by
  refine ⟨?_, rfl, updateQueueProcessors_patterns toBeUpdated (p :: ps) 0⟩
  obtain ⟨k, hk, hkl⟩ := chooseIndexForOldestElement_bound (p :: ps) (by simp)
  refine ⟨k, (p :: ps).get ⟨k, hkl⟩, hk, List.get?_eq_get hkl, ?_, ?_⟩
  · exact chooseIndexForOldestElement_oldest _ k _ hk (List.get?_eq_get hkl)
  · unfold chooseIndexForOldestElement at hk
    exact chooseIndexLoop_first (p :: ps) (p :: ps) 0 none rfl (fun c h => by cases h)
      (fun _ => rfl) k _ hk (List.get?_eq_get hkl)

/-- C29: when within every family the parsable lines, read in plan order, have
non-decreasing times, `importExistingLogs` returns, with the error of
`updateQueueProcessors` or without, and both the records it chose until then
and the records it passed to its publisher have non-decreasing times; no record
passed to the publisher is before the high-water. -/
theorem C29_merge_preserves_order (cs : String → Sum) (ps : List queueProcessor) (sum : SumPair)
    (hsorted : ∀ p ∈ ps, (parsedLines p.scanners).Pairwise (fun a b => a.1 ≤ b.1)) :
    ∃ events err, importExistingLogs cs ps sum = some (events, err) ∧
      (chosenRecords events).Pairwise (fun a b => a.time ≤ b.time) ∧
      (publishedRecords cs events).Pairwise (fun a b => a.Time ≤ b.Time) ∧
      (∀ r ∈ publishedRecords cs events, sum.Time ≤ r.Time) := by
  obtain ⟨events, err, hev⟩ := importExistingLogs_some cs ps sum
  have hloop : importLoop cs sum (importFuel ps) ps (-1) false = some (events, err) := hev
  obtain ⟨_, _, hsort⟩ := importLoop_merge cs sum _ ps (-1) false events err hloop
  have hsort2 := hsort (by
    intro l hl
    rw [outstandingLines_first] at hl
    obtain ⟨p, hp, rfl⟩ := List.mem_map.1 hl
    exact hsorted p hp)
  rw [List.pairwise_map] at hsort2
  have hchosen : (chosenRecords events).Pairwise (fun a b => a.time ≤ b.time) := hsort2
  have hdec : (chosenDecisions events).Pairwise (fun a b => a.1.time ≤ b.1.time) := by
    rw [chosenRecords_eq_map, List.pairwise_map] at hchosen
    exact hchosen
  refine ⟨events, err, hev, hchosen, ?_, ?_⟩
  · rw [publishedRecords_eq, List.pairwise_map]
    exact hdec.sublist (List.filter_sublist _)
  · intro r hr
    rw [publishedRecords_eq] at hr
    obtain ⟨d, hd, rfl⟩ := List.mem_map.1 hr
    obtain ⟨hd1, hd2⟩ := List.mem_filter.1 hd
    rw [importLoop_decisions cs sum _ ps (-1) false events err hloop] at hd1
    exact (highWaterDecisions_mem cs sum _ false d.1 d.2 hd1).1 hd2

theorem C29_merge_preserves_order_witness :
    (∀ p ∈ sampleQueueProcessors, (parsedLines p.scanners).Pairwise (fun a b => a.1 ≤ b.1)) ∧
    (∃ events err, importExistingLogs sampleChecksum sampleQueueProcessors ⟨6, none⟩
        = some (events, err) ∧
      (chosenRecords events).Pairwise (fun a b => a.time ≤ b.time) ∧
      (publishedRecords sampleChecksum events).Pairwise (fun a b => a.Time ≤ b.Time) ∧
      (∀ r ∈ publishedRecords sampleChecksum events, (SumPair.mk 6 none).Time ≤ r.Time)) :=
  ⟨by decide, C29_merge_preserves_order sampleChecksum sampleQueueProcessors ⟨6, none⟩ (by decide)⟩

theorem Publish_eq_none_iff (p : IgnoringPublisher) (r : Record) :
    p.Publish r = none ↔
      (p.lastPublishedSumPair.Time ≠ 0 ∧ r.Time = p.lastPublishedSumPair.Time ∧
        p.lastPublishedSumPair.Sum = none) := by
  unfold IgnoringPublisher.Publish shouldIgnore Time.IsZero Time.Before Time.Equal
  by_cases h0 : p.lastPublishedSumPair.Time = 0
  · simp [h0]
  · by_cases h1 : r.Time < p.lastPublishedSumPair.Time
    · have h2 : r.Time ≠ p.lastPublishedSumPair.Time := by unfold Time at *; omega
      simp [h0, h1, h2]
    · by_cases h2 : r.Time = p.lastPublishedSumPair.Time
      · cases hs : p.lastPublishedSumPair.Sum with
        | none => simp [h0, h2, hs]
        | some s =>
          by_cases h3 : r.Sum = s
          · simp [h0, h2, hs, h3]
          · simp [h0, h2, hs, h3]
      · simp [h0, h1, h2]

/-- C30 fails on the code: `ignoringPublisher.Publish` panics exactly when the
high-water has a non-zero time and no checksum and the record has the time of
the high-water, since the ignore test then reads the nil checksum.  An
importer started with the high-water `(9, nil)` on a directory whose lines are
all at or before 9 publishes nothing during the historical import, and panics on
a live record dated 9. -/
theorem C30_publish_reads_nil_checksum :
    (∀ (p : IgnoringPublisher) (r : Record),
      p.Publish r = none ↔
        (p.lastPublishedSumPair.Time ≠ 0 ∧ r.Time = p.lastPublishedSumPair.Time ∧
          p.lastPublishedSumPair.Sum = none)) ∧
    runImport sampleChecksum sampleQueueProcessors ⟨9, none⟩ []
      = some (IgnoringPublisher.mk [] ⟨9, none⟩) ∧
    run sampleChecksum sampleQueueProcessors ⟨9, none⟩ []
      [⟨9, ⟨"mail.log", 3⟩, "e"⟩] = none := by
  refine ⟨Publish_eq_none_iff, by decide, by decide⟩

theorem scanUntilParsed_any (f : List LogLine) :
    ∀ (n : Nat), (scanUntilParsed f n).isSome = f.any (fun l => l.time.isSome) := by
  induction f with
  | nil => intro n; rfl
  | cons l ls ih =>
    intro n
    cases hl : l.time with
    | none => simp [scanUntilParsed, hl, ih (n + 1)]
    | some t => simp [scanUntilParsed, hl]

theorem setFileLocation_fields (p : queueProcessor) :
    (setFileLocationOnQueueProcessorIfNeeded p).converter = p.converter ∧
    (setFileLocationOnQueueProcessorIfNeeded p).entries = p.entries ∧
    (setFileLocationOnQueueProcessorIfNeeded p).currentIndex = p.currentIndex := by
  unfold setFileLocationOnQueueProcessorIfNeeded
  split
  · exact ⟨rfl, rfl, rfl⟩
  · split <;> exact ⟨rfl, rfl, rfl⟩

theorem setFileLocation_content (p : queueProcessor) :
    (setFileLocationOnQueueProcessorIfNeeded p).content = p.content := by
  unfold setFileLocationOnQueueProcessorIfNeeded
  split
  · rfl
  · split <;> rfl

theorem createConverterForQueueProcessor_ok (p : queueProcessor) (c : TimeConverter)
    (h : createConverterForQueueProcessor p = Except.ok c) :
    c = TimeConverter.forFile p.currentIndex := by
  unfold createConverterForQueueProcessor at h
  cases hg : guessError (p.content.getD p.currentIndex []) with
  | some e => rw [hg] at h; cases h
  | none =>
    rw [hg] at h
    simp only [Except.ok.injEq] at h
    exact h.symm

theorem updateQueueProcessorLoop_converter (fs : List (List LogLine)) :
    ∀ (p q : queueProcessor) (b : Bool), updateQueueProcessorLoop fs p = Except.ok (b, q) →
      (b = true → ∃ c, q.converter = some c ∧
        handoverConverter { p with scanners := fs } = some c) ∧
      (b = false → q.converter = p.converter ∧ q.entries = p.entries ∧
        firstParsedFile fs = none) := by
  induction fs with
  | nil =>
    intro p q b h
    simp only [updateQueueProcessorLoop, Except.ok.injEq, Prod.mk.injEq] at h
    obtain ⟨rfl, rfl⟩ := h
    exact ⟨fun h => (by cases h), fun _ => ⟨rfl, rfl, rfl⟩⟩
  | cons f rest ih =>
    intro p q b h
    have hany := scanUntilParsed_any f p.line
    cases hs : scanUntilParsed f p.line with
    | none =>
      rw [updateQueueProcessorLoop_cons_none f rest p hs] at h
      rw [hs] at hany
      have hf : f.any (fun l => l.time.isSome) = false := by
        rw [← hany]; rfl
      obtain ⟨h1, h2⟩ := ih _ _ _ h
      obtain ⟨hc, he, hi⟩ := setFileLocation_fields
        { p with scanners := rest, currentIndex := p.currentIndex + 1, line := 0 }
      constructor
      · intro hb
        obtain ⟨c, hqc, hh⟩ := h1 hb
        refine ⟨c, hqc, ?_⟩
        simp only [handoverConverter, hc, he, hi] at hh
        simp only [handoverConverter, firstParsedFile, hf]
        cases hpc : p.converter with
        | some c0 => rw [hpc] at hh; exact hh
        | none =>
          rw [hpc] at hh
          simp only at hh ⊢
          cases hfp : firstParsedFile rest with
          | none => rw [hfp] at hh; simpa using hh
          | some i =>
            rw [hfp] at hh
            simp only [Option.map_some', Bool.false_eq_true, if_false] at hh ⊢
            rw [← hh]
            congr 2
            omega
      · intro hb
        obtain ⟨h3, h4, h5⟩ := h2 hb
        refine ⟨h3.trans hc, h4.trans he, ?_⟩
        simp [firstParsedFile, hf, h5]
    | some v =>
      obtain ⟨t, text, n, f2⟩ := v
      rw [hs] at hany
      have hf : f.any (fun l => l.time.isSome) = true := by
        rw [← hany]; rfl
      rcases updateQueueProcessorLoop_cons_some f rest p t text n f2 hs with
        ⟨e, he, _⟩ | ⟨c, hc, hconv⟩
      · rw [he] at h; cases h
      · rw [hc] at h
        simp only [Except.ok.injEq, Prod.mk.injEq] at h
        obtain ⟨rfl, rfl⟩ := h
        refine ⟨fun _ => ⟨c, rfl, ?_⟩, fun h => (by cases h)⟩
        simp only [handoverConverter, firstParsedFile, hf, if_true]
        rcases hconv with hpc | ⟨hpc, hcr⟩
        · rw [hpc]
        · rw [hpc, createConverterForQueueProcessor_ok p c hcr]
          rfl

theorem handoverConverter_of_some (q : queueProcessor) (c : TimeConverter)
    (h : q.converter = some c) : handoverConverter q = some c := by
  simp [handoverConverter, h]

theorem updateQueueProcessor_converter (p q : queueProcessor) (b : Bool)
    (h : updateQueueProcessor p = Except.ok (b, q)) :
    (b = true → handoverConverter q = handoverConverter p) ∧
    (b = false → q.converter = p.converter ∧ q.entries = p.entries ∧
      firstParsedFile p.scanners = none) := by
  unfold updateQueueProcessor at h
  simp only at h
  obtain ⟨h1, h2⟩ := updateQueueProcessorLoop_converter _ _ _ _ h
  obtain ⟨hc, he, hi⟩ := setFileLocation_fields p
  have hs := setFileLocation_scanners p
  constructor
  · intro hb
    obtain ⟨c, hqc, hh⟩ := h1 hb
    rw [handoverConverter_of_some q c hqc, ← hh]
    simp only [handoverConverter, hc, he, hi, hs]
  · intro hb
    obtain ⟨h3, h4, h5⟩ := h2 hb
    rw [hs] at h5
    exact ⟨h3.trans hc, h4.trans he, h5⟩

theorem handedOf_append (xs ys : List ImportEvent) :
    handedOf (xs ++ ys) = handedOf xs ++ handedOf ys := by
  induction xs with
  | nil => rfl
  | cons e xs ih =>
    cases e with
    | handed pat c => simp [handedOf, ih]
    | chosen r b => simp [handedOf, ih]

theorem updateQueueProcessors_handover (toBeUpdated : Int) (ps : List queueProcessor) :
    ∀ (i : Nat),
      List.Subperm
        (handedOf (updateQueueProcessors toBeUpdated ps i).2.1 ++
          (updateQueueProcessors toBeUpdated ps i).1.filterMap
            (fun p => (handoverConverter p).map (fun c => (p.pattern, c))))
        (ps.filterMap (fun p => (handoverConverter p).map (fun c => (p.pattern, c)))) ∧
      ((updateQueueProcessors toBeUpdated ps i).2.2 = none →
        (handedOf (updateQueueProcessors toBeUpdated ps i).2.1 ++
          (updateQueueProcessors toBeUpdated ps i).1.filterMap
            (fun p => (handoverConverter p).map (fun c => (p.pattern, c)))).Perm
        (ps.filterMap (fun p => (handoverConverter p).map (fun c => (p.pattern, c))))) := by
  induction ps with
  | nil => intro i; exact ⟨List.Subperm.refl _, fun _ => List.Perm.refl _⟩
  | cons p ps ih =>
    intro i
    obtain ⟨ihs, ihp⟩ := ih (i + 1)
    simp only [updateQueueProcessors]
    by_cases hc : toBeUpdated ≠ -1 ∧ (i : Int) ≠ toBeUpdated
    · rw [if_pos hc]
      simp only [List.filterMap_cons]
      cases handoverConverter p with
      | none => exact ⟨ihs, ihp⟩
      | some c =>
        simp only [Option.map_some']
        exact ⟨List.perm_middle.subperm.trans ((List.subperm_cons _).2 ihs),
          fun h => List.perm_middle.trans ((ihp h).cons _)⟩
    · rw [if_neg hc]
      cases hu : updateQueueProcessor p with
      | error e =>
        exact ⟨List.nil_subperm, fun h => (by cases h)⟩
      | ok bq =>
        obtain ⟨b, q⟩ := bq
        have hp := updateQueueProcessor_pattern p q b hu
        obtain ⟨ht, hf⟩ := updateQueueProcessor_converter p q b hu
        cases b with
        | true =>
          simp only [List.filterMap_cons]
          rw [ht rfl, hp]
          cases handoverConverter p with
          | none => exact ⟨ihs, ihp⟩
          | some c =>
            simp only [Option.map_some']
            exact ⟨List.perm_middle.subperm.trans ((List.subperm_cons _).2 ihs),
              fun h => List.perm_middle.trans ((ihp h).cons _)⟩
        | false =>
          obtain ⟨hqc, hqe, hfp⟩ := hf rfl
          have hh : handoverConverter p = match q.converter with
              | some c => some c
              | none => q.entries.getLast?.map
                  (fun e => TimeConverter.fromModificationTime e.modificationTime) := by
            simp only [handoverConverter, hfp, hqc, hqe]
          simp only [List.filterMap_cons]
          rw [hh]
          cases hq : q.converter with
          | some c =>
            simp only [handedOf, Option.map_some', List.cons_append, hp]
            exact ⟨(List.subperm_cons _).2 ihs, fun h => (ihp h).cons _⟩
          | none =>
            simp only
            cases hl : q.entries.getLast? with
            | none => exact ⟨by simpa using ihs, fun h => by simpa using ihp h⟩
            | some e =>
              simp only [handedOf, Option.map_some', List.cons_append, hp]
              exact ⟨(List.subperm_cons _).2 ihs, fun h => (ihp h).cons _⟩

theorem importLoop_handover (cs : String → Sum) (sum : SumPair) (fuel : Nat) :
    ∀ (ps : List queueProcessor) (toBeUpdated : Int) (m : Bool) (events : List ImportEvent)
      (err : Option GuessError),
      importLoop cs sum fuel ps toBeUpdated m = some (events, err) →
      List.Subperm (handedOf events)
        (ps.filterMap (fun p => (handoverConverter p).map (fun c => (p.pattern, c)))) ∧
      (err = none → (handedOf events).Perm
        (ps.filterMap (fun p => (handoverConverter p).map (fun c => (p.pattern, c))))) := by
  induction fuel with
  | zero => intro ps t m es err h; simp [importLoop] at h
  | succ fuel ih =>
    intro ps t m es err h
    obtain ⟨hups, hupp⟩ := updateQueueProcessors_handover t ps 0
    rcases importLoop_succ _ _ _ _ _ _ _ _ h with
      ⟨⟨e, _, rfl⟩, rfl⟩ | ⟨herr, he, rfl, rfl⟩ | ⟨k, pk, rest, herr, _, _, _, hrest, rfl⟩
    · refine ⟨?_, fun h => (by cases h)⟩
      exact (List.sublist_append_left _ _).subperm.trans hups
    · have hnil : (updateQueueProcessors t ps 0).1 = [] := List.length_eq_zero.1 he
      have hp := hupp herr
      rw [hnil] at hp
      have hp2 : (handedOf (updateQueueProcessors t ps 0).2.1).Perm
          (ps.filterMap (fun p => (handoverConverter p).map (fun c => (p.pattern, c)))) := by
        simpa using hp
      exact ⟨hp2.subperm, fun _ => hp2⟩
    · obtain ⟨hrs, hrp⟩ := ih _ _ _ _ _ hrest
      rw [handedOf_append]
      simp only [handedOf]
      refine ⟨?_, fun h => (List.Perm.append_left _ (hrp h)).trans (hupp herr)⟩
      exact ((List.subperm_append_left _).2 hrs).trans hups

theorem handover_filter_none (pattern : String) (ps : List queueProcessor)
    (h : ∀ q ∈ ps, q.pattern ≠ pattern) :
    (ps.filterMap (fun p => (handoverConverter p).map (fun c => (p.pattern, c)))).filter
      (fun x => decide (x.1 = pattern)) = [] := by
  induction ps with
  | nil => rfl
  | cons q ps ih =>
    have hq := h q (List.mem_cons_self _ _)
    have ih1 := ih (fun x hx => h x (List.mem_cons_of_mem _ hx))
    simp only [List.filterMap_cons]
    cases handoverConverter q with
    | none => exact ih1
    | some c =>
      simp only [Option.map_some']
      rw [List.filter_cons_of_neg (by simpa using hq)]
      exact ih1

theorem handover_filter (ps : List queueProcessor)
    (hnodup : (ps.map (fun p => p.pattern)).Nodup) (p : queueProcessor) (hp : p ∈ ps) :
    (ps.filterMap (fun p => (handoverConverter p).map (fun c => (p.pattern, c)))).filter
      (fun x => decide (x.1 = p.pattern))
      = ((handoverConverter p).map (fun c => (p.pattern, c))).toList := by
  induction ps with
  | nil => cases hp
  | cons q ps ih =>
    simp only [List.map_cons, List.nodup_cons, List.mem_map, not_exists, not_and] at hnodup
    obtain ⟨hq, hrest⟩ := hnodup
    rcases List.mem_cons.1 hp with rfl | hp2
    · have hnone := handover_filter_none p.pattern ps (fun x hx => hq x hx)
      simp only [List.filterMap_cons]
      cases handoverConverter p with
      | none => simpa using hnone
      | some c =>
        simp only [Option.map_some', Option.toList]
        rw [List.filter_cons_of_pos (by simp), hnone]
    · have hne : q.pattern ≠ p.pattern := fun h => hq p hp2 h.symm
      simp only [List.filterMap_cons]
      cases handoverConverter q with
      | none => exact ih hrest hp2
      | some c =>
        simp only [Option.map_some']
        rw [List.filter_cons_of_neg (by simpa using hne)]
        exact ih hrest hp2

theorem getLast?_map_headers {α β : Type} (f : α → β) (l : List α) :
    (l.map f).getLast? = l.getLast?.map f := by
  induction l with
  | nil => rfl
  | cons a l ih =>
    cases l with
    | nil => rfl
    | cons b l =>
      simp only [List.map_cons, List.getLast?_cons_cons] at ih ⊢
      exact ih

/-- The errors of `guessInitialDateForFile` are those `guessError` tells from
the lines alone, whatever the time format and the modification time:
`headers` gives the header the parser reads from a line, which it does exactly
for the lines that are dated. -/
theorem guessInitialDateForFile_error (format : TimeFormat)
    (headers : LogLine → Option parser.Time)
    (hparse : ∀ l, (headers l).isSome = l.time.isSome) (file : List LogLine)
    (modificationTime : UTCTime) (e : GuessError) :
    guessInitialDateForFile format (file.map headers) modificationTime = Except.error e ↔
      guessError file = some e := by
  cases file with
  | nil => simp [guessInitialDateForFile, guessError]
  | cons first rest =>
    have h1 := hparse first
    simp only [List.map_cons, guessInitialDateForFile, guessError]
    cases hf : first.time with
    | none =>
      rw [hf] at h1
      cases hh : headers first with
      | none => simp
      | some x => rw [hh] at h1; cases h1
    | some t =>
      rw [hf] at h1
      cases hh : headers first with
      | none => rw [hh] at h1; cases h1
      | some x =>
        simp only
        rw [getLast?_map_headers]
        cases hl : rest.getLast? with
        | none => simp
        | some last =>
          have h2 := hparse last
          simp only [Option.map_some']
          cases hlt : last.time with
          | none =>
            rw [hlt] at h2
            cases hlh : headers last with
            | none => simp
            | some y => rw [hlh] at h2; cases h2
          | some u =>
            rw [hlt] at h2
            cases hlh : headers last with
            | none => rw [hlh] at h2; cases h2
            | some y => simp

theorem firstParsedFile_cons_false (f : List LogLine) (rest : List (List LogLine))
    (hf : f.any (fun l => l.time.isSome) = false) :
    firstParsedFile (f :: rest) = (firstParsedFile rest).map (fun i => i + 1) := by
  simp [firstParsedFile, hf]

theorem firstParsedFile_cons_true (f : List LogLine) (rest : List (List LogLine))
    (hf : f.any (fun l => l.time.isSome) = true) :
    firstParsedFile (f :: rest) = some 0 := by
  simp [firstParsedFile, hf]

theorem converterCreated_of_some (q : queueProcessor) (c : TimeConverter)
    (h : q.converter = some c) : converterCreated q = true := by
  simp [converterCreated, h]

theorem updateQueueProcessorLoop_created (fs : List (List LogLine)) :
    ∀ (p : queueProcessor), converterCreated { p with scanners := fs } = true →
      ∃ bq, updateQueueProcessorLoop fs p = Except.ok bq := by
  induction fs with
  | nil => intro p _; exact ⟨_, rfl⟩
  | cons f rest ih =>
    intro p h
    have hany := scanUntilParsed_any f p.line
    cases hs : scanUntilParsed f p.line with
    | none =>
      rw [updateQueueProcessorLoop_cons_none f rest p hs]
      rw [hs] at hany
      have hf : f.any (fun l => l.time.isSome) = false := by
        rw [← hany]; rfl
      apply ih
      obtain ⟨hc, _, hi⟩ := setFileLocation_fields
        { p with scanners := rest, currentIndex := p.currentIndex + 1, line := 0 }
      have hct := setFileLocation_content
        { p with scanners := rest, currentIndex := p.currentIndex + 1, line := 0 }
      simp only [converterCreated, firstParsedFile_cons_false f rest hf] at h
      simp only [converterCreated, hc, hi, hct]
      cases hpc : p.converter with
      | some c0 => rfl
      | none =>
        rw [hpc] at h
        simp only at h ⊢
        cases hfp : firstParsedFile rest with
        | none => rfl
        | some i =>
          rw [hfp] at h
          simp only [Option.map_some'] at h ⊢
          have hidx : p.currentIndex + 1 + i = p.currentIndex + (i + 1) := by omega
          rw [hidx]
          exact h
    | some v =>
      obtain ⟨t, text, n, f2⟩ := v
      rw [hs] at hany
      have hf : f.any (fun l => l.time.isSome) = true := by
        rw [← hany]; rfl
      rcases updateQueueProcessorLoop_cons_some f rest p t text n f2 hs with
        ⟨e, _, hpc, hcr⟩ | ⟨c, hc, _⟩
      · exfalso
        simp only [converterCreated, firstParsedFile_cons_true f rest hf, hpc, Nat.add_zero] at h
        unfold createConverterForQueueProcessor at hcr
        cases hg : guessError (p.content.getD p.currentIndex []) with
        | none => rw [hg] at hcr; cases hcr
        | some e2 => rw [hg] at h; cases h
      · exact ⟨_, hc⟩

theorem updateQueueProcessor_created (p : queueProcessor) (h : converterCreated p = true) :
    ∃ bq, updateQueueProcessor p = Except.ok bq := by
  unfold updateQueueProcessor
  apply updateQueueProcessorLoop_created
  obtain ⟨hc, _, hi⟩ := setFileLocation_fields p
  have hct := setFileLocation_content p
  have hs := setFileLocation_scanners p
  simp only [converterCreated, hc, hi, hct, hs]
  exact h

theorem updateQueueProcessors_created (toBeUpdated : Int) (ps : List queueProcessor) :
    ∀ (i : Nat), (∀ p ∈ ps, converterCreated p = true) →
      (updateQueueProcessors toBeUpdated ps i).2.2 = none ∧
      ∀ q ∈ (updateQueueProcessors toBeUpdated ps i).1, converterCreated q = true := by
  induction ps with
  | nil => intro i _; exact ⟨rfl, fun q hq => by cases hq⟩
  | cons p ps ih =>
    intro i h
    obtain ⟨ih1, ih2⟩ := ih (i + 1) (fun x hx => h x (List.mem_cons_of_mem _ hx))
    have hp := h p (List.mem_cons_self _ _)
    simp only [updateQueueProcessors]
    by_cases hc : toBeUpdated ≠ -1 ∧ (i : Int) ≠ toBeUpdated
    · rw [if_pos hc]
      refine ⟨ih1, ?_⟩
      intro q hq
      rcases List.mem_cons.1 hq with rfl | hq
      · exact hp
      · exact ih2 q hq
    · rw [if_neg hc]
      obtain ⟨bq, hu⟩ := updateQueueProcessor_created p hp
      obtain ⟨b, q⟩ := bq
      rw [hu]
      cases b with
      | true =>
        refine ⟨ih1, ?_⟩
        intro x hx
        rcases List.mem_cons.1 hx with rfl | hx
        · obtain ⟨c, hqc, _⟩ := (updateQueueProcessorLoop_converter _ _ _ _
            (by unfold updateQueueProcessor at hu; exact hu)).1 rfl
          exact converterCreated_of_some _ c hqc
        · exact ih2 x hx
      | false =>
        simp only
        cases q.converter with
        | some c => exact ⟨ih1, ih2⟩
        | none =>
          simp only
          cases q.entries.getLast? with
          | none => exact ⟨ih1, ih2⟩
          | some e => exact ⟨ih1, ih2⟩

theorem importLoop_created (cs : String → Sum) (sum : SumPair) (fuel : Nat) :
    ∀ (ps : List queueProcessor) (toBeUpdated : Int) (m : Bool) (events : List ImportEvent)
      (err : Option GuessError),
      (∀ p ∈ ps, converterCreated p = true) →
      importLoop cs sum fuel ps toBeUpdated m = some (events, err) → err = none := by
  induction fuel with
  | zero => intro ps t m es err _ h; simp [importLoop] at h
  | succ fuel ih =>
    intro ps t m es err hcr h
    obtain ⟨hnone, hall⟩ := updateQueueProcessors_created t ps 0 hcr
    rcases importLoop_succ _ _ _ _ _ _ _ _ h with
      ⟨⟨e, he, _⟩, _⟩ | ⟨_, _, rfl, _⟩ | ⟨k, pk, rest, _, _, _, _, hrest, _⟩
    · rw [hnone] at he; cases he
    · rfl
    · exact ih _ _ _ _ _ hall hrest

theorem importExistingLogs_created (cs : String → Sum) (ps : List queueProcessor)
    (sum : SumPair) (events : List ImportEvent) (err : Option GuessError)
    (hcr : ∀ p ∈ ps, converterCreated p = true)
    (h : importExistingLogs cs ps sum = some (events, err)) : err = none :=
  importLoop_created cs sum _ ps (-1) false events err hcr h

theorem subperm_option_toList {α : Type} (l : List α) (o : Option α)
    (h : List.Subperm l o.toList) : l = [] ∨ l = o.toList := by
  cases o with
  | none => exact Or.inl (List.subperm_nil.1 h)
  | some a =>
    have hlen := h.length_le
    simp only [Option.toList, List.length_singleton] at hlen
    cases l with
    | nil => exact Or.inl rfl
    | cons x xs =>
      right
      have hp := h.perm_of_length_le (by simp)
      exact List.perm_singleton.1 hp

/-- C27: with one processor per pattern, the historical import returns, with the
error of `updateQueueProcessors` or without, and on the channel of a family it
has handed over nothing or exactly one converter: the one created at the first
parsed line of the family if one of its lines parses, and else, when the family
has a planned file, a converter synthesised from the modification time of the
family's last planned file.  When the import returns without error, which it
does when the converter of every family can be created, every family has been
exhausted and has got exactly that converter, a family without planned files
none.  The queues that get a file watcher are those with at least one file. -/
theorem C27_converter_handover (cs : String → Sum) (ps : List queueProcessor) (sum : SumPair)
    (queues : fileQueues) (hnodup : (ps.map (fun p => p.pattern)).Nodup) :
    (∃ events err, importExistingLogs cs ps sum = some (events, err) ∧
      (∀ p ∈ ps, (handedOf events).filter (fun x => decide (x.1 = p.pattern)) = [] ∨
        (handedOf events).filter (fun x => decide (x.1 = p.pattern))
          = ((handoverConverter p).map (fun c => (p.pattern, c))).toList) ∧
      (err = none → ∀ p ∈ ps, (handedOf events).filter (fun x => decide (x.1 = p.pattern))
        = ((handoverConverter p).map (fun c => (p.pattern, c))).toList) ∧
      ((∀ p ∈ ps, converterCreated p = true) → err = none)) ∧
    (∀ (pattern : String) (files : List (fileEntry × List LogLine)),
      handoverConverter (processorForQueue pattern files)
        = match firstParsedFile (files.map Prod.snd) with
          | some i => some (TimeConverter.forFile i)
          | none => (files.map Prod.fst).getLast?.map
              (fun e => TimeConverter.fromModificationTime e.modificationTime)) ∧
    (∀ (pattern : String), handoverConverter (processorForQueue pattern []) = none) ∧
    (∀ kq, kq ∈ filterNonEmptyQueues queues ↔ (kq ∈ queues ∧ kq.2 ≠ [])) := by
  refine ⟨?_, ?_, fun _ => rfl, ?_⟩
  · obtain ⟨events, err, hev⟩ := importExistingLogs_some cs ps sum
    obtain ⟨hsub, hperm⟩ := importLoop_handover cs sum _ ps (-1) false events err hev
    refine ⟨events, err, hev, ?_, ?_, fun hcr => importExistingLogs_created cs ps sum events err hcr hev⟩
    · intro p hp
      have hf := hsub.filter (fun x => decide (x.1 = p.pattern))
      rw [handover_filter ps hnodup p hp] at hf
      exact subperm_option_toList _ _ hf
    · intro hnone p hp
      have hf := (hperm hnone).filter (fun x => decide (x.1 = p.pattern))
      rw [handover_filter ps hnodup p hp] at hf
      cases hh : handoverConverter p with
      | none =>
        rw [hh] at hf
        exact List.Perm.eq_nil hf
      | some c =>
        rw [hh] at hf
        exact List.perm_singleton.1 hf
  · intro pattern files
    simp only [handoverConverter, processorForQueue, Nat.zero_add]
  · intro kq
    unfold filterNonEmptyQueues
    rw [List.mem_filter]
    simp [List.length_pos]

theorem C27_converter_handover_witness :
    (regression463Processors.map (fun p => p.pattern)).Nodup ∧
    ((∃ events err, importExistingLogs sampleChecksum regression463Processors
        ⟨62135596800, none⟩ = some (events, err) ∧
      (∀ p ∈ regression463Processors,
        (handedOf events).filter (fun x => decide (x.1 = p.pattern)) = [] ∨
        (handedOf events).filter (fun x => decide (x.1 = p.pattern))
          = ((handoverConverter p).map (fun c => (p.pattern, c))).toList) ∧
      (err = none → ∀ p ∈ regression463Processors,
        (handedOf events).filter (fun x => decide (x.1 = p.pattern))
          = ((handoverConverter p).map (fun c => (p.pattern, c))).toList) ∧
      ((∀ p ∈ regression463Processors, converterCreated p = true) → err = none)) ∧
    (∀ (pattern : String) (files : List (fileEntry × List LogLine)),
      handoverConverter (processorForQueue pattern files)
        = match firstParsedFile (files.map Prod.snd) with
          | some i => some (TimeConverter.forFile i)
          | none => (files.map Prod.fst).getLast?.map
              (fun e => TimeConverter.fromModificationTime e.modificationTime)) ∧
    (∀ (pattern : String), handoverConverter (processorForQueue pattern []) = none) ∧
    (∀ kq, kq ∈ filterNonEmptyQueues regression463Queues ↔
      (kq ∈ regression463Queues ∧ kq.2 ≠ []))) :=
  ⟨by decide,
    C27_converter_handover sampleChecksum regression463Processors ⟨62135596800, none⟩
      regression463Queues (by decide)⟩

/-- The regression test for issue 463 evaluated: the import returns without
error, the only converter handed over is the one synthesised for `mail.err`
from the modification time of its empty file, and `mail.err` is the only queue
that gets a watcher. -/
theorem regression463_evaluated :
    (importExistingLogs sampleChecksum regression463Processors ⟨62135596800, none⟩).map
        (fun result => (handedOf result.1, result.2))
      = some ([("mail.err", TimeConverter.fromModificationTime 63755107220)], none) ∧
    filterNonEmptyQueues regression463Queues = [("mail.err", [⟨"mail.err", 63755107220⟩])] := by
  refine ⟨by decide, by decide⟩

/-- C4: when the high-water checksum is nil, `importExistingLogs` returns, with
the error of `updateQueueProcessors` or without, and passes to its publisher
exactly those of the records its merge loop chose whose time is strictly after
`hw.time`, in merge order: the records of the equal-second band are all
skipped.  The records chosen are the merged records, which do not depend on the
high-water; each of them is a parsable line of a queue, no line is chosen
twice, and when the import returns without error, as it does when the converter
of every family can be created, every parsable line of every queue is chosen
exactly once. -/
theorem C4_nil_checksum_skips_band (cs : String → Sum) (ps : List queueProcessor)
    (sum : SumPair) (hs : sum.Sum = none) :
    ∃ events err, importExistingLogs cs ps sum = some (events, err) ∧
      chosenRecords events = mergedRecords ps ∧
      publishedRecords cs events
        = ((mergedRecords ps).filter (fun t => decide (sum.Time < t.time))).map (toRecord cs) ∧
      List.Subperm ((mergedRecords ps).map recordKey)
        (ps.map (fun p => parsedLines p.scanners)).flatten ∧
      (err = none → ((mergedRecords ps).map recordKey).Perm
        (ps.map (fun p => parsedLines p.scanners)).flatten) ∧
      ((∀ p ∈ ps, converterCreated p = true) → err = none) := by
  obtain ⟨events, err, he⟩ := importExistingLogs_some cs ps sum
  have hm := chosenRecords_eq_mergedRecords cs ps sum events err he
  obtain ⟨hsub, hperm, _⟩ := importLoop_merge cs sum _ ps (-1) false events err he
  rw [outstandingLines_first, hm] at hsub hperm
  refine ⟨events, err, he, hm, ?_, hsub, hperm,
    fun hcr => importExistingLogs_created cs ps sum events err hcr he⟩
  rw [publishedRecords_eq, importExistingLogs_decisions cs ps sum events err he,
    highWaterDecisions_nil_sum cs sum hs]
  rw [List.filter_map, List.map_map]
  rfl

theorem C4_nil_checksum_skips_band_witness :
    (SumPair.mk 7 none).Sum = none ∧
    ∃ events err, importExistingLogs String.length sampleQueueProcessors (SumPair.mk 7 none)
        = some (events, err) ∧
      chosenRecords events = mergedRecords sampleQueueProcessors ∧
      publishedRecords String.length events
        = ((mergedRecords sampleQueueProcessors).filter
            (fun t => decide ((SumPair.mk 7 none).Time < t.time))).map (toRecord String.length) ∧
      List.Subperm ((mergedRecords sampleQueueProcessors).map recordKey)
        (sampleQueueProcessors.map (fun p => parsedLines p.scanners)).flatten ∧
      (err = none → ((mergedRecords sampleQueueProcessors).map recordKey).Perm
        (sampleQueueProcessors.map (fun p => parsedLines p.scanners)).flatten) ∧
      ((∀ p ∈ sampleQueueProcessors, converterCreated p = true) → err = none) :=
  ⟨rfl, C4_nil_checksum_skips_band String.length sampleQueueProcessors (SumPair.mk 7 none) rfl⟩

/-- The sample directory run with the high-water `(7, nil)`: the import returns
without error and passes on the two records after second 7, of the six it
chose; on the file that starts with an unparsable line it returns the error of
the first line and has chosen nothing. -/
theorem nil_checksum_import_evaluated :
    (importExistingLogs String.length sampleQueueProcessors (SumPair.mk 7 none)).map
        (fun result => ((chosenRecords result.1).map recordKey,
          (publishedRecords String.length result.1).map (fun r => (r.Time, r.Line)), result.2))
      = some ([(5, "a"), (7, "b"), (7, "c"), (7, "w"), (8, "x"), (9, "d")],
          [(8, "x"), (9, "d")], none) ∧
    (importExistingLogs String.length unparsedFirstLineProcessors (SumPair.mk 5 none)).map
        (fun result => ((chosenRecords result.1).map recordKey, result.2))
      = some ([], some GuessError.firstLine) := by
  refine ⟨by decide, by decide⟩

/-- C14, amended: when the parsable lines of every family, read in plan order,
have non-decreasing times, the high-water is earlier than all of them, no two
parsable lines share both time and checksum, and the converter of every family
can be created (in the file of the family's first parsable line the first line
parses, and so does the last one), the historical import returns without error
and hands the wrapped publisher exactly one record per parsable line of every
planned file, in non-decreasing time order: the first is a globally oldest line
and the last a globally newest one. -/
theorem C14_every_line_published (cs : String → Sum) (ps : List queueProcessor) (sum : SumPair)
    (downstream : List Record)
    (hsorted : ∀ p ∈ ps, (parsedLines p.scanners).Pairwise (fun a b => a.1 ≤ b.1))
    (hhw : ∀ r ∈ allRecords cs ps, sum.Time < r.Time)
    (hdistinct : ((allRecords cs ps).map (fun r => (r.Time, r.Sum))).Nodup)
    (hcreated : ∀ p ∈ ps, converterCreated p = true) :
    ∃ q published, (importExistingLogs cs ps sum).map (fun result => result.2) = some none ∧
      runImport cs ps sum downstream = some q ∧
      q.pub = downstream ++ published ∧
      published.Perm (allRecords cs ps) ∧
      published.length = (allRecords cs ps).length ∧
      published.Pairwise (fun a b => a.Time ≤ b.Time) ∧
      (∀ first, published.head? = some first → ∀ r ∈ allRecords cs ps, first.Time ≤ r.Time) ∧
      (∀ last, published.getLast? = some last → ∀ r ∈ allRecords cs ps, r.Time ≤ last.Time) := by
  obtain ⟨events, err, hev⟩ := importExistingLogs_some cs ps sum
  have herr : err = none := importExistingLogs_created cs ps sum events err hcreated hev
  subst herr
  have hloop : importLoop cs sum (importFuel ps) ps (-1) false = some (events, none) := hev
  obtain ⟨_, hperm0, hsort⟩ := importLoop_merge cs sum _ ps (-1) false events none hloop
  have hperm := hperm0 rfl
  have hsort2 := hsort (by
    intro l hl
    rw [outstandingLines_first] at hl
    obtain ⟨p, hp, rfl⟩ := List.mem_map.1 hl
    exact hsorted p hp)
  have hpubperm : ((chosenRecords events).map (toRecord cs)).Perm (allRecords cs ps) := by
    rw [allRecords_eq]
    have := hperm.map (recordOfLine cs)
    rw [List.map_map] at this
    exact this
  have hafter : ∀ t ∈ chosenRecords events, sum.Time < t.time := by
    intro t ht
    exact hhw (toRecord cs t) (hpubperm.subset (List.mem_map_of_mem _ ht))
  have hdec : chosenDecisions events = (chosenRecords events).map (fun t => (t, true)) := by
    rw [importLoop_decisions cs sum _ ps (-1) false events none hloop]
    exact highWaterDecisions_all_after cs sum _ false hafter
  have hpublished : publishedRecords cs events = (chosenRecords events).map (toRecord cs) := by
    rw [publishedRecords_eq, hdec, List.filter_map, List.map_map]
    simp [Function.comp_def]
  have hle : ((chosenRecords events).map (toRecord cs)).Pairwise (fun a b => a.Time ≤ b.Time) := by
    rw [List.pairwise_map]
    rw [List.pairwise_map] at hsort2
    exact hsort2
  have hnodup : (((chosenRecords events).map (toRecord cs)).map
      (fun r => (r.Time, r.Sum))).Nodup :=
    ((hpubperm.map (fun r => (r.Time, r.Sum))).nodup_iff).2 hdistinct
  have hne : ((chosenRecords events).map (toRecord cs)).Pairwise
      (fun a b => (a.Time, a.Sum) ≠ (b.Time, b.Sum)) := by
    unfold List.Nodup at hnodup
    rw [List.pairwise_map] at hnodup
    exact hnodup
  have hstrict : ((chosenRecords events).map (toRecord cs)).Pairwise
      (fun a b => a.Time < b.Time ∨ (a.Time = b.Time ∧ b.Sum ≠ a.Sum)) := by
    refine (hle.and hne).imp ?_
    intro a b hab
    obtain ⟨h1, h2⟩ := hab
    rcases lt_or_eq_of_le h1 with h | h
    · exact Or.inl h
    · refine Or.inr ⟨h, fun hs => h2 ?_⟩
      rw [h, hs]
  obtain ⟨q, hq, hqpub⟩ := publishAll_forwards_all _ (IgnoringPublisher.mk downstream sum) hstrict
    (fun r hr => Or.inl (hhw r (hpubperm.subset hr)))
  refine ⟨q, (chosenRecords events).map (toRecord cs), ?_, ?_, hqpub, hpubperm,
    hpubperm.length_eq, hle, ?_, ?_⟩
  · rw [hev]; rfl
  · unfold runImport
    rw [hev]
    simp only
    rw [hpublished]
    exact hq
  · intro first hfirst r hr
    have hr2 := hpubperm.symm.subset hr
    cases hl : (chosenRecords events).map (toRecord cs) with
    | nil => rw [hl] at hr2; cases hr2
    | cons x xs =>
      rw [hl] at hfirst hr2 hle
      simp only [List.head?_cons, Option.some.injEq] at hfirst
      subst hfirst
      rcases List.mem_cons.1 hr2 with rfl | h
      · exact le_refl _
      · exact (List.pairwise_cons.1 hle).1 r h
  · intro last hlast r hr
    have hr2 := hpubperm.symm.subset hr
    obtain ⟨ys, hys⟩ := List.getLast?_eq_some_iff.1 hlast
    rw [hys] at hr2 hle
    rcases List.mem_append.1 hr2 with h | h
    · exact (List.pairwise_append.1 hle).2.2 r h last (List.mem_singleton_self _)
    · rw [List.mem_singleton.1 h]

/-- C14 as stated fails on the code.  First, a family holds the same line twice
in the same second, its times are non-decreasing and the high-water is earlier
than both lines; `importExistingLogs` passes both records on, and the
`ignoringPublisher` forwards the first and ignores the second, which has the
time and checksum of the new high-water: one record for two parsable lines.
Second, the only file of a family starts with a line whose header does not
parse, followed by two parsable lines with increasing times and distinct
checksums, all after the high-water: at the first parsable line the converter
cannot be created, `importExistingLogs` returns the error of
`guessInitialDateForFile` and no record is published for the two parsable
lines. -/
theorem C14_counterexample :
    (∀ p ∈ repeatedLineProcessors, (parsedLines p.scanners).Pairwise (fun a b => a.1 ≤ b.1)) ∧
    (∀ r ∈ allRecords sampleChecksum repeatedLineProcessors, (SumPair.mk 5 none).Time < r.Time) ∧
    (allRecords sampleChecksum repeatedLineProcessors).length = 2 ∧
    (importExistingLogs sampleChecksum repeatedLineProcessors ⟨5, none⟩).map
        (fun result => ((publishedRecords sampleChecksum result.1).length, result.2))
      = some (2, none) ∧
    (runImport sampleChecksum repeatedLineProcessors ⟨5, none⟩ []).map (fun q => q.pub)
      = some [⟨7, "warning: x", 10⟩] ∧
    (∀ p ∈ unparsedFirstLineProcessors,
      (parsedLines p.scanners).Pairwise (fun a b => a.1 ≤ b.1)) ∧
    (∀ r ∈ allRecords sampleChecksum unparsedFirstLineProcessors,
      (SumPair.mk 5 none).Time < r.Time) ∧
    ((allRecords sampleChecksum unparsedFirstLineProcessors).map
      (fun r => (r.Time, r.Sum))).Nodup ∧
    (allRecords sampleChecksum unparsedFirstLineProcessors).length = 2 ∧
    (importExistingLogs sampleChecksum unparsedFirstLineProcessors ⟨5, none⟩).map
        (fun result => ((publishedRecords sampleChecksum result.1).length, result.2))
      = some (0, some GuessError.firstLine) ∧
    (runImport sampleChecksum unparsedFirstLineProcessors ⟨5, none⟩ []).map (fun q => q.pub)
      = some [] := by
  refine ⟨by decide, by decide, by decide, by decide, by decide, by decide, by decide, by decide,
    by decide, by decide, by decide⟩

set_option maxRecDepth 100000 in
/-- The regression directory as dated: the guess for the first file of each
family is the time of its first line (`2020-12-06 06:25:06` for
`mail.log.4.gz`, `2019-02-28 22:08:56` for `mail.err.2.gz`, as the regression
test expects), and the times of the lines and the modification times of the
files are these, in seconds since the zero instant. -/
theorem regression_directory_dated :
    guessInitialDateForFile plainTimeFormat
        [some ⟨Month.December, 6, 6, 25, 6⟩, some ⟨Month.December, 6, 6, 25, 6⟩,
          some ⟨Month.December, 14, 6, 24, 27⟩]
        ⟨2020, Month.December, 14, 5, 24, 27⟩
      = Except.ok ⟨2020, Month.December, 6, 6, 25, 6⟩ ∧
    guessInitialDateForFile plainTimeFormat
        [some ⟨Month.February, 28, 22, 8, 56⟩, some ⟨Month.February, 28, 22, 39, 44⟩,
          some ⟨Month.February, 28, 22, 43, 31⟩]
        ⟨2019, Month.February, 28, 21, 43, 31⟩
      = Except.ok ⟨2019, Month.February, 28, 22, 8, 56⟩ ∧
    regressionProcessors.map (fun p => (parsedLines p.scanners).map Prod.fst)
      = [ [
            63742832706, 63742832706, 63743523867, 63743523907, 63743523907, 63744042160,
            63744042307, 63744042307, 63744733504, 63744733507, 63744733507, 63745251779,
            63745251907, 63745251907, 63745452347 ],
          [
            63686988536, 63686990384, 63686990611, 63697077609 ] ] ∧
    regressionProcessors.map (fun p => p.entries.map (fun e => e.modificationTime))
      = [ [
            63743520267, 63744038560, 63744729904, 63745248179, 63745448747 ],
          [
            63686987011, 63728692809, 63728742301 ] ] := by
  refine ⟨by rfl, by rfl, by decide, by decide⟩

set_option maxRecDepth 100000 in
/-- The regression directory of issue 368 run through the historical import:
the import returns without error and 19 records reach the wrapped publisher,
the first dated `2019-02-28 22:08:56` and the last `2021-01-05 14:05:47`. -/
theorem regression_import_evaluated :
    (importExistingLogs sampleChecksum regressionProcessors regressionSum).map
        (fun result => result.2) = some none ∧
    (runImport sampleChecksum regressionProcessors regressionSum []).map
        (fun q => (q.pub.length, q.pub.head?.map (fun r => r.Time),
          q.pub.getLast?.map (fun r => r.Time)))
      = some (19, some 63686988536, some 63745452347) := by
  refine ⟨by decide, by decide⟩

set_option maxRecDepth 100000 in
theorem C14_every_line_published_witness :
    (∀ p ∈ regressionProcessors, (parsedLines p.scanners).Pairwise (fun a b => a.1 ≤ b.1)) ∧
    (∀ r ∈ allRecords sampleChecksum regressionProcessors, regressionSum.Time < r.Time) ∧
    ((allRecords sampleChecksum regressionProcessors).map (fun r => (r.Time, r.Sum))).Nodup ∧
    (∀ p ∈ regressionProcessors, converterCreated p = true) ∧
    (allRecords sampleChecksum regressionProcessors).length = 19 ∧
    (∃ q published,
      (importExistingLogs sampleChecksum regressionProcessors regressionSum).map
        (fun result => result.2) = some none ∧
      runImport sampleChecksum regressionProcessors regressionSum [] = some q ∧
      q.pub = [] ++ published ∧
      published.Perm (allRecords sampleChecksum regressionProcessors) ∧
      published.length = (allRecords sampleChecksum regressionProcessors).length ∧
      published.Pairwise (fun a b => a.Time ≤ b.Time) ∧
      (∀ first, published.head? = some first →
        ∀ r ∈ allRecords sampleChecksum regressionProcessors, first.Time ≤ r.Time) ∧
      (∀ last, published.getLast? = some last →
        ∀ r ∈ allRecords sampleChecksum regressionProcessors, r.Time ≤ last.Time)) :=
  ⟨by decide, by decide, by decide, by decide, by decide,
    C14_every_line_published sampleChecksum regressionProcessors regressionSum []
      (by decide) (by decide) (by decide) (by decide)⟩

/-- C23 fails on the code: the listing of `mail.log` and
`mail.log.99999999999999999999` can be read, is not empty and has a file of the
`mail.log` family, yet `buildQueuesForDirImporter` returns neither
`ErrLogFilesNotFound` nor a plan: the suffix is beyond the range of `int`, the
assertion `errorutil.MustSucceed(err, "Atoi")` of the planner fires and the
panic leaves `buildQueuesForDirImporter`. -/
theorem C23_atoi_assertion_fires :
    hugeSuffixListing.map (fun e => e.filename)
      = ["mail.log", "mail.log.99999999999999999999"] ∧
    buildFilesToImport hugeSuffixListing DefaultLogPatterns 0 = none ∧
    buildQueuesForDirImporter (some hugeSuffixListing) DefaultLogPatterns 0 = none := by
  refine ⟨by decide, by decide, by rfl⟩

/-- The outcomes of `buildQueuesForDirImporter` by the outcome of the planner:
`ErrLogFilesNotFound` exactly when the directory listing cannot be read, is
empty, or the planner returns a plan in which no family has a planned file; the
plan, unchanged, when the planner returns one with a planned file for some
family; the panic of the planner otherwise. -/
theorem buildQueuesForDirImporter_outcomes (fileEntries : Option fileEntryList) (patterns : LogPatterns)
    (initialTime : Time) :
    (buildQueuesForDirImporter fileEntries patterns initialTime
        = some (Except.error ImporterError.ErrLogFilesNotFound) ↔
      (fileEntries = none ∨ fileEntries = some [] ∨
        ∃ entries queues, fileEntries = some entries ∧
          buildFilesToImport entries patterns initialTime = some queues ∧
          ∀ kq ∈ queues, kq.2 = [])) ∧
    (∀ entries queues, fileEntries = some entries → entries ≠ [] →
      buildFilesToImport entries patterns initialTime = some queues →
      (∃ kq ∈ queues, kq.2 ≠ []) →
      buildQueuesForDirImporter fileEntries patterns initialTime = some (Except.ok queues)) ∧
    (buildQueuesForDirImporter fileEntries patterns initialTime = none ↔
      ∃ entries, fileEntries = some entries ∧ entries ≠ [] ∧
        buildFilesToImport entries patterns initialTime = none) := by
  cases fileEntries with
  | none =>
    refine ⟨⟨fun _ => Or.inl rfl, fun _ => rfl⟩, ?_, ⟨fun h => ?_, ?_⟩⟩
    · intro entries queues h; cases h
    · simp [buildQueuesForDirImporter] at h
    · rintro ⟨entries, h, _⟩; cases h
  | some entries =>
    by_cases hempty : entries = []
    · subst hempty
      refine ⟨⟨fun _ => Or.inr (Or.inl rfl), fun _ => rfl⟩, ?_, ⟨fun h => ?_, ?_⟩⟩
      · intro entries queues h hne; cases h; exact absurd rfl hne
      · simp [buildQueuesForDirImporter] at h
      · rintro ⟨entries, h, hne, _⟩; cases h; exact absurd rfl hne
    · have hlen : ¬ entries.length = 0 := fun h => hempty (List.length_eq_zero.1 h)
      cases hplan : buildFilesToImport entries patterns initialTime with
      | none =>
        have hres : buildQueuesForDirImporter (some entries) patterns initialTime = none := by
          simp only [buildQueuesForDirImporter, if_neg hlen, hplan]
        rw [hres]
        refine ⟨⟨fun h => (by cases h), ?_⟩, ?_, ⟨fun _ => ⟨entries, rfl, hempty, hplan⟩, fun _ => rfl⟩⟩
        · rintro (h | h | ⟨e, q, h, hq, _⟩)
          · cases h
          · cases h; exact absurd rfl hempty
          · cases h; rw [hplan] at hq; cases hq
        · intro e q h _ hq; cases h; rw [hplan] at hq; cases hq
      | some queues =>
        by_cases hany : queues.any (fun q => decide (q.2.length ≠ 0)) = true
        · have hq0 : ¬ queues.length = 0 := by
            intro h
            rw [List.length_eq_zero.1 h] at hany
            simp at hany
          have hres : buildQueuesForDirImporter (some entries) patterns initialTime
              = some (Except.ok queues) := by
            simp only [buildQueuesForDirImporter, if_neg hlen, hplan, if_neg hq0, if_pos hany]
          rw [hres]
          obtain ⟨kq, hkq, hne⟩ := List.any_eq_true.1 hany
          have hne2 : kq.2 ≠ [] := by
            intro h
            rw [h] at hne
            simp at hne
          refine ⟨⟨fun h => (by cases h), ?_⟩, ?_, ⟨fun h => (by cases h), ?_⟩⟩
          · rintro (h | h | ⟨e, q, h, hq, hall⟩)
            · cases h
            · cases h; exact absurd rfl hempty
            · cases h
              rw [hplan] at hq
              cases hq
              exact absurd (hall kq hkq) hne2
          · intro e q h _ hq _
            cases h
            rw [hplan] at hq
            cases hq
            rfl
          · rintro ⟨e, h, _, hq⟩
            cases h
            rw [hplan] at hq
            cases hq
        · have hall : ∀ kq ∈ queues, kq.2 = [] := by
            intro kq hkq
            by_contra hne
            apply hany
            exact List.any_eq_true.2 ⟨kq, hkq, by simpa [List.length_eq_zero] using hne⟩
          have hres : buildQueuesForDirImporter (some entries) patterns initialTime
              = some (Except.error ImporterError.ErrLogFilesNotFound) := by
            simp only [buildQueuesForDirImporter, if_neg hlen, hplan, if_neg hany]
            split <;> rfl
          rw [hres]
          refine ⟨⟨fun _ => Or.inr (Or.inr ⟨entries, queues, rfl, hplan, hall⟩), fun _ => rfl⟩,
            ?_, ⟨fun h => (by cases h), ?_⟩⟩
          · intro e q h _ hq hex
            cases h
            rw [hplan] at hq
            cases hq
            obtain ⟨kq, hkq, hne⟩ := hex
            exact absurd (hall kq hkq) hne
          · rintro ⟨e, h, _, hq⟩
            cases h
            rw [hplan] at hq
            cases hq

theorem foldl_append_singleton {α β : Type} (f : α → β) (l : List α) :
    ∀ (acc : List β), l.foldl (fun records d => records ++ [f d]) acc = acc ++ l.map f := by
  induction l with
  | nil => intro acc; simp
  | cons a l ih => intro acc; simp [List.foldl_cons, ih]

theorem exportCSV_fold (format : CSVFormat) (ms : List Message) :
    ∀ (acc : List (List String)),
      ms.foldl
        (fun records m =>
          m.Entries.foldl (fun records d => records ++ [d.ExportCSV format m.Queue m.MessageID])
            records) acc
        = acc ++ ms.flatMap
            (fun m => m.Entries.map (fun d => d.ExportCSV format m.Queue m.MessageID)) := by
  induction ms with
  | nil => intro acc; simp
  | cons m ms ih =>
    intro acc
    simp only [List.foldl_cons, List.flatMap_cons]
    rw [foldl_append_singleton, ih, List.append_assoc]

/-- C21: `MessagesPage.ExportCSV` returns one record per delivery entry, in
message order then entry order; every record has as many cells as `CSVHeader`,
namely 12, which are, under the header names in their order, the sender, the
recipients joined by newlines, the message id, the queue, the number of
attempts, the minimum and maximum times, the status, the DSN, the expiry time,
the relays and the raw log lines joined by newlines; the `Expired` cell is empty
exactly when the entry has no expiration time (a formatted time is never
empty). -/
theorem C21_export_csv (format : CSVFormat) (p : MessagesPage)
    (hformat : ∀ t, format.FormatTime t ≠ "") :
    p.ExportCSV format
      = p.Messages.flatMap
          (fun m => m.Entries.map (fun d => d.ExportCSV format m.Queue m.MessageID)) ∧
    (p.ExportCSV format).length = (p.Messages.map (fun m => m.Entries.length)).sum ∧
    (∀ record ∈ p.ExportCSV format, record.length = CSVHeader.length ∧ record.length = 12) ∧
    (∀ (d : MessageDelivery) (queue messageid : String),
      CSVHeader.zip (d.ExportCSV format queue messageid)
        = [ ("MailFrom", d.MailFrom),
            ("MailTo", String.intercalate "\n" d.MailTo),
            ("MessageID", messageid),
            ("Queue", queue),
            ("NumberOfAttempts", Itoa d.NumberOfAttempts),
            ("TimeMin", format.FormatTime d.TimeMin),
            ("TimeMax", format.FormatTime d.TimeMax),
            ("Status", format.StatusString d.Status),
            ("DSN", d.Dsn),
            ("Expired", (d.Expired.map format.FormatTime).getD ""),
            ("Relays", String.intercalate "\n" d.Relays),
            ("RawLogMsgs", String.intercalate "\n" d.RawLogMsgs) ] ∧
      ((d.ExportCSV format queue messageid).get? 9 = some "" ↔ d.Expired = none)) := by
  have heq : p.ExportCSV format
      = p.Messages.flatMap
          (fun m => m.Entries.map (fun d => d.ExportCSV format m.Queue m.MessageID)) := by
    unfold MessagesPage.ExportCSV
    rw [exportCSV_fold]
    rfl
  refine ⟨heq, ?_, ?_, ?_⟩
  · rw [heq]
    generalize p.Messages = ms
    induction ms with
    | nil => rfl
    | cons m ms ih => simp [List.flatMap_cons, ih]
  · intro record hrecord
    rw [heq] at hrecord
    obtain ⟨m, _, hm⟩ := List.mem_flatMap.1 hrecord
    obtain ⟨d, _, rfl⟩ := List.mem_map.1 hm
    exact ⟨rfl, rfl⟩
  · intro d queue messageid
    constructor
    · cases hd : d.Expired with
      | none => simp [MessageDelivery.ExportCSV, CSVHeader, hd]
      | some t => simp [MessageDelivery.ExportCSV, CSVHeader, hd]
    · cases hd : d.Expired with
      | none => simp [MessageDelivery.ExportCSV, hd]
      | some t =>
        simp only [MessageDelivery.ExportCSV, hd]
        constructor
        · intro h
          have h2 : format.FormatTime t = "" := by simpa using h
          exact absurd h2 (hformat t)
        · intro h; cases h

theorem sampleCSVFormat_nonempty : ∀ t, sampleCSVFormat.FormatTime t ≠ "" := by
  intro t h
  have h2 := congrArg String.data h
  simp [sampleCSVFormat] at h2

theorem C21_export_csv_witness :
    (∀ t, sampleCSVFormat.FormatTime t ≠ "") ∧
    (samplePage.ExportCSV sampleCSVFormat
      = samplePage.Messages.flatMap
          (fun m => m.Entries.map (fun d => d.ExportCSV sampleCSVFormat m.Queue m.MessageID)) ∧
    (samplePage.ExportCSV sampleCSVFormat).length
      = (samplePage.Messages.map (fun m => m.Entries.length)).sum ∧
    (∀ record ∈ samplePage.ExportCSV sampleCSVFormat,
      record.length = CSVHeader.length ∧ record.length = 12) ∧
    (∀ (d : MessageDelivery) (queue messageid : String),
      CSVHeader.zip (d.ExportCSV sampleCSVFormat queue messageid)
        = [ ("MailFrom", d.MailFrom),
            ("MailTo", String.intercalate "\n" d.MailTo),
            ("MessageID", messageid),
            ("Queue", queue),
            ("NumberOfAttempts", Itoa d.NumberOfAttempts),
            ("TimeMin", sampleCSVFormat.FormatTime d.TimeMin),
            ("TimeMax", sampleCSVFormat.FormatTime d.TimeMax),
            ("Status", sampleCSVFormat.StatusString d.Status),
            ("DSN", d.Dsn),
            ("Expired", (d.Expired.map sampleCSVFormat.FormatTime).getD ""),
            ("Relays", String.intercalate "\n" d.Relays),
            ("RawLogMsgs", String.intercalate "\n" d.RawLogMsgs) ] ∧
      ((d.ExportCSV sampleCSVFormat queue messageid).get? 9 = some "" ↔ d.Expired = none))) :=
  ⟨sampleCSVFormat_nonempty, C21_export_csv sampleCSVFormat samplePage sampleCSVFormat_nonempty⟩

/-- The export of the sample page: three records, for the two entries of queue
`A` and the entry of queue `B`. -/
theorem sample_export_evaluated :
    (samplePage.ExportCSV sampleCSVFormat).map (fun record => (record.get? 3, record.get? 7))
      = [(some "A", some "0"), (some "A", some "2"), (some "B", some "0")] := by
  decide

theorem lookup_filter_ne (key other : Int) (l : List (Int × Stmt)) (h : other ≠ key) :
    (l.filter (fun kv => decide (kv.1 ≠ key))).lookup other = l.lookup other := by
  induction l with
  | nil => rfl
  | cons kv l ih =>
    obtain ⟨k, s⟩ := kv
    by_cases hk : k = key
    · subst hk
      rw [List.filter_cons_of_neg (by simp)]
      rw [ih]
      have : (other == k) = false := by simpa using h
      simp [List.lookup, this]
    · rw [List.filter_cons_of_pos (by simpa using hk)]
      by_cases ho : other = k
      · subst ho
        simp [List.lookup]
      · have : (other == k) = false := by simpa using ho
        simp only [List.lookup, this]
        exact ih

/-- C22: on a pooled read-only handle, when `PrepareStmt(query, key)` returns
`nil`, the key was not prepared before, `GetStmt(key)` returns the statement the
driver prepared for the query, and the statements of the other keys are as
before; `GetStmt` only reads the map and panics exactly for a key with no
statement; `PrepareStmt` with a key that has a statement panics and leaves the
handle, with its cached statement, as it was; and when the driver fails the
error is returned with the handle unchanged. -/
theorem C22_prepared_statements (c : RoPooledConn) (prepare : String → Option Stmt)
    (query : String) (key : Int) :
    (∀ c2, c.PrepareStmt prepare query key = PrepareResult.prepared c2 →
      c.GetStmt key = none ∧
      (∃ stmt, prepare query = some stmt ∧ c2.GetStmt key = some stmt) ∧
      (∀ other, other ≠ key → c2.GetStmt other = c.GetStmt other)) ∧
    (c.GetStmt key = none ↔ c.stmts.lookup key = none) ∧
    (∀ stmt, c.stmts.lookup key = some stmt →
      c.GetStmt key = some stmt ∧ c.PrepareStmt prepare query key = PrepareResult.panicked c) ∧
    (c.stmts.lookup key = none → prepare query = none →
      c.PrepareStmt prepare query key = PrepareResult.failed c) := by
  refine ⟨?_, ?_, ?_, ?_⟩
  · intro c2 h
    unfold RoPooledConn.PrepareStmt at h
    cases hl : c.stmts.lookup key with
    | some s => rw [hl] at h; cases h
    | none =>
      rw [hl] at h
      cases hp : prepare query with
      | none => rw [hp] at h; cases h
      | some stmt =>
        rw [hp] at h
        simp only [PrepareResult.prepared.injEq] at h
        subst h
        refine ⟨by simp [RoPooledConn.GetStmt, hl], ⟨stmt, rfl, ?_⟩, ?_⟩
        · simp [RoPooledConn.GetStmt, List.lookup]
        · intro other hne
          have hb : (other == key) = false := by simpa using hne
          simp only [RoPooledConn.GetStmt, List.lookup, hb]
          rw [lookup_filter_ne key other c.stmts hne]
  · unfold RoPooledConn.GetStmt
    cases c.stmts.lookup key <;> simp
  · intro stmt h
    simp [RoPooledConn.GetStmt, RoPooledConn.PrepareStmt, h]
  · intro h1 h2
    simp [RoPooledConn.PrepareStmt, h1, h2]

/-- The handle of the detective: after preparing the statements of keys 0 and
1, each key gives its statement, key 2 panics, and preparing key 0 again
panics with the handle unchanged. -/
theorem prepared_handle_evaluated :
    freshConn.PrepareStmt samplePrepare "select 1" 0
      = PrepareResult.prepared ⟨[(0, ⟨"select 1"⟩)], [⟨"select 1"⟩]⟩ ∧
    (RoPooledConn.mk [(0, ⟨"select 1"⟩)] [⟨"select 1"⟩]).PrepareStmt samplePrepare "select 2" 1
      = PrepareResult.prepared
          ⟨[(1, ⟨"select 2"⟩), (0, ⟨"select 1"⟩)], [⟨"select 1"⟩, ⟨"select 2"⟩]⟩ ∧
    (RoPooledConn.mk [(1, ⟨"select 2"⟩), (0, ⟨"select 1"⟩)] []).GetStmt 0 = some ⟨"select 1"⟩ ∧
    (RoPooledConn.mk [(1, ⟨"select 2"⟩), (0, ⟨"select 1"⟩)] []).GetStmt 2 = none ∧
    (RoPooledConn.mk [(1, ⟨"select 2"⟩), (0, ⟨"select 1"⟩)] []).PrepareStmt samplePrepare
        "select 3" 0
      = PrepareResult.panicked ⟨[(1, ⟨"select 2"⟩), (0, ⟨"select 1"⟩)], []⟩ := by
  decide

theorem heapSwap_length {α : Type} (h : List α) (i j : Nat) :
    (heapSwap h i j).length = h.length := by
  unfold heapSwap
  split <;> simp

theorem heapUp_length {α : Type} (less : α → α → Bool) (fuel : Nat) :
    ∀ (h : List α) (j : Nat), (heapUp less fuel h j).length = h.length := by
  induction fuel with
  | zero => intro h j; rfl
  | succ fuel ih =>
    intro h j
    simp only [heapUp]
    split
    · rfl
    · split
      · split
        · rw [ih, heapSwap_length]
        · rfl
      · rfl

theorem heapPush_length {α : Type} (less : α → α → Bool) (h : List α) (x : α) :
    (heapPush less h x).length = h.length + 1 := by
  unfold heapPush
  rw [heapUp_length]
  simp

theorem sorterLoop_received (rs : List sortableRecord) :
    ∀ (state : List sortableRecord × List sortableRecord),
      ((rs.map SorterEvent.received).foldl sorterStep state).1.length
        = state.1.length + rs.length := by
  induction rs with
  | nil => intro state; rfl
  | cons r rs ih =>
    intro state
    simp only [List.map_cons, List.foldl_cons, List.length_cons]
    rw [ih]
    simp only [sorterStep, heapPush_length]
    omega

/-- C24 fails on the code: `heap.Push` appends without looking at the length,
and 2048 is only the initial capacity of the slice.  After any number of
records received with no tick between them the heap holds all of them; with
2049 records it holds 2049 entries, more than
`maxNumberOfCachedElementsInTheHeap`. -/
theorem C24_heap_grows_past_bound :
    (∀ rs : List sortableRecord,
      (sorterLoop (rs.map SorterEvent.received)).1.length = rs.length) ∧
    (∀ r : sortableRecord,
      maxNumberOfCachedElementsInTheHeap
        < (sorterLoop ((List.replicate 2049 r).map SorterEvent.received)).1.length) := by
  have h : ∀ rs : List sortableRecord,
      (sorterLoop (rs.map SorterEvent.received)).1.length = rs.length := by
    intro rs
    unfold sorterLoop
    rw [sorterLoop_received]
    simp
  refine ⟨h, ?_⟩
  intro r
  rw [h, List.length_replicate]
  decide

theorem heapSwap_get? {α : Type} (h : List α) (i j : Nat) (hi : i < h.length)
    (hj : j < h.length) (k : Nat) :
    (heapSwap h i j).get? k
      = if k = j then h.get? i else if k = i then h.get? j else h.get? k := by
  unfold heapSwap
  rw [List.get?_eq_get hi, List.get?_eq_get hj]
  simp only [List.get?_eq_getElem?, List.getElem?_set, List.length_set]
  by_cases hkj : k = j
  · subst hkj
    simp [hj]
  · by_cases hki : k = i
    · subst hki
      have : ¬ j = k := fun h => hkj h.symm
      simp [this, hkj, hi]
    · have h1 : ¬ j = k := fun h => hkj h.symm
      have h2 : ¬ i = k := fun h => hki h.symm
      simp [h1, h2, hkj, hki]

theorem heapSwap_perm {α : Type} [DecidableEq α] (h : List α) (i j : Nat) :
    (heapSwap h i j).Perm h := by
  unfold heapSwap
  cases hi : h.get? i with
  | none => exact List.Perm.refl _
  | some a =>
    cases hj : h.get? j with
    | none => exact List.Perm.refl _
    | some b =>
      simp only
      have hil : i < h.length := by
        by_contra hcon
        rw [List.get?_eq_none.2 (by omega)] at hi
        cases hi
      have hjl : j < h.length := by
        by_contra hcon
        rw [List.get?_eq_none.2 (by omega)] at hj
        cases hj
      have hia : h[i] = a := by
        have := List.get?_eq_get hil
        rw [hi] at this
        exact (Option.some.inj this).symm
      have hjb : h[j] = b := by
        have := List.get?_eq_get hjl
        rw [hj] at this
        exact (Option.some.inj this).symm
      rw [List.perm_iff_count]
      intro c
      have hjl2 : j < (h.set i b).length := by simpa using hjl
      rw [List.count_set a c (h.set i b) j hjl2, List.count_set b c h i hil]
      have hget : (h.set i b)[j] = b := by
        rw [List.getElem_set]
        split
        · rfl
        · exact hjb
      rw [hget, hia]
      have hpos : (if (a == c) = true then 1 else 0) ≤ h.count c := by
        split
        · rename_i hac
          have hac2 : a = c := by simpa using hac
          subst hac2
          exact List.count_pos_iff.2 (hia ▸ List.getElem_mem hil)
        · exact Nat.zero_le _
      omega

theorem get?_lt_length {α : Type} (h : List α) (k : Nat) (x : α) (hk : h.get? k = some x) :
    k < h.length := by
  by_contra hcon
  rw [List.get?_eq_none.2 (by omega)] at hk
  cases hk

theorem heapUp_heap {α : Type} [DecidableEq α] (less : α → α → Bool) (hord : heapOrder less)
    (fuel : Nat) :
    ∀ (h : List α) (j : Nat), j ≤ fuel → j < h.length → upInvariant less h j →
      isHeap less (heapUp less fuel h j) h.length ∧ (heapUp less fuel h j).Perm h := by
  obtain ⟨hasym, htrans⟩ := hord
  induction fuel with
  | zero =>
    intro h j hj _ hinv
    have hj0 : j = 0 := by omega
    subst hj0
    refine ⟨?_, List.Perm.refl _⟩
    intro k x y hk _ hx hy
    exact hinv.1 k x y hk (by omega) hx hy
  | succ fuel ih =>
    intro h j hj hjl hinv
    simp only [heapUp]
    by_cases hij : (j - 1) / 2 = j
    · rw [if_pos hij]
      refine ⟨?_, List.Perm.refl _⟩
      intro k x y hk _ hx hy
      exact hinv.1 k x y hk (by omega) hx hy
    · rw [if_neg hij]
      have hil : (j - 1) / 2 < h.length := by omega
      rw [List.get?_eq_get hjl, List.get?_eq_get hil]
      simp only
      by_cases hless : less (h.get ⟨j, hjl⟩) (h.get ⟨(j - 1) / 2, hil⟩) = true
      · rw [if_pos hless]
        have hswap := heapSwap_get? h ((j - 1) / 2) j hil hjl
        have hgi : h.get? ((j - 1) / 2) = some (h.get ⟨(j - 1) / 2, hil⟩) := List.get?_eq_get hil
        have hgj : h.get? j = some (h.get ⟨j, hjl⟩) := List.get?_eq_get hjl
        have hrec := ih (heapSwap h ((j - 1) / 2) j) ((j - 1) / 2) (by omega)
          (by rw [heapSwap_length]; exact hil) ?_
        · rw [heapSwap_length] at hrec
          exact ⟨hrec.1, hrec.2.trans (heapSwap_perm h _ _)⟩
        · constructor
          · intro k x y hk hki hx hy
            rw [hswap] at hx hy
            by_cases hkj : k = j
            · subst hkj
              rw [if_pos rfl, hgi] at hx
              rw [if_neg hij, if_pos rfl, hgj] at hy
              cases hx; cases hy
              exact hasym _ _ hless
            · rw [if_neg hkj, if_neg hki] at hx
              by_cases hpj : (k - 1) / 2 = j
              · rw [if_pos hpj, hgi] at hy
                cases hy
                exact hinv.2 k x _ hk (by omega) hpj hx hgi
              · rw [if_neg hpj] at hy
                by_cases hpi : (k - 1) / 2 = (j - 1) / 2
                · rw [if_pos hpi, hgj] at hy
                  cases hy
                  have hedge := hinv.1 k x _ hk hkj hx (by rw [hpi]; exact hgi)
                  exact htrans _ _ _ (hasym _ _ hless) hedge
                · rw [if_neg hpi] at hy
                  exact hinv.1 k x y hk hkj hx hy
          · intro k x z hk hi0 hpk hx hz
            rw [hswap] at hx hz
            have hpi1 : ¬ (((j - 1) / 2 - 1) / 2 = j) := by omega
            have hpi2 : ¬ (((j - 1) / 2 - 1) / 2 = (j - 1) / 2) := by omega
            rw [if_neg hpi1, if_neg hpi2] at hz
            have hedgei := hinv.1 ((j - 1) / 2) _ z hi0 hij hgi hz
            by_cases hkj : k = j
            · subst hkj
              rw [if_pos rfl, hgi] at hx
              cases hx
              exact hedgei
            · have hki : ¬ k = (j - 1) / 2 := by omega
              rw [if_neg hkj, if_neg hki] at hx
              have hedge := hinv.1 k x _ hk hkj hx (by rw [hpk]; exact hgi)
              exact htrans _ _ _ hedgei hedge
      · rw [if_neg hless]
        refine ⟨?_, List.Perm.refl _⟩
        intro k x y hk _ hx hy
        by_cases hkj : k = j
        · subst hkj
          rw [List.get?_eq_get hjl] at hx
          rw [List.get?_eq_get hil] at hy
          cases hx; cases hy
          simpa using hless
        · exact hinv.1 k x y hk hkj hx hy

theorem get?_append_singleton_lt {α : Type} (h : List α) (x : α) (k : Nat) (hk : k < h.length) :
    (h ++ [x]).get? k = h.get? k := by
  simp only [List.get?_eq_getElem?]
  exact List.getElem?_append_left hk

theorem heapPush_heap {α : Type} [DecidableEq α] (less : α → α → Bool) (hord : heapOrder less)
    (h : List α) (x : α) (hh : isHeap less h h.length) :
    isHeap less (heapPush less h x) (h.length + 1) ∧ (heapPush less h x).Perm (x :: h) := by
  unfold heapPush
  have hlen : (h ++ [x]).length = h.length + 1 := by simp
  have hinv : upInvariant less (h ++ [x]) h.length := by
    constructor
    · intro k a b hk hne ha hb
      have hkl := get?_lt_length _ _ _ ha
      rw [hlen] at hkl
      have hk2 : k < h.length := by omega
      rw [get?_append_singleton_lt h x k hk2] at ha
      rw [get?_append_singleton_lt h x _ (by omega)] at hb
      exact hh k a b hk hk2 ha hb
    · intro k a z hk hj hp ha _
      have hkl := get?_lt_length _ _ _ ha
      rw [hlen] at hkl
      omega
  have := heapUp_heap less hord (h.length + 1) (h ++ [x]) h.length (by omega)
    (by rw [hlen]; omega) hinv
  rw [hlen] at this
  refine ⟨this.1, this.2.trans ?_⟩
  exact List.perm_append_comm

theorem less_irrefl_of_heapOrder {α : Type} (less : α → α → Bool) (hord : heapOrder less)
    (a : α) : less a a = false := by
  cases h : less a a with
  | false => rfl
  | true => exact (hord.1 a a h).symm.trans h |> fun h2 => by cases h2

theorem smallerChild_spec {α : Type} (less : α → α → Bool) (hord : heapOrder less)
    (h : List α) (i n : Nat) (h1 : 2 * i + 1 < n) (hn : n ≤ h.length) :
    (smallerChild less h i n = 2 * i + 1 ∨ smallerChild less h i n = 2 * i + 2) ∧
    smallerChild less h i n < n ∧
    (∀ c xc xj, (c = 2 * i + 1 ∨ c = 2 * i + 2) → c < n → h.get? c = some xc →
      h.get? (smallerChild less h i n) = some xj → less xc xj = false) := by
  have hl1 : 2 * i + 1 < h.length := by omega
  by_cases h2 : 2 * i + 2 < h.length
  · unfold smallerChild
    rw [List.get?_eq_get hl1, List.get?_eq_get h2]
    simp only
    by_cases hc : 2 * i + 2 < n ∧ less (h.get ⟨2 * i + 2, h2⟩) (h.get ⟨2 * i + 1, hl1⟩) = true
    · rw [if_pos hc]
      refine ⟨Or.inr rfl, hc.1, ?_⟩
      intro c xc xj hcc _ hxc hxj
      rw [List.get?_eq_get h2] at hxj
      cases hxj
      rcases hcc with rfl | rfl
      · rw [List.get?_eq_get hl1] at hxc
        cases hxc
        exact hord.1 _ _ hc.2
      · rw [List.get?_eq_get h2] at hxc
        cases hxc
        exact less_irrefl_of_heapOrder less hord _
    · rw [if_neg hc]
      refine ⟨Or.inl rfl, h1, ?_⟩
      intro c xc xj hcc hcn hxc hxj
      rw [List.get?_eq_get hl1] at hxj
      cases hxj
      rcases hcc with rfl | rfl
      · rw [List.get?_eq_get hl1] at hxc
        cases hxc
        exact less_irrefl_of_heapOrder less hord _
      · rw [List.get?_eq_get h2] at hxc
        cases hxc
        have : ¬ less (h.get ⟨2 * i + 2, h2⟩) (h.get ⟨2 * i + 1, hl1⟩) = true :=
          fun hl => hc ⟨hcn, hl⟩
        simpa using this
  · have hsc : smallerChild less h i n = 2 * i + 1 := by
      unfold smallerChild
      rw [List.get?_eq_none.2 (by omega)]
    rw [hsc]
    refine ⟨Or.inl rfl, h1, ?_⟩
    intro c xc xj hcc hcn hxc hxj
    rw [List.get?_eq_get hl1] at hxj
    cases hxj
    rcases hcc with rfl | rfl
    · rw [List.get?_eq_get hl1] at hxc
      cases hxc
      exact less_irrefl_of_heapOrder less hord _
    · omega

theorem heapDown_heap {α : Type} [DecidableEq α] (less : α → α → Bool) (hord : heapOrder less)
    (fuel : Nat) :
    ∀ (h : List α) (i n : Nat), n ≤ fuel + i → n ≤ h.length → downInvariant less h i n →
      isHeap less (heapDown less fuel h i n) n ∧ (heapDown less fuel h i n).Perm h ∧
      (∀ k, n ≤ k → (heapDown less fuel h i n).get? k = h.get? k) := by
  have hasym := hord.1
  have htrans := hord.2
  have hleaf : ∀ (h : List α) (i n : Nat), 2 * i + 1 ≥ n → downInvariant less h i n →
      isHeap less h n := by
    intro h i n hge hinv k x y hk hkn hx hy
    exact hinv.1 k x y hk hkn (by omega) hx hy
  induction fuel with
  | zero =>
    intro h i n hf _ hinv
    exact ⟨hleaf h i n (by omega) hinv, List.Perm.refl _, fun _ _ => rfl⟩
  | succ fuel ih =>
    intro h i n hf hn hinv
    simp only [heapDown]
    by_cases hge : 2 * i + 1 ≥ n
    · rw [if_pos hge]
      exact ⟨hleaf h i n hge hinv, List.Perm.refl _, fun _ _ => rfl⟩
    · rw [if_neg hge]
      obtain ⟨hjval, hjn, hjmin⟩ := smallerChild_spec less hord h i n (by omega) hn
      generalize hj : smallerChild less h i n = j at hjval hjn hjmin
      have hjl : j < h.length := by omega
      have hil : i < h.length := by omega
      have hgj : h.get? j = some (h.get ⟨j, hjl⟩) := List.get?_eq_get hjl
      have hgi : h.get? i = some (h.get ⟨i, hil⟩) := List.get?_eq_get hil
      have hpj : (j - 1) / 2 = i := by omega
      have hij : i ≠ j := by omega
      rw [hgj, hgi]
      simp only
      by_cases hless : less (h.get ⟨j, hjl⟩) (h.get ⟨i, hil⟩) = true
      · rw [if_pos hless]
        have hswap := heapSwap_get? h i j hil hjl
        obtain ⟨hr1, hr2, hr3⟩ := ih (heapSwap h i j) j n (by omega)
          (by rw [heapSwap_length]; exact hn) (by
            constructor
            · intro k x y hk hkn hpk hx hy
              rw [hswap] at hx hy
              by_cases hkj : k = j
              · subst hkj
                rw [if_pos rfl, hgi] at hx
                rw [hpj, if_neg hij, if_pos rfl, hgj] at hy
                cases hx; cases hy
                exact hasym _ _ hless
              · rw [if_neg hkj] at hx
                rw [if_neg hpk] at hy
                by_cases hki : k = i
                · subst hki
                  rw [if_pos rfl, hgj] at hx
                  cases hx
                  have hp2 : ¬ ((k - 1) / 2 = k) := by omega
                  rw [if_neg hp2] at hy
                  exact hinv.2 j _ y (by omega) hjn (by omega) hpj hgj hy
                · rw [if_neg hki] at hx
                  by_cases hpi : (k - 1) / 2 = i
                  · rw [if_pos hpi, hgj] at hy
                    cases hy
                    exact hjmin k x _ (by omega) hkn hx hgj
                  · rw [if_neg hpi] at hy
                    exact hinv.1 k x y hk hkn hpi hx hy
            · intro k x z hk hkn hj0 hpk hx hz
              rw [hswap] at hx hz
              have hkj : ¬ k = j := by omega
              have hki : ¬ k = i := by omega
              rw [if_neg hkj, if_neg hki] at hx
              rw [hpj, if_neg hij, if_pos rfl, hgj] at hz
              cases hz
              exact hinv.1 k x _ hk hkn (by omega) hx (by rw [hpk]; exact hgj))
        refine ⟨hr1, hr2.trans (heapSwap_perm h i j), ?_⟩
        intro k hk
        rw [hr3 k hk, hswap]
        rw [if_neg (by omega), if_neg (by omega)]
      · rw [if_neg hless]
        refine ⟨?_, List.Perm.refl _, fun _ _ => rfl⟩
        intro k x y hk hkn hx hy
        by_cases hpi : (k - 1) / 2 = i
        · rw [hpi, hgi] at hy
          cases hy
          have h1 : less (h.get ⟨j, hjl⟩) (h.get ⟨i, hil⟩) = false := by simpa using hless
          have h2 := hjmin k x _ (by omega) hkn hx hgj
          exact htrans _ _ _ h1 h2
        · exact hinv.1 k x y hk hkn hpi hx hy

theorem isHeap_root_min {α : Type} (less : α → α → Bool) (hord : heapOrder less)
    (h : List α) (hh : isHeap less h h.length) (x : α) (hx : h.get? 0 = some x) :
    ∀ (k : Nat) (y : α), h.get? k = some y → less y x = false := by
  intro k
  induction k using Nat.strong_induction_on with
  | _ k ih =>
    intro y hy
    by_cases hk : k = 0
    · subst hk
      rw [hx] at hy
      cases hy
      exact less_irrefl_of_heapOrder less hord _
    · have hkl := get?_lt_length _ _ _ hy
      have hpl : (k - 1) / 2 < h.length := by omega
      have hz := List.get?_eq_get hpl
      have h1 := ih ((k - 1) / 2) (by omega) _ hz
      have h2 := hh k y _ (by omega) hkl hy hz
      exact hord.2 _ _ _ h1 h2

theorem heapPop_heap {α : Type} [DecidableEq α] (less : α → α → Bool) (hord : heapOrder less)
    (h : List α) (hne : h ≠ []) (hh : isHeap less h h.length) :
    ∃ x h2, heapPop less h = some (x, h2) ∧ h.get? 0 = some x ∧
      isHeap less h2 h2.length ∧ (x :: h2).Perm h ∧ h2.length + 1 = h.length := by
  have hpos : 0 < h.length := List.length_pos.2 hne
  have hnl : h.length - 1 < h.length := by omega
  have hswap := heapSwap_get? h 0 (h.length - 1) hpos hnl
  have hinv : downInvariant less (heapSwap h 0 (h.length - 1)) 0 (h.length - 1) := by
    constructor
    · intro k x y hk hkn hpk hx hy
      rw [hswap] at hx hy
      rw [if_neg (by omega), if_neg (by omega)] at hx
      rw [if_neg (by omega), if_neg hpk] at hy
      exact hh k x y hk (by omega) hx hy
    · intro k x z _ _ h0
      omega
  obtain ⟨hd1, hd2, hd3⟩ := heapDown_heap less hord (h.length - 1)
    (heapSwap h 0 (h.length - 1)) 0 (h.length - 1) (by omega)
    (by rw [heapSwap_length]; omega) hinv
  generalize hD : heapDown less (h.length - 1) (heapSwap h 0 (h.length - 1)) 0 (h.length - 1) = D
    at hd1 hd2 hd3
  have hDlen : D.length = h.length := by
    rw [hd2.length_eq, heapSwap_length]
  have hlast : D.get? (h.length - 1) = h.get? 0 := by
    rw [hd3 _ (le_refl _), hswap, if_pos rfl]
  have hx0 : h.get? 0 = some (h.get ⟨0, hpos⟩) := List.get?_eq_get hpos
  have hgl : D.getLast? = some (h.get ⟨0, hpos⟩) := by
    rw [List.getLast?_eq_getElem?, hDlen, ← List.get?_eq_getElem?, hlast, hx0]
  refine ⟨h.get ⟨0, hpos⟩, D.dropLast, ?_, hx0, ?_, ?_, ?_⟩
  · unfold heapPop
    rw [hD, hgl]
  · intro k x y hk hkn hx hy
    rw [List.length_dropLast, hDlen] at hkn
    simp only [List.get?_eq_getElem?, List.getElem?_dropLast, hDlen] at hx hy
    rw [if_pos hkn] at hx
    rw [if_pos (by omega)] at hy
    exact hd1 k x y hk hkn (by simpa using hx) (by simpa using hy)
  · have hcat := List.dropLast_append_getLast? _ hgl
    have hp : (h.get ⟨0, hpos⟩ :: D.dropLast).Perm D := by
      have := (List.perm_append_comm : (D.dropLast ++ [h.get ⟨0, hpos⟩]).Perm
        ([h.get ⟨0, hpos⟩] ++ D.dropLast))
      rw [hcat] at this
      exact this.symm
    exact hp.trans (hd2.trans (heapSwap_perm h 0 (h.length - 1)))
  · rw [List.length_dropLast, hDlen]
    omega

theorem Less_iff_keyLess (r other : sortableRecord) :
    r.Less other = true ↔ keyLess r.key other.key := by
  unfold sortableRecord.Less keyLess sortableRecord.key Time.Before Time.After
  simp only [decide_eq_true_eq]
  by_cases h1 : r.time < other.time
  · simp [h1]
  · by_cases h2 : other.time < r.time
    · have h3 : ¬ r.time = other.time := by unfold Time at *; omega
      simp [h1, h2, h3]
    · have h3 : r.time = other.time := by unfold Time at *; omega
      by_cases h4 : r.record.queueIndex < other.record.queueIndex
      · simp [h1, h2, h3, h4]
      · by_cases h5 : r.record.queueIndex > other.record.queueIndex
        · have h6 : ¬ r.record.queueIndex = other.record.queueIndex := by omega
          simp [h3, h4, h5, h6]
        · have h6 : r.record.queueIndex = other.record.queueIndex := by omega
          simp [h3, h6]

theorem keyLess_irrefl (a : Int × Int × Nat) : ¬ keyLess a a := by
  unfold keyLess
  omega

theorem keyLess_trans (a b c : Int × Int × Nat) (h1 : keyLess a b) (h2 : keyLess b c) :
    keyLess a c := by
  unfold keyLess at *
  omega

theorem keyLess_total (a b : Int × Int × Nat) (h : a ≠ b) : keyLess a b ∨ keyLess b a := by
  unfold keyLess
  have : a.1 ≠ b.1 ∨ a.2.1 ≠ b.2.1 ∨ a.2.2 ≠ b.2.2 := by
    by_contra hcon
    simp only [not_or, not_not] at hcon
    exact h (Prod.ext hcon.1 (Prod.ext hcon.2.1 hcon.2.2))
  omega

theorem keyLess_asymm (a b : Int × Int × Nat) (h : keyLess a b) : ¬ keyLess b a := by
  unfold keyLess at *
  omega

theorem Less_heapOrder : heapOrder sortableRecord.Less := by
  constructor
  · intro a b h
    have h1 := (Less_iff_keyLess a b).1 h
    cases hb : b.Less a with
    | false => rfl
    | true => exact absurd ((Less_iff_keyLess b a).1 hb) (keyLess_asymm _ _ h1)
  · intro a b c h1 h2
    cases hc : c.Less a with
    | false => rfl
    | true =>
      have hca := (Less_iff_keyLess c a).1 hc
      have hba : ¬ keyLess b.key a.key := by
        intro h
        rw [(Less_iff_keyLess b a).2 h] at h1
        cases h1
      have hcb : ¬ keyLess c.key b.key := by
        intro h
        rw [(Less_iff_keyLess c b).2 h] at h2
        cases h2
      exfalso
      unfold keyLess at *
      omega

theorem flushHeapLoop_sorted (fuel : Nat) :
    ∀ (h : List sortableRecord), h.length ≤ fuel → isHeap sortableRecord.Less h h.length →
      (flushHeapLoop fuel h).1 = [] ∧ (flushHeapLoop fuel h).2.Perm h ∧
      (flushHeapLoop fuel h).2.Pairwise (fun a b => b.Less a = false) := by
  induction fuel with
  | zero =>
    intro h hl _
    have : h = [] := List.length_eq_zero.1 (by omega)
    subst this
    exact ⟨rfl, List.Perm.refl _, List.Pairwise.nil⟩
  | succ fuel ih =>
    intro h hl hh
    simp only [flushHeapLoop]
    by_cases hpos : h.length > 0
    · rw [if_pos hpos]
      obtain ⟨x, h2, hpop, hx, hh2, hperm, hlen⟩ :=
        heapPop_heap sortableRecord.Less Less_heapOrder h (List.length_pos.1 hpos) hh
      rw [hpop]
      simp only
      obtain ⟨h1, hp, hs⟩ := ih h2 (by omega) hh2
      refine ⟨h1, (hp.cons x).trans hperm, List.Pairwise.cons ?_ hs⟩
      intro y hy
      have hy2 : y ∈ h := hperm.subset (List.mem_cons_of_mem _ (hp.subset hy))
      obtain ⟨k, hk⟩ := List.mem_iff_get?.1 hy2
      exact isHeap_root_min sortableRecord.Less Less_heapOrder h hh x hx k y hk
    · rw [if_neg hpos]
      have : h = [] := List.length_eq_zero.1 (by omega)
      subst this
      exact ⟨rfl, List.Perm.refl _, List.Pairwise.nil⟩

theorem isHeap_nil {α : Type} (less : α → α → Bool) : isHeap less ([] : List α) 0 := by
  intro k x y _ hk
  omega

theorem sorterStep_heap (state : List sortableRecord × List sortableRecord) (e : SorterEvent)
    (h : isHeap sortableRecord.Less state.1 state.1.length) :
    isHeap sortableRecord.Less (sorterStep state e).1 (sorterStep state e).1.length := by
  cases e with
  | received r =>
    simp only [sorterStep]
    rw [heapPush_length]
    exact (heapPush_heap sortableRecord.Less Less_heapOrder state.1 r h).1
  | tick =>
    simp only [sorterStep]
    have := (flushHeapLoop_sorted state.1.length state.1 (le_refl _) h).1
    unfold flushHeap
    rw [this]
    exact isHeap_nil _

theorem sorter_foldl_heap (events : List SorterEvent) :
    ∀ (state : List sortableRecord × List sortableRecord),
      isHeap sortableRecord.Less state.1 state.1.length →
      isHeap sortableRecord.Less (events.foldl sorterStep state).1
        (events.foldl sorterStep state).1.length := by
  induction events with
  | nil => intro state h; exact h
  | cons e events ih =>
    intro state h
    simp only [List.foldl_cons]
    exact ih _ (sorterStep_heap state e h)

theorem sorter_foldl_received (rs : List sortableRecord) :
    ∀ (state : List sortableRecord × List sortableRecord),
      isHeap sortableRecord.Less state.1 state.1.length →
      ((rs.map SorterEvent.received).foldl sorterStep state).1.Perm (state.1 ++ rs) ∧
      ((rs.map SorterEvent.received).foldl sorterStep state).2 = state.2 := by
  induction rs with
  | nil => intro state _; simp
  | cons r rs ih =>
    intro state h
    simp only [List.map_cons, List.foldl_cons]
    have hstep := sorterStep_heap state (SorterEvent.received r) h
    obtain ⟨h1, h2⟩ := ih _ hstep
    refine ⟨?_, h2⟩
    refine h1.trans ?_
    simp only [sorterStep]
    have hp := (heapPush_heap sortableRecord.Less Less_heapOrder state.1 r h).2
    exact (hp.append_right rs).trans List.perm_middle.symm

theorem startWatchingOnQueue_get? (queueIndex : Int) (lines : List String) (i : Nat)
    (a : parsedRecord) (h : (startWatchingOnQueue queueIndex lines).get? i = some a) :
    a.queueIndex = queueIndex ∧ a.sequence = i % 2 ^ 64 := by
  unfold startWatchingOnQueue at h
  simp only [List.get?_eq_getElem?, List.getElem?_map, List.getElem?_enum] at h
  cases hl : lines[i]? with
  | none => rw [hl] at h; cases h
  | some l =>
    rw [hl] at h
    simp only [Option.map_some', Option.some.injEq] at h
    subst h
    exact ⟨rfl, rfl⟩

/-- C25: `sortableRecord.Less` is the strict lexicographic order on the key
(time, family index, sequence): it is irreflexive and transitive, and of two
records with different keys exactly one is less than the other.  Two records of
the same family in the same second are ordered by their sequence, which for the
records of one watcher is their order in the file (below `2^64` records).
Whatever was received and flushed before, a flush empties the heap and emits
the records buffered in it in non-decreasing key order, and the heap holds the
records received since the last flush. -/
theorem C25_less_is_lexicographic :
    (∀ a : sortableRecord, a.Less a = false) ∧
    (∀ a b c : sortableRecord, a.Less b = true → b.Less c = true → a.Less c = true) ∧
    (∀ a b : sortableRecord, a.key ≠ b.key →
      (a.Less b = true ∧ b.Less a = false) ∨ (b.Less a = true ∧ a.Less b = false)) ∧
    (∀ a b : sortableRecord, a.Less b = true ↔ keyLess a.key b.key) ∧
    (∀ a b : sortableRecord, a.time = b.time → a.record.queueIndex = b.record.queueIndex →
      (a.Less b = true ↔ a.record.sequence < b.record.sequence)) ∧
    (∀ (queueIndex : Int) (lines : List String) (i j : Nat) (a b : parsedRecord) (t : Time),
      i < j → j < 2 ^ 64 →
      (startWatchingOnQueue queueIndex lines).get? i = some a →
      (startWatchingOnQueue queueIndex lines).get? j = some b →
      (sortableRecord.mk a t).Less (sortableRecord.mk b t) = true) ∧
    (∀ events : List SorterEvent,
      (flushHeap (sorterLoop events).1).1 = [] ∧
      (flushHeap (sorterLoop events).1).2.Perm (sorterLoop events).1 ∧
      (flushHeap (sorterLoop events).1).2.Pairwise (fun a b => b.Less a = false)) ∧
    (∀ (events : List SorterEvent) (rs : List sortableRecord),
      (sorterLoop (events ++ SorterEvent.tick :: rs.map SorterEvent.received)).1.Perm rs ∧
      (sorterLoop (rs.map SorterEvent.received)).1.Perm rs) := by
  have hirr : ∀ a : sortableRecord, a.Less a = false :=
    less_irrefl_of_heapOrder _ Less_heapOrder
  have hheap : ∀ events : List SorterEvent,
      isHeap sortableRecord.Less (sorterLoop events).1 (sorterLoop events).1.length :=
    fun events => sorter_foldl_heap events ([], []) (isHeap_nil _)
  refine ⟨hirr, ?_, ?_, Less_iff_keyLess, ?_, ?_, ?_, ?_⟩
  · intro a b c h1 h2
    rw [Less_iff_keyLess] at *
    exact keyLess_trans _ _ _ h1 h2
  · intro a b hne
    rcases keyLess_total _ _ hne with h | h
    · exact Or.inl ⟨(Less_iff_keyLess a b).2 h, Less_heapOrder.1 _ _ ((Less_iff_keyLess a b).2 h)⟩
    · exact Or.inr ⟨(Less_iff_keyLess b a).2 h, Less_heapOrder.1 _ _ ((Less_iff_keyLess b a).2 h)⟩
  · intro a b ht hq
    rw [Less_iff_keyLess]
    unfold keyLess sortableRecord.key
    simp only
    unfold Time at *
    omega
  · intro queueIndex lines i j a b t hij hj ha hb
    obtain ⟨ha1, ha2⟩ := startWatchingOnQueue_get? queueIndex lines i a ha
    obtain ⟨hb1, hb2⟩ := startWatchingOnQueue_get? queueIndex lines j b hb
    rw [Less_iff_keyLess]
    unfold keyLess sortableRecord.key
    simp only
    rw [Nat.mod_eq_of_lt (by omega)] at ha2
    rw [Nat.mod_eq_of_lt hj] at hb2
    right
    refine ⟨trivial, Or.inr ⟨by rw [ha1, hb1], by omega⟩⟩
  · intro events
    exact flushHeapLoop_sorted _ _ (le_refl _) (hheap events)
  · intro events rs
    constructor
    · unfold sorterLoop
      rw [List.foldl_append, List.foldl_cons]
      have hpre := sorter_foldl_heap events ([], []) (isHeap_nil _)
      have hflush := (flushHeapLoop_sorted _ _ (le_refl _) hpre).1
      have hstate : (sorterStep (events.foldl sorterStep ([], [])) SorterEvent.tick).1 = [] := by
        simp only [sorterStep]
        exact hflush
      have hrec := (sorter_foldl_received rs
        (sorterStep (events.foldl sorterStep ([], [])) SorterEvent.tick)
        (by rw [hstate]; exact isHeap_nil _)).1
      rw [hstate, List.nil_append] at hrec
      exact hrec
    · unfold sorterLoop
      have hrec := (sorter_foldl_received rs ([], []) (isHeap_nil _)).1
      simpa using hrec

/-- The sample live records through the sorter: pushed in the order `b`, `c`,
`a` and flushed at channel close, they are sent in key order `c`, `a`, `b`. -/
theorem sample_sorter_evaluated :
    (publishNewLogsSorted (sampleLiveRecords.map SorterEvent.received)).map (fun r => r.line)
      = ["c", "a", "b"] := by
  decide

theorem daysIn_le_leap (year : Int) (m : Month) :
    (m.daysBeforeInLeapYear + daysIn year m ≤ m.next.daysBeforeInLeapYear ∨
      m = Month.December) := by
  cases m <;> simp [Month.daysBeforeInLeapYear, Month.next, daysIn]
  split <;> omega

theorem add12Hours_later (t : UTCTime) (hv : t.valid)
    (hy : t.add12Hours.year = t.year) :
    secondsInTheYearForTime t ≤ secondsInTheYearForTime t.add12Hours := by
  obtain ⟨hd1, hd2, hh, _, _⟩ := hv
  unfold UTCTime.add12Hours at hy ⊢
  by_cases h1 : t.hour < 12
  · rw [if_pos h1]
    simp only [secondsInTheYearForTime, secondInTheYear]
    push_cast
    omega
  · rw [if_neg h1] at hy ⊢
    by_cases h2 : t.day < daysIn t.year t.month
    · rw [if_pos h2]
      simp only [secondsInTheYearForTime, secondInTheYear]
      have : ((t.hour - 12 : Nat) : Int) = (t.hour : Int) - 12 := by omega
      rw [this]
      push_cast
      omega
    · rw [if_neg h2] at hy ⊢
      by_cases h3 : t.month = Month.December
      · rw [if_pos h3] at hy
        simp only at hy
        omega
      · rw [if_neg h3]
        simp only [secondsInTheYearForTime, secondInTheYear]
        have hsub : ((t.hour - 12 : Nat) : Int) = (t.hour : Int) - 12 := by omega
        rw [hsub]
        rcases daysIn_le_leap t.year t.month with hle | hdec
        · have hle2 : ((t.month.daysBeforeInLeapYear : Int) + (t.day : Int))
              ≤ (t.month.next.daysBeforeInLeapYear : Int) := by
            have : t.month.daysBeforeInLeapYear + t.day ≤ t.month.next.daysBeforeInLeapYear := by
              omega
            exact_mod_cast this
          push_cast
          omega
        · exact absurd hdec h3

theorem add12Hours_cases (t : UTCTime) (hv : t.valid) :
    (t.add12Hours.year = t.year ∧
      secondsInTheYearForTime t ≤ secondsInTheYearForTime t.add12Hours) ∨
    t.add12Hours.year = t.year + 1 := by
  rcases add12Hours_year t with h | h
  · exact Or.inl ⟨h, add12Hours_later t hv h⟩
  · exact Or.inr h.1

theorem oneLineYear_arith (y y12 m m12 f : Int)
    (hcases : (y12 = y ∧ m ≤ m12) ∨ y12 = y + 1)
    (hone : y12 = y + 1 → (m < f ∨ f ≤ m12)) :
    (y - (if m < f then 1 else 0)) + (y12 - y) < y12 ∨
      ((y - (if m < f then 1 else 0)) + (y12 - y) = y12 ∧ f ≤ m12) := by
  split <;> omega

theorem manyLinesYear_arith (y y12 m m12 f l : Int)
    (hcases : (y12 = y ∧ m ≤ m12) ∨ y12 = y + 1) :
    y - (if ordered f m l = true ∨ ordered m f l = true then
          basicOffset f l m12 - (y12 - y)
        else basicOffset f l m) < y12 ∨
      (y - (if ordered f m l = true ∨ ordered m f l = true then
            basicOffset f l m12 - (y12 - y)
          else basicOffset f l m) = y12 ∧ f ≤ m12) := by
  unfold basicOffset ordered
  simp only [decide_eq_true_eq]
  split <;> split <;> omega

theorem oneLineYear_notAfter (modificationTime : UTCTime) (tf : parser.Time)
    (hvalid : modificationTime.valid)
    (hone : modificationTime.add12Hours.year = modificationTime.year + 1 →
      (secondsInTheYearForTime modificationTime
          < secondInTheYear tf.Month tf.Day tf.Hour tf.Minute tf.Second ∨
        secondInTheYear tf.Month tf.Day tf.Hour tf.Minute tf.Second
          ≤ secondsInTheYearForTime modificationTime.add12Hours)) :
    (plainTimeFormat.ConvertWithYear tf (oneLineYear modificationTime tf)).notAfter
      modificationTime.add12Hours = true := by
  unfold UTCTime.notAfter
  exact decide_eq_true (oneLineYear_arith modificationTime.year modificationTime.add12Hours.year
    (secondsInTheYearForTime modificationTime)
    (secondsInTheYearForTime modificationTime.add12Hours)
    (secondInTheYear tf.Month tf.Day tf.Hour tf.Minute tf.Second)
    (add12Hours_cases modificationTime hvalid) hone)

theorem manyLinesYear_notAfter (modificationTime : UTCTime) (tf tl : parser.Time)
    (hvalid : modificationTime.valid) :
    (plainTimeFormat.ConvertWithYear tf (manyLinesYear modificationTime tf tl)).notAfter
      modificationTime.add12Hours = true := by
  unfold UTCTime.notAfter
  exact decide_eq_true (manyLinesYear_arith modificationTime.year modificationTime.add12Hours.year
    (secondsInTheYearForTime modificationTime)
    (secondsInTheYearForTime modificationTime.add12Hours)
    (secondInTheYear tf.Month tf.Day tf.Hour tf.Minute tf.Second)
    (secondInTheYear tl.Month tl.Day tl.Hour tl.Minute tl.Second)
    (add12Hours_cases modificationTime hvalid))

/-- C28 fails on the code: a file whose only line is dated `Dec 31 10:00:00`,
last written on 31 December 2020 at 13:00:00 UTC, is dated 31 December 2021, a
year after the modification time plus 12 hours (1 January 2021 at 01:00:00):
the branch for a file of one line adds the year of the 12-hour jump whatever
the line, whereas a file holding that line twice is dated 31 December 2020.
The same happens on a host in UTC itself, with the line `Dec 31 12:30:00`
written at the modification time. -/
theorem C28_one_line_dated_next_year :
    guessInitialDateForFile plainTimeFormat [some ⟨Month.December, 31, 10, 0, 0⟩]
        ⟨2020, Month.December, 31, 13, 0, 0⟩
      = Except.ok ⟨2021, Month.December, 31, 10, 0, 0⟩ ∧
    (UTCTime.mk 2020 Month.December 31 13 0 0).add12Hours = ⟨2021, Month.January, 1, 1, 0, 0⟩ ∧
    (UTCTime.mk 2021 Month.December 31 10 0 0).notAfter
      (UTCTime.mk 2020 Month.December 31 13 0 0).add12Hours = false ∧
    guessInitialDateForFile plainTimeFormat
        [some ⟨Month.December, 31, 10, 0, 0⟩, some ⟨Month.December, 31, 10, 0, 0⟩]
        ⟨2020, Month.December, 31, 13, 0, 0⟩
      = Except.ok ⟨2020, Month.December, 31, 10, 0, 0⟩ ∧
    guessInitialDateForFile plainTimeFormat [some ⟨Month.December, 31, 12, 30, 0⟩]
        ⟨2020, Month.December, 31, 12, 30, 0⟩
      = Except.ok ⟨2021, Month.December, 31, 12, 30, 0⟩ ∧
    (UTCTime.mk 2021 Month.December 31 12 30 0).notAfter
      (UTCTime.mk 2020 Month.December 31 12 30 0).add12Hours = false := by
  refine ⟨by rfl, by decide, by decide, by rfl, by rfl, by decide⟩

/-- The guess for a file of two lines or more is not later than the UTC
modification time plus 12 hours, whatever the lines: the year of the 12-hour
jump is taken off only in the branch that compares with the modification time
plus 12 hours. -/
theorem guessInitialDateForFile_manyLines_notAfter (modificationTime : UTCTime)
    (tf : parser.Time) (second : Option parser.Time) (rest : List (Option parser.Time))
    (t : UTCTime) (hvalid : modificationTime.valid)
    (h : guessInitialDateForFile plainTimeFormat (some tf :: second :: rest) modificationTime
      = Except.ok t) :
    t.notAfter modificationTime.add12Hours = true := by
  unfold guessInitialDateForFile at h
  simp only at h
  cases hl : (second :: rest).getLast? with
  | none => simp at hl
  | some last =>
    rw [hl] at h
    cases last with
    | none => cases h
    | some tl =>
      simp only [Except.ok.injEq] at h
      subst h
      exact manyLinesYear_notAfter modificationTime tf tl hvalid

end ControlCenter
